import Mathlib

/-!
# A paging simulator: embedding and verified properties

The development embeds the paging engine of the simulator (`types.h`,
`pager.cpp`, `main.cpp`): the page tables, the frame table, the free list,
the six replacement policies and the per-instruction body of `simulate`.

Conventions of the embedding:

* arrays (`page_table`, `frame_table`, `age`) and the vector `processes` are
  total functions on `Nat`; every access the source performs is bounds-checked
  in the model and an out-of-bounds access (undefined behaviour in the source)
  makes the operation return `none`;
* one-bit bit-fields are `Bool`; storing an `int` into one keeps its low bit
  (`bit1`); the seven-bit field `frame` stores its value modulo 128;
* the 64-bit counters (`cost`, `inst_count`, the per-process statistics, ...)
  are natural numbers: they only ever grow by bounded increments, and a trace
  held in memory is far too short to wrap any of them; the unsigned
  subtractions of the policies are modelled with wrap-around (`usub64`);
* pointers to processes and frames are indices;
* `printf`/`fprintf` output is not modelled.
-/

namespace VMM

/-! ## types.h -/

def MAX_FRAMES : Nat := 128

def MAX_VPAGES : Nat := 64

/-- Page-table entry: the bit-fields of `pte_t`. -/
@[ext]
structure pte_t where
  present : Bool
  write_protect : Bool
  modified : Bool
  referenced : Bool
  pagedout : Bool
  frame : Nat
  file_mapped : Bool
  deriving DecidableEq

/-- Virtual memory area, four `int` fields. -/
structure VMA where
  start_vpage : Int
  end_vpage : Int
  write_protected : Int
  file_mapped : Int
  deriving DecidableEq

/-- Frame-table entry. -/
@[ext]
structure frame_t where
  proc_id : Int
  vpage : Int
  age : Nat
  last_used : Nat
  deriving DecidableEq

/-- Process record: page table of `MAX_VPAGES` entries, VMAs and statistics. -/
@[ext]
structure Process where
  pid : Int
  page_table : Nat → pte_t
  vmas : List VMA
  unmaps : Nat
  maps : Nat
  ins : Nat
  outs : Nat
  fins : Nat
  fouts : Nat
  zeros : Nat
  segv : Nat
  segprot : Nat

/-- One line of the instruction stream. -/
structure Instruction where
  op : Char
  value : Int
  deriving DecidableEq

/-! ## pager.h: the policies and their private state -/

/-- The six pagers with their member variables. -/
inductive Pager where
  | FIFO (hand : Nat)
  | Random (random_values : List Int) (ofs : Nat)
  | Clock (hand : Nat)
  | NRU (hand : Nat) (last_reset : Nat)
  | Aging (hand : Nat) (age : Nat → Nat)
  | WorkingSet (hand : Nat)

/-- The globals of `main.cpp` together with the pager object. -/
@[ext]
structure State where
  processes : Nat → Process
  nprocs : Nat
  frame_table : Nat → frame_t
  free_frames : List Nat
  current_process : Option Nat
  inst_count : Nat
  ctx_switches : Nat
  process_exits : Nat
  cost : Nat
  pager : Pager

/-! ## Small helpers of the embedding -/

/-- Array store `f[i] = a`. -/
def upd {α : Type} (f : Nat → α) (i : Nat) (a : α) : Nat → α :=
  fun j => if j = i then a else f j

/-- Low bit of an `int`, the value a one-bit unsigned bit-field keeps. -/
def bit1 (x : Int) : Bool := x % 2 != 0

/-- Unsigned 64-bit subtraction `a - b`. -/
def usub64 (a b : Nat) : Nat := (a + 2 ^ 64 - b % 2 ^ 64) % 2 ^ 64

/-- The entry `processes[p].page_table[v]`. -/
def get_pte (s : State) (p v : Nat) : pte_t := (s.processes p).page_table v

/-- Store into `processes[p].page_table[v]`. -/
def set_pte (s : State) (p v : Nat) (e : pte_t) : State :=
  let pr := s.processes p
  { s with processes := upd s.processes p ({ pr with page_table := upd pr.page_table v e }) }

/-- Replace the statistics-carrying record `processes[p]` by `f` of it. -/
def map_proc (s : State) (p : Nat) (f : Process → Process) : State :=
  { s with processes := upd s.processes p (f (s.processes p)) }

/-- The page `(proc_id, vpage)` a frame-table slot names, when both indices are
within `processes` and `page_table`; `none` stands for an out-of-bounds
access. -/
def slot_page (s : State) (i : Nat) : Option (Nat × Nat) :=
  match (s.frame_table i).proc_id, (s.frame_table i).vpage with
  | Int.ofNat p, Int.ofNat v =>
    if p < s.nprocs ∧ v < MAX_VPAGES then some (p, v) else none
  | _, _ => none

/-- Clear or set the referenced bit of a page. -/
def set_referenced (s : State) (p v : Nat) (b : Bool) : State :=
  set_pte s p v { (get_pte s p v) with referenced := b }

/-! ## pager.cpp -/

/-- Embedding of `FIFO_Pager::select_victim_frame`. -/
def FIFO_select (s : State) (hand : Nat) : Option (Nat × State) :=
  if hand < MAX_FRAMES then
    some (hand, { s with pager := Pager.FIFO ((hand + 1) % MAX_FRAMES) })
  else none

/-- Embedding of `Random_Pager::select_victim_frame`; `%` on `int` truncates toward zero. -/
def Random_select (s : State) (random_values : List Int) (ofs : Nat) :
    Option (Nat × State) :=
  match random_values[ofs]? with
  | none => none
  | some x =>
    match Int.tmod x (MAX_FRAMES : Int) with
    | Int.ofNat r =>
      some (r, { s with pager := Pager.Random random_values ((ofs + 1) % random_values.length) })
    | Int.negSucc _ => none

/-- The `while (true)` loop of `Clock_Pager::select_victim_frame`; the first
argument bounds the number of probes. -/
def Clock_loop : Nat → State → Nat → Option (Nat × State)
  | 0, _, _ => none
  | fuel + 1, s, hand =>
    if hand < MAX_FRAMES then
      match slot_page s hand with
      | none => none
      | some (p, v) =>
        if (get_pte s p v).referenced then
          Clock_loop fuel (set_referenced s p v false) ((hand + 1) % MAX_FRAMES)
        else
          some (hand, { s with pager := Pager.Clock ((hand + 1) % MAX_FRAMES) })
    else none

/-- Embedding of `Clock_Pager::select_victim_frame`. -/
def Clock_select (s : State) (hand : Nat) : Option (Nat × State) :=
  Clock_loop (MAX_FRAMES + 1) s hand

/-- One iteration of the reset loop of NRU: frame-table slot `i`. -/
def NRU_reset_slot (s : State) (i : Nat) : Option State :=
  if (s.frame_table i).proc_id ≠ -1 then
    match slot_page s i with
    | none => none
    | some (p, v) => some (set_referenced s p v false)
  else some s

/-- The reset loop of NRU, `for (i = 0; i < MAX_FRAMES; ++i)`. -/
def NRU_reset (s : State) : Option State :=
  (List.range MAX_FRAMES).foldlM NRU_reset_slot s

/-- The `do ... while (hand != start_hand)` scan of NRU. Returns the final
`hand`, `min_class` and `victim_frame` (`none` for `-1`). -/
def NRU_scan (s : State) (start_hand : Nat) :
    Nat → Nat → Nat → Option Nat → Option (Nat × Nat × Option Nat)
  | 0, _, _, _ => none
  | fuel + 1, hand, min_class, victim_frame =>
    if hand < MAX_FRAMES then
      if (s.frame_table hand).proc_id ≠ -1 then
        match slot_page s hand with
        | none => none
        | some (p, v) =>
          let nru_class :=
            ((get_pte s p v).referenced.toNat <<< 1) ||| (get_pte s p v).modified.toNat
          let min_class1 := if nru_class < min_class then nru_class else min_class
          let victim1 := if nru_class < min_class then some hand else victim_frame
          if min_class1 = 0 then some (hand, min_class1, victim1)
          else if (hand + 1) % MAX_FRAMES ≠ start_hand then
            NRU_scan s start_hand fuel ((hand + 1) % MAX_FRAMES) min_class1 victim1
          else some ((hand + 1) % MAX_FRAMES, min_class1, victim1)
      else if (hand + 1) % MAX_FRAMES ≠ start_hand then
        NRU_scan s start_hand fuel ((hand + 1) % MAX_FRAMES) min_class victim_frame
      else some ((hand + 1) % MAX_FRAMES, min_class, victim_frame)
    else none

/-- Embedding of `NRU_Pager::select_victim_frame`. -/
def NRU_select (s : State) (hand last_reset : Nat) : Option (Nat × State) :=
  let r : Option (State × Nat) :=
    if usub64 s.inst_count last_reset ≥ 10 then
      (NRU_reset s).map (fun s1 => (s1, s.inst_count))
    else some (s, last_reset)
  match r with
  | none => none
  | some (s1, last_reset1) =>
    match NRU_scan s1 hand MAX_FRAMES hand 4 none with
    | none => none
    | some (hand1, _, some victim_frame) =>
      some (victim_frame, { s1 with pager := Pager.NRU hand1 last_reset1 })
    | some (hand1, _, none) =>
      some (hand1, { s1 with pager := Pager.NRU ((hand1 + 1) % MAX_FRAMES) last_reset1 })

/-- The `do ... while` scan of Aging. Returns the state with the referenced
bits cleared, the age array, the final `hand`, `min_age` and `victim_frame`. -/
def Aging_scan (start_hand : Nat) :
    Nat → State → (Nat → Nat) → Nat → Nat → Option Nat →
      Option (State × (Nat → Nat) × Nat × Nat × Option Nat)
  | 0, _, _, _, _, _ => none
  | fuel + 1, s, age, hand, min_age, victim_frame =>
    if hand < MAX_FRAMES then
      if (s.frame_table hand).proc_id ≠ -1 then
        match slot_page s hand with
        | none => none
        | some (p, v) =>
          let age1 := upd age hand (age hand >>> 1)
          let age2 := if (get_pte s p v).referenced then
            upd age1 hand (age1 hand ||| 0x80000000) else age1
          let s1 := if (get_pte s p v).referenced then
            set_referenced s p v false else s
          let min_age1 := if age2 hand < min_age then age2 hand else min_age
          let victim1 := if age2 hand < min_age then some hand else victim_frame
          if (hand + 1) % MAX_FRAMES ≠ start_hand then
            Aging_scan start_hand fuel s1 age2 ((hand + 1) % MAX_FRAMES) min_age1 victim1
          else some (s1, age2, (hand + 1) % MAX_FRAMES, min_age1, victim1)
      else if (hand + 1) % MAX_FRAMES ≠ start_hand then
        Aging_scan start_hand fuel s age ((hand + 1) % MAX_FRAMES) min_age victim_frame
      else some (s, age, (hand + 1) % MAX_FRAMES, min_age, victim_frame)
    else none

/-- Embedding of `Aging_Pager::select_victim_frame`. -/
def Aging_select (s : State) (hand : Nat) (age : Nat → Nat) : Option (Nat × State) :=
  match Aging_scan hand MAX_FRAMES s age hand 0xFFFFFFFF none with
  | none => none
  | some (s1, age1, hand1, _, victim) =>
    let victim_frame := match victim with
      | some f => f
      | none => hand1
    some (victim_frame,
      { s1 with pager := Pager.Aging ((victim_frame + 1) % MAX_FRAMES) (upd age1 victim_frame 0) })

/-- Store into `frame_table[i].last_used`. -/
def set_last_used (s : State) (i t : Nat) : State :=
  { s with frame_table := upd s.frame_table i { (s.frame_table i) with last_used := t } }

/-- The `do ... while` scan of Working Set. `Sum.inl` is the early `return`
inside the loop (frame and state, `hand` already advanced); `Sum.inr` is the
normal loop exit with the final `hand` and `oldest_frame`. -/
def WorkingSet_scan (start_hand : Nat) :
    Nat → State → Nat → Nat → Option Nat →
      Option ((Nat × State) ⊕ (State × Nat × Option Nat))
  | 0, _, _, _, _ => none
  | fuel + 1, s, hand, oldest_time, oldest_frame =>
    if hand < MAX_FRAMES then
      if (s.frame_table hand).proc_id ≠ -1 then
        match slot_page s hand with
        | none => none
        | some (p, v) =>
          if (get_pte s p v).referenced then
            let s1 := set_referenced (set_last_used s hand s.inst_count) p v false
            let oldest_time1 :=
              if (s1.frame_table hand).last_used < oldest_time then
                (s1.frame_table hand).last_used else oldest_time
            let oldest1 :=
              if (s1.frame_table hand).last_used < oldest_time then some hand else oldest_frame
            if (hand + 1) % MAX_FRAMES ≠ start_hand then
              WorkingSet_scan start_hand fuel s1 ((hand + 1) % MAX_FRAMES) oldest_time1 oldest1
            else some (Sum.inr (s1, (hand + 1) % MAX_FRAMES, oldest1))
          else if usub64 s.inst_count (s.frame_table hand).last_used > 49 then
            some (Sum.inl (hand,
              { s with pager := Pager.WorkingSet ((hand + 1) % MAX_FRAMES) }))
          else
            let oldest_time1 :=
              if (s.frame_table hand).last_used < oldest_time then
                (s.frame_table hand).last_used else oldest_time
            let oldest1 :=
              if (s.frame_table hand).last_used < oldest_time then some hand else oldest_frame
            if (hand + 1) % MAX_FRAMES ≠ start_hand then
              WorkingSet_scan start_hand fuel s ((hand + 1) % MAX_FRAMES) oldest_time1 oldest1
            else some (Sum.inr (s, (hand + 1) % MAX_FRAMES, oldest1))
      else if (hand + 1) % MAX_FRAMES ≠ start_hand then
        WorkingSet_scan start_hand fuel s ((hand + 1) % MAX_FRAMES) oldest_time oldest_frame
      else some (Sum.inr (s, (hand + 1) % MAX_FRAMES, oldest_frame))
    else none

/-- Embedding of `WorkingSet_Pager::select_victim_frame`. -/
def WorkingSet_select (s : State) (hand : Nat) : Option (Nat × State) :=
  match WorkingSet_scan hand MAX_FRAMES s hand s.inst_count none with
  | none => none
  | some (Sum.inl r) => some r
  | some (Sum.inr (s1, hand1, oldest)) =>
    let oldest_frame := match oldest with
      | some f => f
      | none => hand1
    some (oldest_frame, { s1 with pager := Pager.WorkingSet ((oldest_frame + 1) % MAX_FRAMES) })

/-- Virtual dispatch of `pager->select_victim_frame()`. -/
def select_victim_frame (s : State) : Option (Nat × State) :=
  match s.pager with
  | Pager.FIFO hand => FIFO_select s hand
  | Pager.Random random_values ofs => Random_select s random_values ofs
  | Pager.Clock hand => Clock_select s hand
  | Pager.NRU hand last_reset => NRU_select s hand last_reset
  | Pager.Aging hand age => Aging_select s hand age
  | Pager.WorkingSet hand => WorkingSet_select s hand

/-- Virtual dispatch of `pager->reset_age(frame)`: only Aging overrides it. -/
def reset_age (pg : Pager) (frame : Nat) : Pager :=
  match pg with
  | Pager.Aging hand age => Pager.Aging hand (upd age frame 0)
  | other => other

/-! ## main.cpp -/

/-- The zero-initialised global `frame_table`. -/
def zero_frame : frame_t := ⟨0, 0, 0, 0⟩

/-- The all-zero page-table entry. -/
def zero_pte : pte_t := ⟨false, false, false, false, false, 0, false⟩

/-- Embedding of `init_frame_table`: the loop over `i < num_frames`, on the pair of the
frame table and the free list. -/
def init_frame_table (num_frames : Nat) : (Nat → frame_t) × List Nat :=
  (List.range num_frames).foldl
    (fun acc i => (upd acc.1 i ⟨-1, -1, 0, 0⟩, acc.2 ++ [i]))
    (fun _ => zero_frame, [])

/-- Embedding of `get_frame`: the head of the free list, else the victim chosen by the policy. -/
def get_frame (s : State) : Option (Nat × State) :=
  match s.free_frames with
  | frame_id :: rest => some (frame_id, { s with free_frames := rest })
  | [] => select_victim_frame s

/-- Embedding of `is_in_vma`: the first VMA containing `vpage`, if any. -/
def is_in_vma (proc : Process) (vpage : Nat) : Option VMA :=
  proc.vmas.find? (fun vma => (vpage : Int) ≥ vma.start_vpage && (vpage : Int) ≤ vma.end_vpage)

/-- Lines 113-133 of `handle_page_fault`: unmap the page `(op, ov)` that frame `f`
names and append `f` to the free list. -/
def evict_page (s : State) (f op ov : Nat) : State :=
  let s1 := map_proc s op (fun pr => { pr with unmaps := pr.unmaps + 1 })
  let s2 := { s1 with cost := s1.cost + 400 }
  let s3 :=
    if (get_pte s2 op ov).modified && (get_pte s2 op ov).file_mapped then
      let t := map_proc s2 op (fun pr => { pr with fouts := pr.fouts + 1 })
      { t with cost := t.cost + 1523 }
    else s2
  let e := get_pte s3 op ov
  let s4 := set_pte s3 op ov
    ({ e with present := false, frame := 0, referenced := false, modified := false })
  { s4 with free_frames := s4.free_frames ++ [f] }

/-- Lines 112-134 of `handle_page_fault`: the guard `newframe->proc_id != -1` and
the eviction of the occupant. -/
def evict (s : State) (f : Nat) : Option State :=
  if (s.frame_table f).proc_id ≠ -1 then
    match slot_page s f with
    | none => none
    | some (op, ov) => some (evict_page s f op ov)
  else some s

/-- Lines 135-171 of `handle_page_fault`: fill frame `f` for page `vpage` of
process `p` and map it. -/
def fill (s : State) (p vpage : Nat) (op : Char) (vma : VMA) (f : Nat) : State :=
  let s1 :=
    if vma.file_mapped ≠ 0 then
      let t := map_proc s p (fun pr => { pr with fins := pr.fins + 1 })
      { t with cost := t.cost + 1500 }
    else
      let t := map_proc s p (fun pr => { pr with zeros := pr.zeros + 1 })
      { t with cost := t.cost + 140 }
  let s2 := map_proc s1 p (fun pr => { pr with maps := pr.maps + 1 })
  let s3 := { s2 with cost := s2.cost + 300 }
  let e0 := get_pte s3 p vpage
  let e1a := { e0 with present := true, frame := f % 128 }
  let e1b := { e1a with write_protect := bit1 vma.write_protected }
  let e1 := { e1b with file_mapped := bit1 vma.file_mapped, referenced := true }
  let e2 := if !e1.pagedout then { e1 with pagedout := true } else e1
  let e3 :=
    if op = 'w' ∧ vma.write_protected = 0 then { e2 with modified := true }
    else if op = 'r' ∧ vma.file_mapped = 0 then { e2 with modified := true }
    else if op = 'r' ∧ vma.file_mapped ≠ 0 then { e2 with modified := true }
    else e2
  let s4 := set_pte s3 p vpage e3
  let s5 :=
    if op = 'w' ∧ vma.write_protected ≠ 0 then
      let t := map_proc s4 p (fun pr => { pr with segprot := pr.segprot + 1 })
      { t with cost := t.cost + 340 }
    else s4
  let fr := s5.frame_table f
  let fr6 := { fr with proc_id := (s5.processes p).pid, vpage := (vpage : Int) }
  let s6 := { s5 with frame_table := upd s5.frame_table f fr6 }
  let s7 := { s6 with pager := reset_age s6.pager (get_pte s6 p vpage).frame }
  let fr7 := s7.frame_table f
  { s7 with frame_table := upd s7.frame_table f ({ fr7 with last_used := s7.inst_count }) }

/-- Embedding of `handle_page_fault(proc, vpage, op, ...)`. -/
def handle_page_fault (s : State) (p vpage : Nat) (op : Char) : Option State :=
  match is_in_vma (s.processes p) vpage with
  | none =>
    let s1 := map_proc s p (fun pr => { pr with segv := pr.segv + 1 })
    some { s1 with cost := s1.cost + 444 }
  | some vma =>
    match get_frame s with
    | none => none
    | some (f, s1) =>
      if f < MAX_FRAMES then
        match evict s1 f with
        | none => none
        | some s2 => some (fill s2 p vpage op vma f)
      else none

/-- Branch `inst.op == 'c'` of `simulate`. -/
def ctx_switch (s : State) (n : Nat) : State :=
  let s1 :=
    if s.current_process ≠ some n ∧ (s.current_process ≠ none ∨ s.ctx_switches = 0) then
      { s with ctx_switches := s.ctx_switches + 1, cost := s.cost + 130 }
    else s
  { s1 with current_process := some n }

/-- Body of the loop over `i < MAX_VPAGES` in the exit branch. -/
def exit_page (n : Nat) (s : State) (i : Nat) : State :=
  if (get_pte s n i).present then
    let s1 := map_proc s n (fun pr => { pr with unmaps := pr.unmaps + 1 })
    let s2 := { s1 with cost := s1.cost + 400 }
    let s3 :=
      if (get_pte s2 n i).modified && (get_pte s2 n i).file_mapped then
        let t := map_proc s2 n (fun pr => { pr with fouts := pr.fouts + 1 })
        { t with cost := t.cost + 1523 }
      else s2
    let s4 := { s3 with free_frames := s3.free_frames ++ [(get_pte s3 n i).frame] }
    let e := get_pte s4 n i
    let e1 := { e with present := false, frame := 0, referenced := false, modified := false }
    set_pte s4 n i ({ e1 with write_protect := false, file_mapped := false, pagedout := false })
  else s

/-- Branch `inst.op == 'e'` of `simulate`. -/
def process_exit (s : State) (n : Nat) : State :=
  let s1 := (List.range MAX_VPAGES).foldl (exit_page n) s
  let s2 := { s1 with process_exits := s1.process_exits + 1, cost := s1.cost + 400 }
  if s2.current_process = some n then { s2 with current_process := none } else s2

/-- The final `else` branch of `simulate`: a memory reference by the current
process `p` to page `vpage`. -/
def mem_ref (s : State) (p vpage : Nat) (op : Char) : Option State :=
  let r : Option State :=
    if !(get_pte s p vpage).present then handle_page_fault s p vpage op
    else if op = 'w' ∧ (get_pte s p vpage).write_protect then
      let s1 := map_proc s p (fun pr => { pr with segprot := pr.segprot + 1 })
      let s2 := { s1 with cost := s1.cost + 340 }
      some (set_pte s2 p vpage { (get_pte s2 p vpage) with referenced := true, pagedout := true })
    else
      let s1 := set_pte s p vpage { (get_pte s p vpage) with referenced := true }
      let s2 :=
        if op = 'w' ∧ ¬ (get_pte s1 p vpage).write_protect then
          set_pte s1 p vpage { (get_pte s1 p vpage) with modified := true }
        else s1
      let s3 :=
        if (op = 'r' ∨ op = 'w') ∧ (get_pte s2 p vpage).file_mapped then
          set_pte s2 p vpage { (get_pte s2 p vpage) with modified := true }
        else s2
      some s3
  r.map (fun t => { t with cost := t.cost + 1 })

/-- One iteration of the instruction loop of `simulate`. -/
def step (s : State) (inst : Instruction) : Option State :=
  let r : Option State :=
    if inst.op = 'c' then
      match inst.value with
      | Int.ofNat n => if n < s.nprocs then some (ctx_switch s n) else none
      | Int.negSucc _ => none
    else if inst.op = 'e' then
      match inst.value with
      | Int.ofNat n => if n < s.nprocs then some (process_exit s n) else none
      | Int.negSucc _ => none
    else
      match s.current_process, inst.value with
      | some p, Int.ofNat vpage =>
        if p < s.nprocs ∧ vpage < MAX_VPAGES then mem_ref s p vpage inst.op else none
      | _, _ => none
  r.map (fun t => { t with inst_count := t.inst_count + 1 })

/-- The instruction loop of `simulate`. -/
def simulate (s : State) (instructions : List Instruction) : Option State :=
  instructions.foldlM step s

/-- The `-a` option. -/
inductive Algo where
  | f | r | c | e | a | w
  deriving DecidableEq

/-- The `switch (algo)` of `main` with the pager constructors. -/
def make_pager (algo : Algo) (random_values : List Int) : Pager :=
  match algo with
  | Algo.f => Pager.FIFO 0
  | Algo.r => Pager.Random random_values 0
  | Algo.c => Pager.Clock 0
  | Algo.e => Pager.NRU 0 0
  | Algo.a => Pager.Aging 0 (fun _ => 0)
  | Algo.w => Pager.WorkingSet 0

/-- A process as `read_input` creates it. -/
def new_process (i : Nat) (vmas : List VMA) : Process :=
  { pid := (i : Int), page_table := fun _ => zero_pte, vmas := vmas,
    unmaps := 0, maps := 0, ins := 0, outs := 0, fins := 0, fouts := 0,
    zeros := 0, segv := 0, segprot := 0 }

/-- The state `main` hands to `simulate`: `read_input` on an input file with
the VMA lists `vmas` (one per process), `init_frame_table(num_frames)` and the
pager for `algo`. -/
def initial_state (vmas : List (List VMA)) (num_frames : Nat) (algo : Algo)
    (random_values : List Int) : State :=
  { processes := fun i => new_process i (vmas.getD i []),
    nprocs := vmas.length,
    frame_table := (init_frame_table num_frames).1,
    free_frames := (init_frame_table num_frames).2,
    current_process := none,
    inst_count := 0, ctx_switches := 0, process_exits := 0, cost := 0,
    pager := make_pager algo random_values }


/-! ## Quantities the properties are stated with -/

/-- Number of page-table entries of a process with `present = 1`. -/
def present_count (pr : Process) : Nat :=
  (List.range MAX_VPAGES).countP (fun i => (pr.page_table i).present)

/-- Number of present entries that are both `modified` and `file_mapped`. -/
def dirty_file_count (pr : Process) : Nat :=
  (List.range MAX_VPAGES).countP (fun i =>
    (pr.page_table i).present && ((pr.page_table i).modified && (pr.page_table i).file_mapped))

/-- Closed form of the state after the first `j` iterations of the exit loop for
process `n` (proved equal to the loop in `exit_loop_eq`). -/
def exit_closed (s : State) (n j : Nat) : State :=
  let pr := s.processes n
  let k := (List.range j).countP (fun i => (pr.page_table i).present)
  let m := (List.range j).countP (fun i =>
    (pr.page_table i).present && ((pr.page_table i).modified && (pr.page_table i).file_mapped))
  let pt := fun i => if i < j ∧ (pr.page_table i).present = true then zero_pte else pr.page_table i
  let freed := ((List.range j).filter (fun i => (pr.page_table i).present)).map
    (fun i => (pr.page_table i).frame)
  let pr1 := { pr with page_table := pt, unmaps := pr.unmaps + k, fouts := pr.fouts + m }
  { s with processes := upd s.processes n pr1, cost := s.cost + 400 * k + 1523 * m, free_frames := s.free_frames ++ freed }

/-- Number of present page-table entries over all processes. -/
def total_present (s : State) : Nat :=
  ((List.range s.nprocs).map (fun p => present_count (s.processes p))).sum

/-- One process with the single VMA `[0..7]`, neither write-protected nor file-mapped. -/
def one_proc : List (List VMA) := [[⟨0, 7, 0, 0⟩]]

/-! ## What the policies leave alone

A replacement policy only clears referenced bits, stores `last_used` stamps and
updates its own members. `norm` erases exactly these parts of a state, so two
states with equal `norm` agree on everything else. -/

/-- A page-table entry without its referenced bit. -/
def norm_pte (e : pte_t) : pte_t := { e with referenced := false }

/-- A process without the referenced bits of its page table. -/
def norm_proc (pr : Process) : Process :=
  { pr with page_table := fun v => norm_pte (pr.page_table v) }

/-- A frame-table entry without `age` and `last_used`. -/
def norm_frame (fr : frame_t) : frame_t := { fr with age := 0, last_used := 0 }

/-- A state without referenced bits, frame stamps and pager members. -/
def norm (s : State) : State :=
  { s with processes := fun p => norm_proc (s.processes p), frame_table := fun i => norm_frame (s.frame_table i), pager := Pager.FIFO 0 }

/-- Members of a pager are within bounds: the hand indexes the 128-slot table, and
the random values are a non-empty list of non-negative numbers. -/
def PagerOK : Pager → Prop
  | Pager.FIFO hand => hand < MAX_FRAMES
  | Pager.Random random_values ofs =>
    ofs < random_values.length ∧ ∀ x ∈ random_values, (0 : Int) ≤ x
  | Pager.Clock hand => hand < MAX_FRAMES
  | Pager.NRU hand _ => hand < MAX_FRAMES
  | Pager.Aging hand _ => hand < MAX_FRAMES
  | Pager.WorkingSet hand => hand < MAX_FRAMES

/-- Every slot of the 128-entry frame table is marked free (`proc_id = -1`) or
names a page of an existing process. -/
def SlotsOK (s : State) : Prop :=
  ∀ i, i < MAX_FRAMES → (s.frame_table i).proc_id = -1 ∨ (slot_page s i).isSome = true

/-- The page a frame-table slot names has its referenced bit clear. -/
def RefClear (s : State) (i : Nat) : Prop :=
  ∀ p v, slot_page s i = some (p, v) → (get_pte s p v).referenced = false

/-- What every `select_victim_frame` guarantees about its result `(f, t)` from `s`:
only referenced bits, frame stamps and pager members differ, the frame is a slot of
the 128-entry table, and the pager members stay within bounds. -/
def PagerPost (s : State) (r : Nat × State) : Prop :=
  norm r.2 = norm s ∧ r.1 < MAX_FRAMES ∧ PagerOK r.2.pager

/-- What the scan of Working Set guarantees about its outcome, relative to the
state `s` it started from. -/
def WSPost (s : State) : (Nat × State) ⊕ (State × Nat × Option Nat) → Prop
  | Sum.inl r => PagerPost s r
  | Sum.inr (s1, hand1, oldest) =>
    norm s1 = norm s ∧ hand1 < MAX_FRAMES ∧ ∀ f, oldest = some f → f < MAX_FRAMES

/-! ## Invariants of reachable states -/

/-- Invariants that hold after every instruction of a valid run, and also in the
middle of a page fault. -/
structure Core (s : State) : Prop where
  /-- slots of the frame table are marked free or name a page of an existing process -/
  slots : 0 < s.nprocs → SlotsOK s
  /-- the free list holds slots of the 128-entry table -/
  free_lt : ∀ i, i ∈ s.free_frames → i < MAX_FRAMES
  /-- the pager members are within bounds -/
  pager : PagerOK s.pager
  /-- the current process exists -/
  cur : ∀ p, s.current_process = some p → p < s.nprocs
  /-- each process record carries its own index: `processes[p].pid = p` -/
  pid : ∀ p, p < s.nprocs → (s.processes p).pid = (p : Int)
  /-- the seven-bit frame field -/
  frame_lt : ∀ p v, (get_pte s p v).frame < MAX_FRAMES
  /-- the frame of a present entry names the page of that entry -/
  consistent : ∀ p v, p < s.nprocs → v < MAX_VPAGES → (get_pte s p v).present = true →
    (s.frame_table (get_pte s p v).frame).proc_id = (p : Int) ∧
    (s.frame_table (get_pte s p v).frame).vpage = (v : Int)
  /-- entries that are not present are not modified -/
  clean : ∀ p v, (get_pte s p v).present = false → (get_pte s p v).modified = false
  /-- the protection bits of a present entry are those of the first VMA holding the page -/
  cached : ∀ p v, (get_pte s p v).present = true →
    ∃ vma, is_in_vma (s.processes p) v = some vma ∧
      (get_pte s p v).write_protect = bit1 vma.write_protected ∧
      (get_pte s p v).file_mapped = bit1 vma.file_mapped

/-- Every slot marked free (`proc_id = -1`), other than slot `f`, is on the free list. -/
def FreeMarked (s : State) (f : Nat) : Prop :=
  ∀ i, i < MAX_FRAMES → i ≠ f → (s.frame_table i).proc_id = -1 → i ∈ s.free_frames

/-- The invariants between two instructions. (`MAX_FRAMES` is no slot, so no slot is
excepted.) -/
def WF (s : State) : Prop := Core s ∧ FreeMarked s MAX_FRAMES

/-- The charges recorded in the statistics of one process, priced by the cost table. -/
def stat_cost (pr : Process) : Nat :=
  400 * pr.unmaps + 300 * pr.maps + 3200 * pr.ins + 3000 * pr.outs + 1500 * pr.fins
    + 1523 * pr.fouts + 140 * pr.zeros + 444 * pr.segv + 340 * pr.segprot

/-- Sum of the priced statistics of processes `0 .. n-1`. -/
def stat_sum (procs : Nat → Process) : Nat → Nat
  | 0 => 0
  | n + 1 => stat_sum procs n + stat_cost (procs n)

/-- Everything the cost table charges except the unit cost of `r`/`w` instructions:
context switches, exits and the per-process statistics. -/
def acct (s : State) : Nat :=
  130 * s.ctx_switches + 400 * s.process_exits + stat_sum s.processes s.nprocs

/-- Is the instruction a memory reference `r` or `w`. -/
def is_rw (inst : Instruction) : Bool := inst.op == 'r' || inst.op == 'w'

/-- Number of `r`/`w` instructions of a trace. -/
def rw_count (insts : List Instruction) : Nat := insts.countP is_rw

/-- The current process after an instruction, as the trace alone determines it. -/
def next_cur (cur : Option Nat) (inst : Instruction) : Option Nat :=
  if inst.op = 'c' then some inst.value.toNat
  else if inst.op = 'e' then (if cur = some inst.value.toNat then none else cur)
  else cur

/-- Validity of one instruction for `nprocs` processes and current process `cur`:
`c`/`e` name an existing process; anything else is `r` or `w` on a page in `0..63`,
issued while a current process is set. -/
def valid_inst (nprocs : Nat) (cur : Option Nat) (inst : Instruction) : Bool :=
  if inst.op = 'c' ∨ inst.op = 'e' then decide (0 ≤ inst.value ∧ inst.value < nprocs)
  else (inst.op == 'r' || inst.op == 'w') && cur.isSome &&
    decide (0 ≤ inst.value ∧ inst.value < MAX_VPAGES)

/-- Validity of a trace for `nprocs` processes when started with current process
`cur`: every instruction is valid where it is issued. -/
def valid_trace (nprocs : Nat) : Option Nat → List Instruction → Bool
  | _, [] => true
  | cur, inst :: rest =>
    valid_inst nprocs cur inst && valid_trace nprocs (next_cur cur inst) rest

/-- Validity of the run parameters: between 1 and 128 frames, and for the Random
policy a non-empty list of non-negative random values. -/
def valid_config (num_frames : Nat) (algo : Algo) (random_values : List Int) : Prop :=
  1 ≤ num_frames ∧ num_frames ≤ MAX_FRAMES ∧
    (algo = Algo.r → random_values ≠ [] ∧ ∀ x ∈ random_values, (0 : Int) ≤ x)

/-- How an operation other than the mapping of a page may change one page-table
entry: it is dropped (left or made non-present, clean, with a frame field in
range), or it stays present with the same frame and protection bits. -/
def PteStep (e e2 : pte_t) : Prop :=
  (e2.present = false ∧ e2.modified = false ∧ e2.frame < MAX_FRAMES) ∨
  (e.present = true ∧ e2.present = true ∧ e2.frame = e.frame ∧
    e2.write_protect = e.write_protect ∧ e2.file_mapped = e.file_mapped)

/-- An operation charged `d`: `cost` and the recorded charges grow by `d`. -/
def Charged (s t : State) (d : Nat) : Prop :=
  t.cost = s.cost + d ∧ acct t = acct s + d

/-- Charge of an eviction: UNMAP, plus FOUT for a modified file-mapped page. -/
def evict_charge (e : pte_t) : Nat := 400 + (if e.modified && e.file_mapped then 1523 else 0)

/-- Closed form of `evict_page` (proved in `evict_page_eq`). -/
def evict_closed (s : State) (f op ov : Nat) : State :=
  let pr := s.processes op
  let e := pr.page_table ov
  let e1 : pte_t := { e with present := false, frame := 0, referenced := false, modified := false }
  let pr1 : Process := { pr with page_table := upd pr.page_table ov e1, unmaps := pr.unmaps + 1, fouts := pr.fouts + (if e.modified && e.file_mapped then 1 else 0) }
  { s with processes := upd s.processes op pr1, cost := s.cost + evict_charge e, free_frames := s.free_frames ++ [f] }

/-- Charge of filling and mapping a frame: FIN or ZERO, MAP, and SEGPROT for a write
to a write-protected area. -/
def fill_charge (op : Char) (vma : VMA) : Nat :=
  (if vma.file_mapped ≠ 0 then 1500 else 140) + 300 +
    (if op = 'w' ∧ vma.write_protected ≠ 0 then 340 else 0)

/-- The page-table entry `fill` stores. -/
def fill_pte (e : pte_t) (op : Char) (vma : VMA) (f : Nat) : pte_t :=
  { present := true, write_protect := bit1 vma.write_protected, modified := (if (op = 'w' ∧ vma.write_protected = 0) ∨ op = 'r' then true else e.modified), referenced := true, pagedout := true, frame := f % 128, file_mapped := bit1 vma.file_mapped }

/-- Closed form of `fill` (proved in `fill_eq`). -/
def fill_closed (s : State) (p vpage : Nat) (op : Char) (vma : VMA) (f : Nat) : State :=
  let pr := s.processes p
  let pr1 : Process := { pr with page_table := upd pr.page_table vpage (fill_pte (pr.page_table vpage) op vma f), fins := pr.fins + (if vma.file_mapped ≠ 0 then 1 else 0), zeros := pr.zeros + (if vma.file_mapped ≠ 0 then 0 else 1), maps := pr.maps + 1, segprot := pr.segprot + (if op = 'w' ∧ vma.write_protected ≠ 0 then 1 else 0) }
  let fr := s.frame_table f
  let fr1 : frame_t := { fr with proc_id := pr.pid, vpage := (vpage : Int), last_used := s.inst_count }
  { s with processes := upd s.processes p pr1, cost := s.cost + fill_charge op vma, frame_table := upd s.frame_table f fr1, pager := reset_age s.pager (f % 128) }

/-- The entry a reference to a present page leaves behind. -/
def hit_pte (e : pte_t) (op : Char) : pte_t :=
  if op = 'w' ∧ e.write_protect = true then { e with referenced := true, pagedout := true }
  else { e with referenced := true, modified := (if (op = 'w' ∧ e.write_protect = false) ∨ ((op = 'r' ∨ op = 'w') ∧ e.file_mapped = true) then true else e.modified) }

/-- Charge of a reference to a present page, without the unit cost of the
instruction: SEGPROT for a write to a write-protected page. -/
def hit_charge (e : pte_t) (op : Char) : Nat :=
  if op = 'w' ∧ e.write_protect = true then 340 else 0

/-- Closed form of `mem_ref` on a present page (proved in `mem_ref_present`). -/
def hit_closed (s : State) (p vpage : Nat) (op : Char) : State :=
  let pr := s.processes p
  let e := pr.page_table vpage
  let pr1 : Process := { pr with page_table := upd pr.page_table vpage (hit_pte e op), segprot := pr.segprot + (if op = 'w' ∧ e.write_protect = true then 1 else 0) }
  { s with processes := upd s.processes p pr1, cost := s.cost + hit_charge e op + 1 }

/-- Closed form of `mem_ref` on a non-present page outside every VMA. -/
def segv_closed (s : State) (p : Nat) : State :=
  let pr := s.processes p
  { s with processes := upd s.processes p ({ pr with segv := pr.segv + 1 }), cost := s.cost + 444 + 1 }

/-- States reached from an initial state by a valid trace under valid run
parameters. -/
def Reachable (s : State) : Prop :=
  ∃ (vmas : List (List VMA)) (num_frames : Nat) (algo : Algo) (random_values : List Int)
    (insts : List Instruction),
    valid_config num_frames algo random_values ∧ valid_trace vmas.length none insts = true ∧
    simulate (initial_state vmas num_frames algo random_values) insts = some s

/-- One process whose only VMA `[0..7]` is write-protected and file-mapped. -/
def one_proc_wp : List (List VMA) := [[⟨0, 7, 1, 1⟩]]

/-- The state of `one_proc_wp` with one frame under FIFO after the instruction `c 0`. -/
def wp_state : State :=
  let s := ctx_switch (initial_state one_proc_wp 1 Algo.f []) 0
  { s with inst_count := s.inst_count + 1 }

/-- The `hand` member of a pager (`ofs` for Random, which has no hand). -/
def pager_hand : Pager → Nat
  | Pager.FIFO hand => hand
  | Pager.Random _ ofs => ofs
  | Pager.Clock hand => hand
  | Pager.NRU hand _ => hand
  | Pager.Aging hand _ => hand
  | Pager.WorkingSet hand => hand

/-- Closed form of the state after the instruction `e n` (proved in `exit_final_eq`). -/
def exit_final (s : State) (n : Nat) : State :=
  let u := exit_closed s n MAX_VPAGES
  { u with process_exits := s.process_exits + 1, cost := u.cost + 400, current_process := (if s.current_process = some n then none else s.current_process), inst_count := s.inst_count + 1 }

/-- The five ways one valid instruction takes a state `s` to a state `t`: a context
switch, an exit, a reference to a present page, a reference outside every VMA, and
a page fault on a legal page (frame `f` obtained in state `s1`, occupant evicted in
state `s2`, page mapped). -/
inductive StepKind (s : State) (inst : Instruction) (t : State) : Prop where
  | ctx (n : Nat) (hi : inst = ⟨'c', Int.ofNat n⟩) (hn : n < s.nprocs)
      (ht : t = { ctx_switch s n with inst_count := (ctx_switch s n).inst_count + 1 })
  | exit (n : Nat) (hi : inst = ⟨'e', Int.ofNat n⟩) (hn : n < s.nprocs)
      (ht : t = exit_final s n)
  | hit (p V : Nat) (hc : inst.op ≠ 'c') (he : inst.op ≠ 'e') (hval : inst.value = Int.ofNat V)
      (hcur : s.current_process = some p) (hp : p < s.nprocs) (hV : V < MAX_VPAGES)
      (hpres : (get_pte s p V).present = true)
      (ht : t = { hit_closed s p V inst.op with inst_count := s.inst_count + 1 })
  | segv (p V : Nat) (hc : inst.op ≠ 'c') (he : inst.op ≠ 'e') (hval : inst.value = Int.ofNat V)
      (hcur : s.current_process = some p) (hp : p < s.nprocs) (hV : V < MAX_VPAGES)
      (hpres : (get_pte s p V).present = false)
      (hvma : is_in_vma (s.processes p) V = none)
      (ht : t = { segv_closed s p with inst_count := s.inst_count + 1 })
  | fault (p V : Nat) (vma : VMA) (f : Nat) (s1 s2 : State)
      (hc : inst.op ≠ 'c') (he : inst.op ≠ 'e') (hval : inst.value = Int.ofNat V)
      (hcur : s.current_process = some p) (hp : p < s.nprocs) (hV : V < MAX_VPAGES)
      (hpres : (get_pte s p V).present = false)
      (hvma : is_in_vma (s.processes p) V = some vma)
      (hgf : get_frame s = some (f, s1)) (hev : evict s1 f = some s2) (hf : f < MAX_FRAMES)
      (hn1 : norm { s1 with free_frames := [] } = norm { s with free_frames := [] })
      (hc1 : Core s1) (hc2 : Core s2)
      (ht : t = { fill_closed s2 p V inst.op vma f with cost := (fill_closed s2 p V inst.op vma f).cost + 1, inst_count := s2.inst_count + 1 })

/-- Does the VMA contain the virtual page (both bounds inclusive). -/
def vma_contains (vma : VMA) (v : Int) : Prop := vma.start_vpage ≤ v ∧ v ≤ vma.end_vpage

/-- The input format of the flags: both are `0` or `1`. -/
def flags01 (vma : VMA) : Prop :=
  (vma.write_protected = 0 ∨ vma.write_protected = 1) ∧ (vma.file_mapped = 0 ∨ vma.file_mapped = 1)

/-- No virtual page lies in two VMAs of the list. -/
def vmas_disjoint (l : List VMA) : Prop :=
  l.Pairwise (fun a b => ∀ v : Int, ¬ (vma_contains a v ∧ vma_contains b v))

/-- Sum of a statistic `g` over processes `0 .. n-1`. -/
def proc_sum (g : Process → Nat) (procs : Nat → Process) : Nat → Nat
  | 0 => 0
  | n + 1 => proc_sum g procs n + g (procs n)

/-- Total number of MAP events so far: every page fault on a legal page increments
the `maps` counter of the faulting process once, and nothing else does. -/
def total_maps (s : State) : Nat := proc_sum Process.maps s.processes s.nprocs

/-- While fewer than `N` pages have been mapped in a run without exits, the free list
is `[maps .. N-1]` and those frames are still marked free. -/
def FreshFrames (N : Nat) (s : State) : Prop :=
  total_maps s ≤ N →
    s.free_frames = List.range' (total_maps s) (N - total_maps s) ∧
    ∀ i, total_maps s ≤ i → i < N → (s.frame_table i).proc_id = -1

/-- Four frames worth of trace from scenario 1 of the specification. -/
def scenario1 : List Instruction := [⟨'c', 0⟩, ⟨'r', 0⟩, ⟨'r', 1⟩, ⟨'r', 2⟩]

/-- SEGV events of process `q` that the instruction causes, read off the current
process and the VMAs alone: one for a reference by `q` outside all its VMAs. -/
def segv_delta (s : State) (inst : Instruction) (q : Nat) : Nat :=
  if inst.op ≠ 'c' ∧ inst.op ≠ 'e' ∧ s.current_process = some q ∧
      is_in_vma (s.processes q) inst.value.toNat = none then 1 else 0

/-- SEGPROT events of process `q` that the instruction causes, read off the current
process and the VMAs alone: one for a write by `q` to a page whose first matching
VMA is write-protected. -/
def segprot_delta (s : State) (inst : Instruction) (q : Nat) : Nat :=
  if inst.op = 'w' ∧ s.current_process = some q then
    match is_in_vma (s.processes q) inst.value.toNat with
    | some vma => if vma.write_protected ≠ 0 then 1 else 0
    | none => 0
  else 0

/-- Two states of runs of the same input under two policies agree on what the
fault totals depend on: the processes, the current process, the VMAs, every `segv`
counter and, provided `Fl` (write-protection flags are `0` or `1`), every `segprot`
counter. -/
def FaultRel (Fl : Prop) (a b : State) : Prop :=
  a.nprocs = b.nprocs ∧ a.current_process = b.current_process ∧
    ∀ q, (a.processes q).vmas = (b.processes q).vmas ∧
      (a.processes q).segv = (b.processes q).segv ∧
      (Fl → (a.processes q).segprot = (b.processes q).segprot)

/-- The write-protection flag of every VMA of every process is `0` or `1`. -/
def wp_flags01 (s : State) : Prop :=
  ∀ q vma, vma ∈ (s.processes q).vmas → vma.write_protected = 0 ∨ vma.write_protected = 1

/-- The trace of the counterexample to policy independence: three pages on two
frames, then the first page again. -/
def three_pages : List Instruction := [⟨'c', 0⟩, ⟨'r', 0⟩, ⟨'r', 1⟩, ⟨'r', 2⟩, ⟨'r', 0⟩]

/-! ## Vocabulary for the scans of NRU, Aging and Working Set -/

/-- Slot `i` of the frame table is not free: `frame_table[i].proc_id != -1`. -/
def occupied (s : State) (i : Nat) : Prop := (s.frame_table i).proc_id ≠ -1

/-- The slot a scan that starts at `hand` looks at in its step number `j` (from 0). -/
def scan_slot (hand j : Nat) : Nat := (hand + j) % MAX_FRAMES

/-- The NRU class `(referenced << 1) | modified` of the page in slot `i`. -/
def nru_class (s : State) (i : Nat) : Nat :=
  match slot_page s i with
  | some (p, v) => ((get_pte s p v).referenced.toNat <<< 1) ||| (get_pte s p v).modified.toNat
  | none => 0

/-- The effect of the periodic reset of NRU from `s` to `t`: the frame table and the
pager are untouched, only referenced bits differ, the page of every non-free slot
has its referenced bit clear, and the entries of all other pages are the same. -/
def NRUReset (s t : State) : Prop :=
  t.frame_table = s.frame_table ∧ t.pager = s.pager ∧ norm t = norm s ∧
    (∀ i, i < MAX_FRAMES → occupied s i → ∀ p v, slot_page s i = some (p, v) →
      (get_pte t p v).referenced = false) ∧
    (∀ p v, (∀ i, i < MAX_FRAMES → occupied s i → slot_page s i ≠ some (p, v)) →
      get_pte t p v = get_pte s p v)

/-- Loop invariant of the scan of NRU after `k` slots: nothing chosen means only
free slots were seen; otherwise the chosen slot is the first of the lowest class
among the non-free slots seen so far. -/
def NRUInv (s : State) (start k mc : Nat) (vf : Option Nat) : Prop :=
  (vf = none → mc = 4 ∧ ∀ j, j < k → ¬ occupied s (scan_slot start j)) ∧
    ∀ f, vf = some f → ∃ j0, j0 < k ∧ f = scan_slot start j0 ∧ occupied s f ∧
      nru_class s f = mc ∧
      (∀ j, j < k → occupied s (scan_slot start j) → mc ≤ nru_class s (scan_slot start j)) ∧
      ∀ j, j < j0 → occupied s (scan_slot start j) → nru_class s (scan_slot start j) ≠ mc

/-- A frame table whose first `n` slots hold the pages `0 .. n-1` of process 0 and
whose other slots are free. -/
def demo_frames (n : Nat) : Nat → frame_t :=
  fun i => if i < n then ⟨0, Int.ofNat i, 0, 0⟩ else ⟨-1, -1, 0, 0⟩

/-- A present page in frame `f` with the given referenced and modified bits. -/
def demo_pte (f : Nat) (r m : Bool) : pte_t := ⟨true, false, m, r, false, f, false⟩

/-- A state for NRU: one process, slots 0, 1, 2 hold its pages 0, 1, 2, all
referenced, page 0 also modified; `inst_count` is 10. -/
def nru_demo : State :=
  { processes := fun _ => { new_process 0 [⟨0, 7, 0, 0⟩] with page_table := fun v => if v = 0 then demo_pte 0 true true else if v < 3 then demo_pte v true false else zero_pte },
    nprocs := 1, frame_table := demo_frames 3, free_frames := [], current_process := some 0,
    inst_count := 10, ctx_switches := 1, process_exits := 0, cost := 0, pager := Pager.NRU 0 0 }

/-- Distinct non-free slots of the frame table name distinct pages. -/
def DistinctPages (s : State) : Prop :=
  ∀ i j, i < MAX_FRAMES → j < MAX_FRAMES → occupied s i → occupied s j →
    slot_page s i = slot_page s j → i = j

/-- The age Aging gives slot `i`: `age[i] >> 1`, with `0x80000000` or-ed in when the
page of the slot is referenced. -/
def aged (s : State) (age : Nat → Nat) (i : Nat) : Nat :=
  match slot_page s i with
  | some (p, v) =>
    if (get_pte s p v).referenced then (age i >>> 1) ||| 0x80000000 else age i >>> 1
  | none => age i

/-- Loop invariant of the scan of Aging after `k` slots, relative to the state `s0`
and the ages `age0` at entry. -/
structure AgingInv (s0 : State) (age0 : Nat → Nat) (start k : Nat) (s : State)
    (age : Nat → Nat) (ma : Nat) (vf : Option Nat) : Prop where
  /-- only referenced bits differ from the entry state -/
  hnorm : norm s = norm s0
  /-- the frame table is untouched -/
  hft : s.frame_table = s0.frame_table
  /-- the pages of the slots seen have their referenced bit clear -/
  cleared : ∀ j, j < k → ∀ p v, slot_page s0 (scan_slot start j) = some (p, v) →
    (get_pte s p v).referenced = false
  /-- the entries of all other pages are as at entry -/
  kept : ∀ p v, (∀ j, j < k → slot_page s0 (scan_slot start j) ≠ some (p, v)) →
    get_pte s p v = get_pte s0 p v
  /-- the slots seen have their new age -/
  done : ∀ j, j < k → age (scan_slot start j) = aged s0 age0 (scan_slot start j)
  /-- the other slots have their old age -/
  todo : ∀ i, (∀ j, j < k → i ≠ scan_slot start j) → age i = age0 i
  /-- nothing chosen: no new age is below `0xFFFFFFFF` -/
  vnone : vf = none → ma = 0xFFFFFFFF ∧
    ∀ j, j < k → 0xFFFFFFFF ≤ aged s0 age0 (scan_slot start j)
  /-- the chosen slot is the first one of the smallest new age seen -/
  vsome : ∀ f, vf = some f → ∃ j0, j0 < k ∧ f = scan_slot start j0 ∧ aged s0 age0 f = ma ∧
    (∀ j, j < k → ma ≤ aged s0 age0 (scan_slot start j)) ∧
    ∀ j, j < j0 → aged s0 age0 (scan_slot start j) ≠ ma

/-- The `age` array of the Aging pager (all zero for the other pagers). -/
def pager_age : Pager → Nat → Nat
  | Pager.Aging _ age => age
  | _ => fun _ => 0

/-- A full frame table: slot `i` holds page `i % 64` of process `i / 64`. -/
def full_frames (last_used : Nat → Nat) : Nat → frame_t :=
  fun i => ⟨Int.ofNat (i / 64), Int.ofNat (i % 64), 0, last_used i⟩

/-- A state for Aging: two processes whose 128 pages fill the frame table; only page 0
of process 0 (slot 0) is referenced. -/
def aging_demo : State :=
  { processes := fun q => { new_process q [⟨0, 63, 0, 0⟩] with page_table := fun v => demo_pte (64 * q + v) (decide (q = 0 ∧ v = 0)) false },
    nprocs := 2, frame_table := full_frames (fun _ => 0), free_frames := [],
    current_process := some 0, inst_count := 200, ctx_switches := 1, process_exits := 0,
    cost := 0, pager := Pager.Aging 0 (fun i => if i = 1 then 4 else 0) }

/-- The referenced bit of the page slot `i` names. -/
def slot_referenced (s : State) (i : Nat) : Bool :=
  match slot_page s i with
  | some (p, v) => (get_pte s p v).referenced
  | none => false

/-- Slot `i` is returned at once by the scan of Working Set: non-free, its page not
referenced, and last used more than `TAU = 49` instructions ago. -/
def ws_qualifies (s : State) (i : Nat) : Prop :=
  occupied s i ∧ slot_referenced s i = false ∧
    49 < s.inst_count - (s.frame_table i).last_used

/-- Slot `i` is refreshed by the scan of Working Set: non-free with a referenced page. -/
def ws_refreshed (s : State) (i : Nat) : Prop :=
  occupied s i ∧ slot_referenced s i = true

/-- Loop invariant of the scan of Working Set after `k` slots, relative to the state
`s0` at entry. -/
structure WSInv (s0 : State) (start k : Nat) (s : State) : Prop where
  /-- only referenced bits and frame stamps differ from the entry state -/
  hnorm : norm s = norm s0
  /-- the refreshed slots seen carry the current time -/
  stamped : ∀ j, j < k → ws_refreshed s0 (scan_slot start j) →
    s.frame_table (scan_slot start j) =
      { (s0.frame_table (scan_slot start j)) with last_used := s0.inst_count }
  /-- the pages of the refreshed slots seen have their referenced bit clear -/
  cleared : ∀ j, j < k → ws_refreshed s0 (scan_slot start j) →
    ∀ p v, slot_page s0 (scan_slot start j) = some (p, v) → (get_pte s p v).referenced = false
  /-- all other slots are as at entry -/
  frames_kept : ∀ i, (∀ j, j < k → ws_refreshed s0 (scan_slot start j) → i ≠ scan_slot start j) →
    s.frame_table i = s0.frame_table i
  /-- the entries of all other pages are as at entry -/
  ptes_kept : ∀ p v,
    (∀ j, j < k → ws_refreshed s0 (scan_slot start j) →
      slot_page s0 (scan_slot start j) ≠ some (p, v)) →
    get_pte s p v = get_pte s0 p v

/-- The `last_used` stamps of the state `ws_demo`. -/
def ws_lu (i : Nat) : Nat :=
  if i = 0 then 10 else if i = 1 then 151 else if i = 2 then 150 else 0

/-- A state for Working Set at `inst_count = 200`: slots 0, 1, 2 hold pages 0, 1, 2 of
the only process; page 0 is referenced, slot 1 was last used 49 instructions ago and
slot 2 was last used 50 instructions ago. -/
def ws_demo : State :=
  { processes := fun _ => { new_process 0 [⟨0, 7, 0, 0⟩] with page_table := fun v => if v < 3 then demo_pte v (decide (v = 0)) false else zero_pte },
    nprocs := 1, frame_table := fun i => { demo_frames 3 i with last_used := ws_lu i },
    free_frames := [], current_process := some 0, inst_count := 200, ctx_switches := 1,
    process_exits := 0, cost := 0, pager := Pager.WorkingSet 0 }

/-! ## Counting the calls of the replacement policy -/

/-- Number of calls of `pager->select_victim_frame()` while the instruction `inst` is
executed from state `s`, read off the control flow of `simulate`, `handle_page_fault`
and `get_frame`: one call when the instruction is a reference by the current process
to a non-present page inside a VMA and the free list is empty, none otherwise. -/
def policy_calls_step (s : State) (inst : Instruction) : Nat :=
  if inst.op = 'c' then 0
  else if inst.op = 'e' then 0
  else
    match s.current_process, inst.value with
    | some p, Int.ofNat vpage =>
      if p < s.nprocs ∧ vpage < MAX_VPAGES then
        if !(get_pte s p vpage).present then
          match is_in_vma (s.processes p) vpage with
          | none => 0
          | some _ =>
            match s.free_frames with
            | _ :: _ => 0
            | [] => 1
        else 0
      else 0
    | _, _ => 0

/-- Number of calls of `pager->select_victim_frame()` during a run. -/
def policy_calls : State → List Instruction → Nat
  | _, [] => 0
  | s, inst :: rest =>
    policy_calls_step s inst +
      (match step s inst with
       | some t => policy_calls t rest
       | none => 0)

/-- No slot of the 128-entry frame table is marked free. -/
def AllUsed (s : State) : Prop := ∀ i, i < MAX_FRAMES → (s.frame_table i).proc_id ≠ -1

/-- The condition that holds from the first call of the policy on: the free list is
not empty and no slot is marked free. -/
def AfterPolicy (s : State) : Prop := s.free_frames ≠ [] ∧ AllUsed s

/-- A state for Clock: two processes whose 128 pages fill the frame table, every page
referenced. -/
def clock_demo : State :=
  { processes := fun q => { new_process q [⟨0, 63, 0, 0⟩] with page_table := fun v => demo_pte (64 * q + v) true false },
    nprocs := 2, frame_table := full_frames (fun _ => 0), free_frames := [],
    current_process := some 0, inst_count := 200, ctx_switches := 1, process_exits := 0,
    cost := 0, pager := Pager.Clock 0 }

/-! ## Basic facts about the helpers -/

@[simp] theorem upd_same {α : Type} (f : Nat → α) (i : Nat) (a : α) : upd f i a i = a := by
  simp [upd]

@[simp] theorem upd_other {α : Type} (f : Nat → α) (i j : Nat) (a : α) (h : j ≠ i) :
    upd f i a j = f j := by
  simp [upd, h]

theorem upd_apply {α : Type} (f : Nat → α) (i j : Nat) (a : α) :
    upd f i a j = if j = i then a else f j := rfl

@[simp] theorem upd_upd {α : Type} (f : Nat → α) (i : Nat) (a b : α) :
    upd (upd f i a) i b = upd f i b := by
  funext j; simp only [upd]; split <;> rfl

theorem upd_self {α : Type} (f : Nat → α) (i : Nat) : upd f i (f i) = f := by
  funext j; simp only [upd]; split
  · next h => rw [h]
  · rfl

theorem is_in_vma_none (pr : Process) (V : Nat)
    (h : ∀ vma ∈ pr.vmas, ¬ (vma.start_vpage ≤ (V : Int) ∧ (V : Int) ≤ vma.end_vpage)) :
    is_in_vma pr V = none := by
  unfold is_in_vma
  rw [List.find?_eq_none]
  intro vma hv
  have := h vma hv
  simpa using this

/-! ## Context switch  -/

/-- Claim C10. `c N` with a valid pid charges one context switch (`ctx_switches + 1`,
`cost + 130`) exactly when a current process is set and differs from `N`, or none is
set and `ctx_switches = 0`; otherwise both are unchanged. In all cases the current
process becomes `N`, and the processes (page tables and statistics), the frame table,
the free list and the pager are unchanged. As a first instruction, `c 0` gives
`ctx_switches = 1` and `cost = 130`. -/
theorem ctx_switch_charging :
    (∀ (s : State) (n : Nat), n < s.nprocs →
      ∃ t, step s ⟨'c', (n : Int)⟩ = some t ∧
        (((∃ m, s.current_process = some m ∧ m ≠ n) ∨
            (s.current_process = none ∧ s.ctx_switches = 0)) →
          t.ctx_switches = s.ctx_switches + 1 ∧ t.cost = s.cost + 130) ∧
        (¬ ((∃ m, s.current_process = some m ∧ m ≠ n) ∨
            (s.current_process = none ∧ s.ctx_switches = 0)) →
          t.ctx_switches = s.ctx_switches ∧ t.cost = s.cost) ∧
        t.current_process = some n ∧ t.processes = s.processes ∧
        t.frame_table = s.frame_table ∧ t.free_frames = s.free_frames ∧
        t.nprocs = s.nprocs ∧ t.process_exits = s.process_exits ∧
        t.inst_count = s.inst_count + 1) ∧
    (∀ (vmas : List (List VMA)) (num_frames : Nat) (algo : Algo) (random_values : List Int),
      0 < vmas.length →
      ∃ t, step (initial_state vmas num_frames algo random_values) ⟨'c', 0⟩ = some t ∧
        t.ctx_switches = 1 ∧ t.cost = 130) := by
  constructor
  · intro s n hn
    have hstep : step s ⟨'c', (n : Int)⟩ =
        some { ctx_switch s n with inst_count := (ctx_switch s n).inst_count + 1 } := by
      show (Option.map _ (if ('c' : Char) = 'c' then
        (if n < s.nprocs then some (ctx_switch s n) else none) else _)) = _
      simp [hn]
    refine ⟨_, hstep, ?_, ?_, ?_, ?_, ?_, ?_, ?_, ?_, ?_⟩
    · intro h
      have hc : s.current_process ≠ some n ∧ (s.current_process ≠ none ∨ s.ctx_switches = 0) := by
        rcases h with ⟨m, hm, hne⟩ | ⟨h1, h2⟩
        · exact ⟨by rw [hm]; simpa using hne, Or.inl (by rw [hm]; simp)⟩
        · exact ⟨by rw [h1]; simp, Or.inr h2⟩
      simp [ctx_switch, hc]
    · intro h
      have hc : ¬ (s.current_process ≠ some n ∧ (s.current_process ≠ none ∨ s.ctx_switches = 0)) := by
        rintro ⟨h1, h2⟩
        apply h
        cases hcur : s.current_process with
        | none =>
          right
          rcases h2 with h2 | h2
          · exact absurd hcur h2
          · exact ⟨rfl, h2⟩
        | some m =>
          left
          refine ⟨m, rfl, ?_⟩
          intro e
          apply h1
          rw [hcur, e]
      simp [ctx_switch, hc]
    all_goals first | (simp only [ctx_switch]; split <;> rfl) | simp [ctx_switch]
  · intro vmas num_frames algo random_values hpos
    have hstep : step (initial_state vmas num_frames algo random_values) ⟨'c', 0⟩ =
        some { ctx_switch (initial_state vmas num_frames algo random_values) 0 with
          inst_count := (ctx_switch (initial_state vmas num_frames algo random_values) 0).inst_count + 1 } := by
      show (Option.map _ (if ('c' : Char) = 'c' then
        (if 0 < (initial_state vmas num_frames algo random_values).nprocs then
          some (ctx_switch (initial_state vmas num_frames algo random_values) 0) else none) else _)) = _
      have : 0 < (initial_state vmas num_frames algo random_values).nprocs := hpos
      simp [this]
    refine ⟨_, hstep, ?_, ?_⟩ <;> simp [ctx_switch, initial_state]


/-- Witness for C10 on the one-process input: the very first `c 0`. -/
theorem ctx_switch_charging_witness :
    ∃ t, step (initial_state [[]] 1 Algo.f []) ⟨'c', 0⟩ = some t ∧
      t.ctx_switches = 1 ∧ t.cost = 130 :=
  ctx_switch_charging.2 [[]] 1 Algo.f [] (by decide)

/-! ## SEGV -/

/-- Claim C8. A reference `r V` or `w V` by the current process to a non-present page
that lies in none of its VMAs yields exactly the old state with the `segv` of the process
incremented, `cost` increased by `444 + 1` and `inst_count` incremented: every page
table, the frame table, the free list, the pager and all other counters are the same. -/
theorem segv_untouched (s : State) (p V : Nat) (op : Char) (hop : op = 'r' ∨ op = 'w')
    (hcur : s.current_process = some p) (hp : p < s.nprocs) (hV : V < MAX_VPAGES)
    (hnp : (get_pte s p V).present = false)
    (hvma : ∀ vma ∈ (s.processes p).vmas,
      ¬ (vma.start_vpage ≤ (V : Int) ∧ (V : Int) ≤ vma.end_vpage)) :
    step s ⟨op, (V : Int)⟩ =
      some { s with
        processes := upd s.processes p
          ({ (s.processes p) with segv := (s.processes p).segv + 1 }),
        cost := s.cost + 444 + 1,
        inst_count := s.inst_count + 1 } := by
  have h1 := is_in_vma_none (s.processes p) V hvma
  have hc : op ≠ 'c' := by rcases hop with h | h <;> rw [h] <;> decide
  have he : op ≠ 'e' := by rcases hop with h | h <;> rw [h] <;> decide
  have hstep : step s ⟨op, (V : Int)⟩ =
      (mem_ref s p V op).map (fun t => { t with inst_count := t.inst_count + 1 }) := by
    show (Option.map _ (if op = 'c' then _ else if op = 'e' then _ else
      (match s.current_process, (V : Int) with
        | some p, Int.ofNat vpage =>
          if p < s.nprocs ∧ vpage < MAX_VPAGES then mem_ref s p vpage op else none
        | _, _ => none))) = _
    rw [if_neg hc, if_neg he, hcur]
    show (Option.map _ (if p < s.nprocs ∧ V < MAX_VPAGES then mem_ref s p V op else none)) = _
    rw [if_pos ⟨hp, hV⟩]
  rw [hstep]
  simp [mem_ref, hnp, handle_page_fault, h1, map_proc]

/-- Witness for C8: one process whose only VMA is `[0..3]`, current, referencing
page 9. -/
theorem segv_untouched_witness :
    step (ctx_switch (initial_state [[⟨0, 3, 0, 0⟩]] 1 Algo.f []) 0) ⟨'r', 9⟩ =
      some { ctx_switch (initial_state [[⟨0, 3, 0, 0⟩]] 1 Algo.f []) 0 with
        processes := upd (ctx_switch (initial_state [[⟨0, 3, 0, 0⟩]] 1 Algo.f []) 0).processes 0
          ({ ((ctx_switch (initial_state [[⟨0, 3, 0, 0⟩]] 1 Algo.f []) 0).processes 0) with
            segv := ((ctx_switch (initial_state [[⟨0, 3, 0, 0⟩]] 1 Algo.f []) 0).processes 0).segv + 1 }),
        cost := (ctx_switch (initial_state [[⟨0, 3, 0, 0⟩]] 1 Algo.f []) 0).cost + 444 + 1,
        inst_count := (ctx_switch (initial_state [[⟨0, 3, 0, 0⟩]] 1 Algo.f []) 0).inst_count + 1 } :=
  segv_untouched (ctx_switch (initial_state [[⟨0, 3, 0, 0⟩]] 1 Algo.f []) 0) 0 9 'r'
    (Or.inl rfl) rfl (by decide) (by decide) (by decide) (by decide)

/-! ## Process exit -/

theorem exit_closed_zero (s : State) (n : Nat) : exit_closed s n 0 = s := by
  cases s with
  | mk processes nprocs frame_table free_frames current_process inst_count ctx_switches process_exits cost pager =>
    simp [exit_closed, upd_self]

theorem exit_page_closed (s : State) (n j : Nat) :
    exit_page n (exit_closed s n j) j = exit_closed s n (j + 1) := by
  cases hp : ((s.processes n).page_table j).present
  · have hpt : (fun i => if i < j + 1 ∧ ((s.processes n).page_table i).present = true
        then zero_pte else (s.processes n).page_table i) =
        (fun i => if i < j ∧ ((s.processes n).page_table i).present = true
        then zero_pte else (s.processes n).page_table i) := by
      funext i
      by_cases hij : i = j
      · subst hij; simp [hp]
      · have : i < j + 1 ↔ i < j := by omega
        simp [this]
    simp [exit_page, exit_closed, get_pte, List.range_succ, hp, hpt]
  · have hpt : upd (fun i => if i < j ∧ ((s.processes n).page_table i).present = true
        then zero_pte else (s.processes n).page_table i) j zero_pte =
        (fun i => if i < j + 1 ∧ ((s.processes n).page_table i).present = true
        then zero_pte else (s.processes n).page_table i) := by
      funext i
      by_cases hij : i = j
      · subst hij; simp [hp]
      · have : i < j + 1 ↔ i < j := by omega
        simp [this, hij]
    have hz : pte_t.mk false false false false false 0 false = zero_pte := rfl
    by_cases hm : ((s.processes n).page_table j).modified = true ∧
        ((s.processes n).page_table j).file_mapped = true
    · apply State.ext <;>
        simp [exit_page, exit_closed, get_pte, set_pte, map_proc, List.range_succ, hp, hm,
          List.countP_append, List.filter_append]
      · rw [hz, hpt]; simp [Nat.add_assoc]
      · omega
    · apply State.ext <;>
        simp [exit_page, exit_closed, get_pte, set_pte, map_proc, List.range_succ, hp, hm,
          List.countP_append, List.filter_append]
      · rw [hz, hpt]; simp [Nat.add_assoc]
      · omega

theorem exit_loop_eq (s : State) (n j : Nat) :
    (List.range j).foldl (exit_page n) s = exit_closed s n j := by
  induction j with
  | zero => simp [exit_closed_zero]
  | succ j ih => rw [List.range_succ, List.foldl_append, ih]; simp [exit_page_closed]

/-- Closed form of the exit branch. -/
theorem process_exit_eq (s : State) (n : Nat) :
    process_exit s n =
      { exit_closed s n MAX_VPAGES with
        process_exits := s.process_exits + 1,
        cost := (exit_closed s n MAX_VPAGES).cost + 400,
        current_process := if s.current_process = some n then none else s.current_process } := by
  unfold process_exit
  rw [exit_loop_eq]
  by_cases h : s.current_process = some n
  · simp [exit_closed, h]
  · simp [exit_closed, h]

theorem step_exit (s : State) (n : Nat) (hn : n < s.nprocs) :
    step s ⟨'e', (n : Int)⟩ =
      some { process_exit s n with inst_count := (process_exit s n).inst_count + 1 } := by
  show (Option.map _ (if ('e' : Char) = 'c' then _ else if ('e' : Char) = 'e' then
    (if n < s.nprocs then some (process_exit s n) else none) else _)) = _
  rw [if_neg (by decide), if_pos rfl, if_pos hn]
  rfl

/-- Claim C7. `e N` with a valid pid, in a state where process `N` has `k` present
pages of which `m` are modified and file-mapped, adds `400*k + 1523*m + 400` to
`cost`, `k` to the `unmaps` of `N`, `m` to its `fouts` and one to `process_exits`; the
other statistics of `N`, every other process and `ctx_switches` are unchanged; the
current process becomes unset when it was `N` and is unchanged otherwise. -/
theorem exit_accounting (s : State) (n : Nat) (hn : n < s.nprocs) :
    ∃ t, step s ⟨'e', (n : Int)⟩ = some t ∧
      t.cost = s.cost + (400 * present_count (s.processes n)
        + 1523 * dirty_file_count (s.processes n) + 400) ∧
      (t.processes n).unmaps = (s.processes n).unmaps + present_count (s.processes n) ∧
      (t.processes n).fouts = (s.processes n).fouts + dirty_file_count (s.processes n) ∧
      t.process_exits = s.process_exits + 1 ∧
      ((t.processes n).maps = (s.processes n).maps ∧ (t.processes n).ins = (s.processes n).ins ∧
        (t.processes n).outs = (s.processes n).outs ∧ (t.processes n).fins = (s.processes n).fins ∧
        (t.processes n).zeros = (s.processes n).zeros ∧ (t.processes n).segv = (s.processes n).segv ∧
        (t.processes n).segprot = (s.processes n).segprot) ∧
      (∀ q, q ≠ n → t.processes q = s.processes q) ∧
      t.ctx_switches = s.ctx_switches ∧
      (s.current_process = some n → t.current_process = none) ∧
      (s.current_process ≠ some n → t.current_process = s.current_process) := by
  refine ⟨_, step_exit s n hn, ?_⟩
  rw [process_exit_eq]
  refine ⟨?_, ?_, ?_, ?_, ?_, ?_, ?_, ?_, ?_⟩
  · simp [exit_closed, present_count, dirty_file_count]; omega
  · simp [exit_closed, present_count]
  · simp [exit_closed, dirty_file_count]
  · rfl
  · simp [exit_closed]
  · intro q hq; simp [exit_closed, hq]
  · rfl
  · intro h; simp [h]
  · intro h; simp [h]

/-- Witness for C7: the exit of the only process of `one_proc` from the initial state. -/
theorem exit_accounting_witness :
    ∃ t, step (initial_state one_proc 1 Algo.f []) ⟨'e', 0⟩ = some t ∧
      t.process_exits = 1 :=
  have h := exit_accounting (initial_state one_proc 1 Algo.f []) 0 (by decide)
  h.elim (fun t ht => ⟨t, ht.1, ht.2.2.2.2.1⟩)

/-- Claim C6, as amended. After `e N` with a valid pid, every page-table entry of `N`
that was present before the exit is all-zero and the frame it held is on the free
list; every entry of `N` that was not present is left exactly as it was (so it keeps
its `pagedout`, `file_mapped` and `write_protect` bits). -/
theorem exit_zeroes_present (s : State) (n : Nat) (hn : n < s.nprocs) :
    ∃ t, step s ⟨'e', (n : Int)⟩ = some t ∧
      (∀ v, v < MAX_VPAGES → (get_pte s n v).present = true →
        get_pte t n v = zero_pte ∧ (get_pte s n v).frame ∈ t.free_frames) ∧
      (∀ v, v < MAX_VPAGES → (get_pte s n v).present = false →
        get_pte t n v = get_pte s n v) := by
  refine ⟨_, step_exit s n hn, ?_⟩
  rw [process_exit_eq]
  constructor
  · intro v hv hpres
    have hpres1 : ((s.processes n).page_table v).present = true := hpres
    constructor
    · simp [exit_closed, get_pte, hv, hpres1]
    · simp only [exit_closed, get_pte, List.mem_append, List.mem_map, List.mem_filter,
        List.mem_range]
      right
      exact ⟨v, ⟨hv, hpres1⟩, rfl⟩
  · intro v hv hpres
    have hpres1 : ((s.processes n).page_table v).present = false := hpres
    simp [exit_closed, get_pte, hpres1]

/-- Witness for the amended C6 on the initial state of `one_proc`. -/
theorem exit_zeroes_present_witness :
    ∃ t, step (initial_state one_proc 1 Algo.f []) ⟨'e', 0⟩ = some t ∧
      (∀ v, v < MAX_VPAGES → (get_pte (initial_state one_proc 1 Algo.f []) 0 v).present = false →
        get_pte t 0 v = get_pte (initial_state one_proc 1 Algo.f []) 0 v) :=
  have h := exit_zeroes_present (initial_state one_proc 1 Algo.f []) 0 (by decide)
  h.elim (fun t ht => ⟨t, ht.1, ht.2.2⟩)

/-- Counterexample to C6 as stated. With one frame, `c 0, r 0, r 1` reaches a state
in which page 0 of process 0 has been evicted (not present, `pagedout = 1`); after
`e 0` that entry still has `pagedout = 1`, so it is not all-zero. -/
theorem exit_keeps_evicted_bits :
    ∃ s t, simulate (initial_state one_proc 1 Algo.f []) [⟨'c', 0⟩, ⟨'r', 0⟩, ⟨'r', 1⟩] = some s ∧
      step s ⟨'e', 0⟩ = some t ∧
      (get_pte s 0 0).present = false ∧ (get_pte t 0 0).pagedout = true ∧
      get_pte t 0 0 ≠ zero_pte := by
  have h : ((simulate (initial_state one_proc 1 Algo.f []) [⟨'c', 0⟩, ⟨'r', 0⟩, ⟨'r', 1⟩]).bind
      (fun s => (step s ⟨'e', 0⟩).map (fun t =>
        ((get_pte s 0 0).present, (get_pte t 0 0).pagedout, decide (get_pte t 0 0 = zero_pte)))))
      = some (false, true, false) := by
    set_option maxRecDepth 100000 in decide
  cases hs : simulate (initial_state one_proc 1 Algo.f []) [⟨'c', 0⟩, ⟨'r', 0⟩, ⟨'r', 1⟩] with
  | none => rw [hs] at h; simp at h
  | some s =>
    rw [hs] at h
    cases ht : step s ⟨'e', 0⟩ with
    | none => simp [ht] at h
    | some t =>
      simp [ht] at h
      exact ⟨s, t, rfl, ht, h.1, h.2.1, h.2.2⟩

/-! ## Evaluations at failing inputs -/

/-- Claim C2, the code at a failing input. One frame, FIFO, one process, trace
`c 0, r 0, r 1`: the second fault evicts page 0 from frame 0, appends frame 0 to the
free list and maps page 1 into it, so afterwards one page is present and the free
list is `[0]`: `1 + 1 = 2`, not `N = 1`. -/
theorem conservation_broken_by_eviction :
    (simulate (initial_state one_proc 1 Algo.f []) [⟨'c', 0⟩, ⟨'r', 0⟩, ⟨'r', 1⟩]).map
      (fun t => (total_present t, t.free_frames, (get_pte t 0 1).present, (get_pte t 0 1).frame))
      = some (1, [0], true, 0) := by
  set_option maxRecDepth 100000 in decide

/-- Claim C3, the code at a failing input. One frame, Clock, one process, trace
`c 0, r 0, r 1`: the hand passes frame 0 (referenced) and stops at slot 1 of the
128-slot table, so page 1 is mapped with `frame = 1`, which is not below `N = 1`. -/
theorem clock_leaves_frame_range :
    (simulate (initial_state one_proc 1 Algo.c []) [⟨'c', 0⟩, ⟨'r', 0⟩, ⟨'r', 1⟩]).map
      (fun t => ((get_pte t 0 1).present, (get_pte t 0 1).frame))
      = some (true, 1) := by
  set_option maxRecDepth 100000 in decide

/-- Claim C5, the code at a failing input. One frame, FIFO, one process, trace
`c 0, r 0, e 0, c 0, r 0, e 0`: the frame freed by the first exit still names page 0,
so the next fault counts an UNMAP for it; at the end `maps = 2`, `unmaps = 3` and no
page is present. -/
theorem unmaps_exceed_maps_after_exit :
    (simulate (initial_state one_proc 1 Algo.f [])
      [⟨'c', 0⟩, ⟨'r', 0⟩, ⟨'e', 0⟩, ⟨'c', 0⟩, ⟨'r', 0⟩, ⟨'e', 0⟩]).map
      (fun t => ((t.processes 0).maps, (t.processes 0).unmaps, present_count (t.processes 0)))
      = some (2, 3, 0) := by
  set_option maxRecDepth 100000 in decide

/-! ## The parts of the state a policy does not touch -/

theorem norm_set_pager (s : State) (pg : Pager) : norm { s with pager := pg } = norm s := rfl

theorem norm_set_referenced (s : State) (p v : Nat) (b : Bool) :
    norm (set_referenced s p v b) = norm s := by
  apply State.ext <;> try rfl
  funext q
  simp only [norm, set_referenced, set_pte, get_pte, upd_apply]
  split
  · next h =>
    subst h
    apply Process.ext <;> try rfl
    funext w
    simp only [norm_proc, upd_apply]
    split
    · next h2 => subst h2; rfl
    · rfl
  · rfl

theorem norm_set_last_used (s : State) (i t : Nat) :
    norm (set_last_used s i t) = norm s := by
  apply State.ext <;> try rfl
  funext j
  simp only [norm, set_last_used, upd_apply]
  split
  · next h => subst h; rfl
  · rfl

theorem norm_nprocs {s t : State} (h : norm t = norm s) : t.nprocs = s.nprocs := by
  have h2 := congrArg State.nprocs h
  exact h2

theorem norm_free_frames {s t : State} (h : norm t = norm s) : t.free_frames = s.free_frames := by
  have h2 := congrArg State.free_frames h
  exact h2

theorem norm_current {s t : State} (h : norm t = norm s) :
    t.current_process = s.current_process := by
  have h2 := congrArg State.current_process h
  exact h2

theorem norm_cost {s t : State} (h : norm t = norm s) : t.cost = s.cost := by
  have h2 := congrArg State.cost h
  exact h2

theorem norm_inst_count {s t : State} (h : norm t = norm s) : t.inst_count = s.inst_count := by
  have h2 := congrArg State.inst_count h
  exact h2

theorem norm_ctx_switches {s t : State} (h : norm t = norm s) :
    t.ctx_switches = s.ctx_switches := by
  have h2 := congrArg State.ctx_switches h
  exact h2

theorem norm_process_exits {s t : State} (h : norm t = norm s) :
    t.process_exits = s.process_exits := by
  have h2 := congrArg State.process_exits h
  exact h2

theorem norm_proc_eq {s t : State} (h : norm t = norm s) (p : Nat) :
    norm_proc (t.processes p) = norm_proc (s.processes p) :=
  congrFun (congrArg State.processes h) p

theorem norm_pte_eq {s t : State} (h : norm t = norm s) (p v : Nat) :
    norm_pte (get_pte t p v) = norm_pte (get_pte s p v) :=
  congrFun (congrArg Process.page_table (norm_proc_eq h p)) v

theorem norm_frame_eq {s t : State} (h : norm t = norm s) (i : Nat) :
    norm_frame (t.frame_table i) = norm_frame (s.frame_table i) :=
  congrFun (congrArg State.frame_table h) i

theorem norm_proc_id {s t : State} (h : norm t = norm s) (i : Nat) :
    (t.frame_table i).proc_id = (s.frame_table i).proc_id := by
  have h2 := congrArg frame_t.proc_id (norm_frame_eq h i)
  exact h2

theorem norm_vpage {s t : State} (h : norm t = norm s) (i : Nat) :
    (t.frame_table i).vpage = (s.frame_table i).vpage := by
  have h2 := congrArg frame_t.vpage (norm_frame_eq h i)
  exact h2

theorem norm_slot_page {s t : State} (h : norm t = norm s) (i : Nat) :
    slot_page t i = slot_page s i := by
  unfold slot_page
  rw [norm_proc_id h, norm_vpage h, norm_nprocs h]

theorem norm_present {s t : State} (h : norm t = norm s) (p v : Nat) :
    (get_pte t p v).present = (get_pte s p v).present := by
  have h2 := congrArg pte_t.present (norm_pte_eq h p v)
  exact h2

theorem norm_frame_field {s t : State} (h : norm t = norm s) (p v : Nat) :
    (get_pte t p v).frame = (get_pte s p v).frame := by
  have h2 := congrArg pte_t.frame (norm_pte_eq h p v)
  exact h2

theorem norm_modified {s t : State} (h : norm t = norm s) (p v : Nat) :
    (get_pte t p v).modified = (get_pte s p v).modified := by
  have h2 := congrArg pte_t.modified (norm_pte_eq h p v)
  exact h2

theorem norm_write_protect {s t : State} (h : norm t = norm s) (p v : Nat) :
    (get_pte t p v).write_protect = (get_pte s p v).write_protect := by
  have h2 := congrArg pte_t.write_protect (norm_pte_eq h p v)
  exact h2

theorem norm_file_mapped {s t : State} (h : norm t = norm s) (p v : Nat) :
    (get_pte t p v).file_mapped = (get_pte s p v).file_mapped := by
  have h2 := congrArg pte_t.file_mapped (norm_pte_eq h p v)
  exact h2

theorem norm_pagedout {s t : State} (h : norm t = norm s) (p v : Nat) :
    (get_pte t p v).pagedout = (get_pte s p v).pagedout := by
  have h2 := congrArg pte_t.pagedout (norm_pte_eq h p v)
  exact h2

theorem norm_pid {s t : State} (h : norm t = norm s) (p : Nat) :
    (t.processes p).pid = (s.processes p).pid := by
  have h2 := congrArg Process.pid (norm_proc_eq h p)
  exact h2

theorem norm_vmas {s t : State} (h : norm t = norm s) (p : Nat) :
    (t.processes p).vmas = (s.processes p).vmas := by
  have h2 := congrArg Process.vmas (norm_proc_eq h p)
  exact h2

theorem norm_slots_ok {s t : State} (h : norm t = norm s) (hs : SlotsOK s) : SlotsOK t := by
  intro i hi
  rw [norm_proc_id h, norm_slot_page h]
  exact hs i hi

/-! ## Page-table access lemmas -/

theorem get_set_pte (s : State) (p v p2 v2 : Nat) (e : pte_t) :
    get_pte (set_pte s p v e) p2 v2 = if p2 = p ∧ v2 = v then e else get_pte s p2 v2 := by
  simp only [get_pte, set_pte, upd_apply]
  by_cases hp : p2 = p
  · subst hp
    by_cases hv : v2 = v
    · simp [hv, upd_apply]
    · simp [hv, upd_apply]
  · simp [hp]

theorem slot_page_set_referenced (s : State) (p v i : Nat) (b : Bool) :
    slot_page (set_referenced s p v b) i = slot_page s i :=
  norm_slot_page (norm_set_referenced s p v b) i

theorem referenced_set_referenced_false (s : State) (p v p2 v2 : Nat)
    (h : (get_pte (set_referenced s p v false) p2 v2).referenced = true) :
    (get_pte s p2 v2).referenced = true ∧ ¬ (p2 = p ∧ v2 = v) := by
  unfold set_referenced at h
  rw [get_set_pte] at h
  by_cases hc : p2 = p ∧ v2 = v
  · rw [if_pos hc] at h; simp at h
  · rw [if_neg hc] at h; exact ⟨h, hc⟩

theorem slot_page_bounds {s : State} {i p v : Nat} (h : slot_page s i = some (p, v)) :
    p < s.nprocs ∧ v < MAX_VPAGES ∧ (s.frame_table i).proc_id = (p : Int) ∧
      (s.frame_table i).vpage = (v : Int) := by
  unfold slot_page at h
  split at h
  · next p1 v1 h1 h2 =>
    split at h
    · next hb =>
      simp only [Option.some.injEq, Prod.mk.injEq] at h
      obtain ⟨rfl, rfl⟩ := h
      exact ⟨hb.1, hb.2, h1, h2⟩
    · exact absurd h (by simp)
  · exact absurd h (by simp)

/-! ## The policies: results and termination -/

theorem FIFO_select_spec (s : State) (hand : Nat) (h : hand < MAX_FRAMES) :
    ∃ r, FIFO_select s hand = some r ∧ PagerPost s r := by
  refine ⟨_, if_pos h, rfl, h, ?_⟩
  exact Nat.mod_lt _ (by decide)

theorem tmod_ofNat_128 (m : Nat) : Int.tmod (Int.ofNat m) (MAX_FRAMES : Int) = Int.ofNat (m % 128) :=
  rfl

theorem Random_select_spec (s : State) (rv : List Int) (ofs : Nat)
    (h : PagerOK (Pager.Random rv ofs)) :
    ∃ r, Random_select s rv ofs = some r ∧ PagerPost s r := by
  obtain ⟨hofs, hnn⟩ := h
  have hget : rv[ofs]? = some rv[ofs] := List.getElem?_eq_getElem hofs
  have hx : (0 : Int) ≤ rv[ofs] := hnn _ (List.getElem_mem hofs)
  obtain ⟨m, hm⟩ := Int.eq_ofNat_of_zero_le hx
  have hm2 : rv[ofs] = Int.ofNat m := hm
  unfold Random_select
  rw [hget]
  simp only [hm2, tmod_ofNat_128]
  refine ⟨_, rfl, rfl, ?_, ?_, hnn⟩
  · exact Nat.mod_lt _ (by decide)
  · exact Nat.mod_lt _ (by omega)

theorem Clock_loop_spec : ∀ (fuel : Nat) (s : State) (hand c : Nat),
    fuel + c = MAX_FRAMES + 1 → c ≤ MAX_FRAMES → hand < MAX_FRAMES →
    (∀ i, i < MAX_FRAMES → (slot_page s i).isSome = true) →
    (∀ j, j < c → RefClear s ((hand + 127 - j) % 128)) →
    ∃ r, Clock_loop fuel s hand = some r ∧ PagerPost s r := by
  intro fuel
  induction fuel with
  | zero =>
    intro s hand c h1 h2
    simp only [MAX_FRAMES] at h1 h2
    omega
  | succ fuel ih =>
    intro s hand c h1 h2 hh hall hclear
    obtain ⟨⟨p, v⟩, hpv⟩ := Option.isSome_iff_exists.mp (hall hand hh)
    unfold Clock_loop
    rw [if_pos hh, hpv]
    by_cases href : (get_pte s p v).referenced = true
    · simp only [href, if_true]
      have hc : c < MAX_FRAMES := by
        rcases Nat.lt_or_ge c MAX_FRAMES with h | h
        · exact h
        · exfalso
          have hc128 : c = 128 := by simp only [MAX_FRAMES] at h h2; omega
          have h127 : (127 : Nat) < c := by omega
          have := hclear 127 h127 p v
          have he : (hand + 127 - 127) % 128 = hand := by
            simp only [MAX_FRAMES] at hh; omega
          rw [he] at this
          rw [this hpv] at href
          exact absurd href (by simp)
      have hstep := ih (set_referenced s p v false) ((hand + 1) % MAX_FRAMES) (c + 1)
        (by omega) (by omega) (Nat.mod_lt _ (by decide))
        (by intro i hi; rw [slot_page_set_referenced]; exact hall i hi)
        (by
          intro j hj p2 v2 hs2
          rw [slot_page_set_referenced] at hs2
          by_contra hne
          have hne2 : (get_pte (set_referenced s p v false) p2 v2).referenced = true := by
            simpa using hne
          obtain ⟨hr, hnpv⟩ := referenced_set_referenced_false s p v p2 v2 hne2
          rcases Nat.eq_zero_or_pos j with hj0 | hj0
          · subst hj0
            have he : ((hand + 1) % MAX_FRAMES + 127 - 0) % 128 = hand := by
              simp only [MAX_FRAMES] at hh ⊢; omega
            rw [he, hpv] at hs2
            simp only [Option.some.injEq, Prod.mk.injEq] at hs2
            exact hnpv ⟨hs2.1.symm, hs2.2.symm⟩
          · have he : ((hand + 1) % MAX_FRAMES + 127 - j) % 128 = (hand + 127 - (j - 1)) % 128 := by
              simp only [MAX_FRAMES] at hh hc ⊢; omega
            rw [he] at hs2
            have := hclear (j - 1) (by omega) p2 v2 hs2
            rw [this] at hr
            exact absurd hr (by simp))
      obtain ⟨r, hr, hn, hf, hp⟩ := hstep
      exact ⟨r, hr, hn.trans (norm_set_referenced s p v false), hf, hp⟩
    · simp only [href]
      exact ⟨_, rfl, rfl, hh, Nat.mod_lt _ (by decide)⟩

theorem Clock_select_spec (s : State) (hand : Nat) (h : hand < MAX_FRAMES)
    (hall : ∀ i, i < MAX_FRAMES → (slot_page s i).isSome = true) :
    ∃ r, Clock_select s hand = some r ∧ PagerPost s r :=
  Clock_loop_spec (MAX_FRAMES + 1) s hand 0 rfl (Nat.zero_le _) h hall
    (fun j hj => absurd hj (Nat.not_lt_zero j))

theorem NRU_reset_slot_spec (s : State) (i : Nat) (hi : i < MAX_FRAMES) (hs : SlotsOK s) :
    ∃ t, NRU_reset_slot s i = some t ∧ norm t = norm s := by
  unfold NRU_reset_slot
  by_cases hfree : (s.frame_table i).proc_id ≠ -1
  · rw [if_pos hfree]
    rcases hs i hi with h | h
    · exact absurd h hfree
    · obtain ⟨⟨p, v⟩, hpv⟩ := Option.isSome_iff_exists.mp h
      rw [hpv]
      exact ⟨_, rfl, norm_set_referenced s p v false⟩
  · rw [if_neg hfree]
    exact ⟨s, rfl, rfl⟩

theorem NRU_reset_list_spec : ∀ (l : List Nat) (s : State), (∀ i ∈ l, i < MAX_FRAMES) →
    SlotsOK s → ∃ t, l.foldlM NRU_reset_slot s = some t ∧ norm t = norm s := by
  intro l
  induction l with
  | nil => intro s _ _; exact ⟨s, rfl, rfl⟩
  | cons i l ih =>
    intro s hl hs
    obtain ⟨t, ht, hn⟩ := NRU_reset_slot_spec s i (hl i (List.mem_cons_self i l)) hs
    obtain ⟨u, hu, hn2⟩ := ih t (fun j hj => hl j (List.mem_cons_of_mem i hj)) (norm_slots_ok hn hs)
    refine ⟨u, ?_, hn2.trans hn⟩
    rw [List.foldlM_cons, ht]
    exact hu

theorem NRU_reset_spec (s : State) (hs : SlotsOK s) :
    ∃ t, NRU_reset s = some t ∧ norm t = norm s :=
  NRU_reset_list_spec (List.range MAX_FRAMES) s (fun _ hi => List.mem_range.mp hi) hs

theorem NRU_scan_spec (s : State) (start : Nat) (hstart : start < MAX_FRAMES) (hs : SlotsOK s) :
    ∀ (fuel k hand mc : Nat) (vf : Option Nat), fuel + k = MAX_FRAMES → 1 ≤ fuel →
      hand = (start + k) % MAX_FRAMES → (∀ f, vf = some f → f < MAX_FRAMES) →
      ∃ hand1 mc1 vf1, NRU_scan s start fuel hand mc vf = some (hand1, mc1, vf1) ∧
        hand1 < MAX_FRAMES ∧ (∀ f, vf1 = some f → f < MAX_FRAMES) := by
  intro fuel
  induction fuel with
  | zero => intro k hand mc vf _ h; omega
  | succ fuel ih =>
    intro k hand mc vf hk _ hhand hvf
    have hh : hand < MAX_FRAMES := by rw [hhand]; exact Nat.mod_lt _ (by decide)
    have hnext : (hand + 1) % MAX_FRAMES < MAX_FRAMES := Nat.mod_lt _ (by decide)
    have hrec : ∀ (mc2 : Nat) (vf2 : Option Nat), (∀ f, vf2 = some f → f < MAX_FRAMES) →
        (hand + 1) % MAX_FRAMES ≠ start →
        ∃ hand1 mc1 vf1, NRU_scan s start fuel ((hand + 1) % MAX_FRAMES) mc2 vf2 =
          some (hand1, mc1, vf1) ∧ hand1 < MAX_FRAMES ∧ (∀ f, vf1 = some f → f < MAX_FRAMES) := by
      intro mc2 vf2 hvf2 hne
      apply ih (k + 1) _ mc2 vf2 (by omega) _ _ hvf2
      · by_contra hlt
        have hf0 : fuel = 0 := by omega
        apply hne
        simp only [MAX_FRAMES] at hk hhand hstart ⊢
        omega
      · simp only [MAX_FRAMES] at hk hhand hstart ⊢
        omega
    have htail : ∀ (mc2 : Nat) (vf2 : Option Nat), (∀ f, vf2 = some f → f < MAX_FRAMES) →
        ∃ hand1 mc1 vf1, (if (hand + 1) % MAX_FRAMES ≠ start then
            NRU_scan s start fuel ((hand + 1) % MAX_FRAMES) mc2 vf2
          else some ((hand + 1) % MAX_FRAMES, mc2, vf2)) = some (hand1, mc1, vf1) ∧
          hand1 < MAX_FRAMES ∧ (∀ f, vf1 = some f → f < MAX_FRAMES) := by
      intro mc2 vf2 hvf2
      by_cases hne : (hand + 1) % MAX_FRAMES ≠ start
      · rw [if_pos hne]; exact hrec mc2 vf2 hvf2 hne
      · rw [if_neg hne]; exact ⟨_, _, _, rfl, hnext, hvf2⟩
    have hsome : ∀ f, some hand = some f → f < MAX_FRAMES := by
      intro f hf
      simp only [Option.some.injEq] at hf
      rw [← hf]; exact hh
    unfold NRU_scan
    rw [if_pos hh]
    by_cases hfree : (s.frame_table hand).proc_id ≠ -1
    · rw [if_pos hfree]
      rcases hs hand hh with h | h
      · exact absurd h hfree
      · obtain ⟨⟨p, v⟩, hpv⟩ := Option.isSome_iff_exists.mp h
        rw [hpv]
        simp only []
        by_cases hlt : ((get_pte s p v).referenced.toNat <<< 1 |||
            (get_pte s p v).modified.toNat) < mc
        · simp only [if_pos hlt]
          split
          · exact ⟨_, _, _, rfl, hh, hsome⟩
          · exact htail _ _ hsome
        · simp only [if_neg hlt]
          split
          · exact ⟨_, _, _, rfl, hh, hvf⟩
          · exact htail _ _ hvf
    · rw [if_neg hfree]
      exact htail _ _ hvf

theorem NRU_select_spec (s : State) (hand last_reset : Nat) (h : hand < MAX_FRAMES)
    (hs : SlotsOK s) :
    ∃ r, NRU_select s hand last_reset = some r ∧ PagerPost s r := by
  have hfirst : ∃ s1 lr, (if usub64 s.inst_count last_reset ≥ 10 then
      (NRU_reset s).map (fun s1 => (s1, s.inst_count)) else some (s, last_reset)) = some (s1, lr) ∧
      norm s1 = norm s := by
    split
    · obtain ⟨t, ht, hn⟩ := NRU_reset_spec s hs
      exact ⟨t, s.inst_count, by rw [ht]; rfl, hn⟩
    · exact ⟨s, last_reset, rfl, rfl⟩
  obtain ⟨s1, lr, h1, hn⟩ := hfirst
  obtain ⟨hand1, mc1, vf1, hscan, hh1, hvf1⟩ :=
    NRU_scan_spec s1 hand h (norm_slots_ok hn hs) MAX_FRAMES 0 hand 4 none rfl (by decide)
      (by simp only [MAX_FRAMES] at h ⊢; omega) (by intro f hf; exact absurd hf (by simp))
  unfold NRU_select
  simp only [h1, hscan]
  cases vf1 with
  | none =>
    refine ⟨_, rfl, hn, hh1, ?_⟩
    exact Nat.mod_lt _ (by decide)
  | some f =>
    exact ⟨_, rfl, hn, hvf1 f rfl, hh1⟩

theorem Aging_scan_spec (start : Nat) (hstart : start < MAX_FRAMES) :
    ∀ (fuel : Nat) (s : State) (age : Nat → Nat) (k hand ma : Nat) (vf : Option Nat),
      SlotsOK s → fuel + k = MAX_FRAMES → 1 ≤ fuel →
      hand = (start + k) % MAX_FRAMES → (∀ f, vf = some f → f < MAX_FRAMES) →
      ∃ s1 age1 hand1 ma1 vf1,
        Aging_scan start fuel s age hand ma vf = some (s1, age1, hand1, ma1, vf1) ∧
        norm s1 = norm s ∧ hand1 < MAX_FRAMES ∧ (∀ f, vf1 = some f → f < MAX_FRAMES) := by
  intro fuel
  induction fuel with
  | zero => intro s age k hand ma vf _ _ h; omega
  | succ fuel ih =>
    intro s age k hand ma vf hs hk _ hhand hvf
    have hh : hand < MAX_FRAMES := by rw [hhand]; exact Nat.mod_lt _ (by decide)
    have hnext : (hand + 1) % MAX_FRAMES < MAX_FRAMES := Nat.mod_lt _ (by decide)
    have htail : ∀ (s2 : State) (age2 : Nat → Nat) (ma2 : Nat) (vf2 : Option Nat),
        norm s2 = norm s → (∀ f, vf2 = some f → f < MAX_FRAMES) →
        ∃ s1 age1 hand1 ma1 vf1, (if (hand + 1) % MAX_FRAMES ≠ start then
            Aging_scan start fuel s2 age2 ((hand + 1) % MAX_FRAMES) ma2 vf2
          else some (s2, age2, (hand + 1) % MAX_FRAMES, ma2, vf2)) =
            some (s1, age1, hand1, ma1, vf1) ∧
          norm s1 = norm s ∧ hand1 < MAX_FRAMES ∧ (∀ f, vf1 = some f → f < MAX_FRAMES) := by
      intro s2 age2 ma2 vf2 hn hvf2
      by_cases hne : (hand + 1) % MAX_FRAMES ≠ start
      · rw [if_pos hne]
        have hfuel : 1 ≤ fuel := by
          by_contra hlt
          have hf0 : fuel = 0 := by omega
          apply hne
          simp only [MAX_FRAMES] at hk hhand hstart ⊢
          omega
        obtain ⟨s1, age1, hand1, ma1, vf1, h1, h2, h3, h4⟩ :=
          ih s2 age2 (k + 1) ((hand + 1) % MAX_FRAMES) ma2 vf2 (norm_slots_ok hn hs)
            (by omega) hfuel (by simp only [MAX_FRAMES] at hk hhand hstart ⊢; omega) hvf2
        exact ⟨s1, age1, hand1, ma1, vf1, h1, h2.trans hn, h3, h4⟩
      · rw [if_neg hne]; exact ⟨_, _, _, _, _, rfl, hn, hnext, hvf2⟩
    have hvf1 : ∀ (c : Prop) [Decidable c] (f : Nat),
        (if c then some hand else vf) = some f → f < MAX_FRAMES := by
      intro c _ f hf
      by_cases hc : c
      · rw [if_pos hc] at hf
        simp only [Option.some.injEq] at hf
        rw [← hf]; exact hh
      · rw [if_neg hc] at hf
        exact hvf f hf
    unfold Aging_scan
    rw [if_pos hh]
    by_cases hfree : (s.frame_table hand).proc_id ≠ -1
    · rw [if_pos hfree]
      rcases hs hand hh with h | h
      · exact absurd h hfree
      · obtain ⟨⟨p, v⟩, hpv⟩ := Option.isSome_iff_exists.mp h
        rw [hpv]
        simp only []
        by_cases href : (get_pte s p v).referenced = true
        · simp only [href, if_true]
          exact htail _ _ _ _ (norm_set_referenced s p v false) (hvf1 _)
        · simp only [href]
          exact htail _ _ _ _ rfl (hvf1 _)
    · rw [if_neg hfree]
      exact htail _ _ _ _ rfl hvf

theorem Aging_select_spec (s : State) (hand : Nat) (age : Nat → Nat) (h : hand < MAX_FRAMES)
    (hs : SlotsOK s) :
    ∃ r, Aging_select s hand age = some r ∧ PagerPost s r := by
  obtain ⟨s1, age1, hand1, ma1, vf1, hscan, hn, hh1, hvf1⟩ :=
    Aging_scan_spec hand h MAX_FRAMES s age 0 hand 0xFFFFFFFF none hs rfl (by decide)
      (by simp only [MAX_FRAMES] at h ⊢; omega) (by intro f hf; exact absurd hf (by simp))
  unfold Aging_select
  simp only [hscan]
  cases vf1 with
  | none => exact ⟨_, rfl, hn, hh1, Nat.mod_lt _ (by decide)⟩
  | some f => exact ⟨_, rfl, hn, hvf1 f rfl, Nat.mod_lt _ (by decide)⟩

theorem WorkingSet_scan_spec (start : Nat) (hstart : start < MAX_FRAMES) :
    ∀ (fuel : Nat) (s : State) (k hand ot : Nat) (vf : Option Nat),
      SlotsOK s → fuel + k = MAX_FRAMES → 1 ≤ fuel →
      hand = (start + k) % MAX_FRAMES → (∀ f, vf = some f → f < MAX_FRAMES) →
      ∃ r, WorkingSet_scan start fuel s hand ot vf = some r ∧ WSPost s r := by
  intro fuel
  induction fuel with
  | zero => intro s k hand ot vf _ _ h; omega
  | succ fuel ih =>
    intro s k hand ot vf hs hk _ hhand hvf
    have hh : hand < MAX_FRAMES := by rw [hhand]; exact Nat.mod_lt _ (by decide)
    have hnext : (hand + 1) % MAX_FRAMES < MAX_FRAMES := Nat.mod_lt _ (by decide)
    have htail : ∀ (s2 : State) (ot2 : Nat) (vf2 : Option Nat),
        norm s2 = norm s → (∀ f, vf2 = some f → f < MAX_FRAMES) →
        ∃ r, (if (hand + 1) % MAX_FRAMES ≠ start then
            WorkingSet_scan start fuel s2 ((hand + 1) % MAX_FRAMES) ot2 vf2
          else some (Sum.inr (s2, (hand + 1) % MAX_FRAMES, vf2))) = some r ∧ WSPost s r := by
      intro s2 ot2 vf2 hn hvf2
      by_cases hne : (hand + 1) % MAX_FRAMES ≠ start
      · rw [if_pos hne]
        have hfuel : 1 ≤ fuel := by
          by_contra hlt
          have hf0 : fuel = 0 := by omega
          apply hne
          simp only [MAX_FRAMES] at hk hhand hstart ⊢
          omega
        obtain ⟨r, h1, h2⟩ :=
          ih s2 (k + 1) ((hand + 1) % MAX_FRAMES) ot2 vf2 (norm_slots_ok hn hs)
            (by omega) hfuel (by simp only [MAX_FRAMES] at hk hhand hstart ⊢; omega) hvf2
        refine ⟨r, h1, ?_⟩
        cases r with
        | inl r => exact ⟨h2.1.trans hn, h2.2⟩
        | inr r => exact ⟨h2.1.trans hn, h2.2⟩
      · rw [if_neg hne]; exact ⟨_, rfl, hn, hnext, hvf2⟩
    have hvf1 : ∀ (c : Prop) [Decidable c] (f : Nat),
        (if c then some hand else vf) = some f → f < MAX_FRAMES := by
      intro c _ f hf
      by_cases hc : c
      · rw [if_pos hc] at hf
        simp only [Option.some.injEq] at hf
        rw [← hf]; exact hh
      · rw [if_neg hc] at hf
        exact hvf f hf
    unfold WorkingSet_scan
    rw [if_pos hh]
    by_cases hfree : (s.frame_table hand).proc_id ≠ -1
    · rw [if_pos hfree]
      rcases hs hand hh with h | h
      · exact absurd h hfree
      · obtain ⟨⟨p, v⟩, hpv⟩ := Option.isSome_iff_exists.mp h
        rw [hpv]
        simp only []
        by_cases href : (get_pte s p v).referenced = true
        · simp only [href, if_true]
          exact htail _ _ _
            ((norm_set_referenced _ p v false).trans (norm_set_last_used s hand s.inst_count))
            (hvf1 _)
        · simp only [href]
          by_cases htau : usub64 s.inst_count (s.frame_table hand).last_used > 49
          · simp only [htau, if_true]
            exact ⟨_, rfl, rfl, hh, hnext⟩
          · simp only [htau]
            exact htail _ _ _ rfl (hvf1 _)
    · rw [if_neg hfree]
      exact htail _ _ _ rfl hvf

theorem WorkingSet_select_spec (s : State) (hand : Nat) (h : hand < MAX_FRAMES)
    (hs : SlotsOK s) :
    ∃ r, WorkingSet_select s hand = some r ∧ PagerPost s r := by
  obtain ⟨r, hscan, hpost⟩ :=
    WorkingSet_scan_spec hand h MAX_FRAMES s 0 hand s.inst_count none hs rfl (by decide)
      (by simp only [MAX_FRAMES] at h ⊢; omega) (by intro f hf; exact absurd hf (by simp))
  unfold WorkingSet_select
  simp only [hscan]
  cases r with
  | inl r => exact ⟨r, rfl, hpost⟩
  | inr r =>
    obtain ⟨s1, hand1, oldest⟩ := r
    obtain ⟨hn, hh1, hvf1⟩ := hpost
    cases oldest with
    | none => exact ⟨_, rfl, hn, hh1, Nat.mod_lt _ (by decide)⟩
    | some f => exact ⟨_, rfl, hn, hvf1 f rfl, Nat.mod_lt _ (by decide)⟩

/-- Every policy, called in a state whose slots all name pages and whose pager
members are within bounds, returns a slot of the table and changes only referenced
bits, frame stamps and its own members. -/
theorem select_victim_frame_spec (s : State) (hp : PagerOK s.pager)
    (hall : ∀ i, i < MAX_FRAMES → (slot_page s i).isSome = true) :
    ∃ r, select_victim_frame s = some r ∧ PagerPost s r := by
  have hs : SlotsOK s := fun i hi => Or.inr (hall i hi)
  unfold select_victim_frame
  cases hpg : s.pager with
  | FIFO hand => rw [hpg] at hp; exact FIFO_select_spec s hand hp
  | Random rv ofs => rw [hpg] at hp; exact Random_select_spec s rv ofs hp
  | Clock hand => rw [hpg] at hp; exact Clock_select_spec s hand hp hall
  | NRU hand lr => rw [hpg] at hp; exact NRU_select_spec s hand lr hp hs
  | Aging hand age => rw [hpg] at hp; exact Aging_select_spec s hand age hp hs
  | WorkingSet hand => rw [hpg] at hp; exact WorkingSet_select_spec s hand hp hs

/-! ## Transfer of the invariants along an operation -/

theorem PteStep_self {s : State} (h : Core s) (p v : Nat) :
    PteStep (get_pte s p v) (get_pte s p v) := by
  cases hp : (get_pte s p v).present
  · exact Or.inl ⟨hp, (h.clean p v hp), h.frame_lt p v⟩
  · exact Or.inr ⟨hp, hp, rfl, rfl, rfl⟩

theorem slot_page_transfer {s t : State} (hn : t.nprocs = s.nprocs)
    (hft : ∀ i, (t.frame_table i).proc_id = (s.frame_table i).proc_id ∧
      (t.frame_table i).vpage = (s.frame_table i).vpage) (i : Nat) :
    slot_page t i = slot_page s i := by
  unfold slot_page
  rw [(hft i).1, (hft i).2, hn]

theorem Core_transfer {s t : State} (h : Core s)
    (hn : t.nprocs = s.nprocs)
    (hft : ∀ i, (t.frame_table i).proc_id = (s.frame_table i).proc_id ∧
      (t.frame_table i).vpage = (s.frame_table i).vpage)
    (hfree : ∀ i, i ∈ t.free_frames → i < MAX_FRAMES)
    (hpg : PagerOK t.pager)
    (hcur : ∀ p, t.current_process = some p → p < t.nprocs)
    (hpid : ∀ p, (t.processes p).pid = (s.processes p).pid)
    (hvmas : ∀ p, (t.processes p).vmas = (s.processes p).vmas)
    (hpte : ∀ p v, PteStep (get_pte s p v) (get_pte t p v)) : Core t := by
  refine ⟨?_, hfree, hpg, hcur, ?_, ?_, ?_, ?_, ?_⟩
  · intro hpos i hi
    rw [(hft i).1, slot_page_transfer hn hft]
    exact h.slots (hn ▸ hpos) i hi
  · intro p hp
    rw [hpid]; exact h.pid p (hn ▸ hp)
  · intro p v
    rcases hpte p v with ⟨_, _, h3⟩ | ⟨_, _, h3, _, _⟩
    · exact h3
    · rw [h3]; exact h.frame_lt p v
  · intro p v hp hv hpres
    rcases hpte p v with ⟨h1, _, _⟩ | ⟨h1, _, h3, _, _⟩
    · rw [h1] at hpres; exact absurd hpres (by simp)
    · rw [h3, (hft _).1, (hft _).2]
      exact h.consistent p v (hn ▸ hp) hv h1
  · intro p v hpres
    rcases hpte p v with ⟨_, h2, _⟩ | ⟨_, h2, _, _, _⟩
    · exact h2
    · rw [h2] at hpres; exact absurd hpres (by simp)
  · intro p v hpres
    rcases hpte p v with ⟨h1, _, _⟩ | ⟨h1, _, _, h4, h5⟩
    · rw [h1] at hpres; exact absurd hpres (by simp)
    · obtain ⟨vma, hv1, hv2, hv3⟩ := h.cached p v h1
      refine ⟨vma, ?_, ?_, ?_⟩
      · unfold is_in_vma at hv1 ⊢; rw [hvmas]; exact hv1
      · rw [h4]; exact hv2
      · rw [h5]; exact hv3

theorem Core_of_norm {s t : State} (h : Core s) (hn : norm t = norm s)
    (hpg : PagerOK t.pager) : Core t := by
  apply Core_transfer h (norm_nprocs hn) (fun i => ⟨norm_proc_id hn i, norm_vpage hn i⟩)
  · rw [norm_free_frames hn]; exact h.free_lt
  · exact hpg
  · rw [norm_current hn, norm_nprocs hn]; exact h.cur
  · exact norm_pid hn
  · exact norm_vmas hn
  · intro p v
    cases hp : (get_pte s p v).present
    · refine Or.inl ⟨?_, ?_, ?_⟩
      · rw [norm_present hn, hp]
      · rw [norm_modified hn]; exact h.clean p v hp
      · rw [norm_frame_field hn]; exact h.frame_lt p v
    · refine Or.inr ⟨hp, ?_, norm_frame_field hn p v, norm_write_protect hn p v,
        norm_file_mapped hn p v⟩
      rw [norm_present hn, hp]

/-! ## Closed forms of eviction and mapping -/

theorem evict_page_eq (s : State) (f op ov : Nat) :
    evict_page s f op ov = evict_closed s f op ov := by
  unfold evict_page evict_closed evict_charge
  by_cases hd : (((s.processes op).page_table ov).modified &&
      ((s.processes op).page_table ov).file_mapped) = true
  · apply State.ext <;> simp [get_pte, set_pte, map_proc, hd]
  · apply State.ext <;> simp [get_pte, set_pte, map_proc, hd]

theorem fill_eq (s : State) (p vpage : Nat) (op : Char) (vma : VMA) (f : Nat) :
    fill s p vpage op vma f = fill_closed s p vpage op vma f := by
  unfold fill fill_closed fill_charge fill_pte
  by_cases hfm : vma.file_mapped = 0 <;> by_cases hw : op = 'w' <;>
    by_cases hwp : vma.write_protected = 0 <;> by_cases hr : op = 'r' <;>
    by_cases hpo : ((s.processes p).page_table vpage).pagedout = true <;>
    (apply State.ext <;> simp [get_pte, set_pte, map_proc, hfm, hw, hwp, hr, hpo])

/-! ## Accounting lemmas -/

theorem stat_sum_congr (f g : Nat → Process) :
    ∀ n, (∀ q, q < n → stat_cost (g q) = stat_cost (f q)) → stat_sum g n = stat_sum f n := by
  intro n
  induction n with
  | zero => intro _; rfl
  | succ n ih =>
    intro h
    simp only [stat_sum]
    rw [ih (fun q hq => h q (Nat.lt_succ_of_lt hq)), h n (Nat.lt_succ_self n)]

theorem stat_sum_bump (f g : Nat → Process) (p d : Nat)
    (h : ∀ q, stat_cost (g q) = stat_cost (f q) + if q = p then d else 0) :
    ∀ n, p < n → stat_sum g n = stat_sum f n + d := by
  intro n
  induction n with
  | zero => intro hp; omega
  | succ n ih =>
    intro hp
    simp only [stat_sum]
    by_cases hpn : p = n
    · have h1 : stat_sum g n = stat_sum f n := by
        apply stat_sum_congr
        intro q hq
        rw [h q, if_neg (by omega)]; rfl
      rw [h1, h n, if_pos hpn.symm]; omega
    · rw [ih (by omega), h n, if_neg (fun e => hpn e.symm)]; omega

theorem Charged_of_bump {s t : State} {p d : Nat} (hp : p < s.nprocs)
    (hn : t.nprocs = s.nprocs) (hc : t.cost = s.cost + d)
    (hctx : t.ctx_switches = s.ctx_switches) (hex : t.process_exits = s.process_exits)
    (h : ∀ q, stat_cost (t.processes q) = stat_cost (s.processes q) + if q = p then d else 0) :
    Charged s t d := by
  refine ⟨hc, ?_⟩
  unfold acct
  rw [hctx, hex, hn, stat_sum_bump s.processes t.processes p d h s.nprocs hp]
  omega

theorem Charged_trans {s t u : State} {d1 d2 : Nat} (h1 : Charged s t d1)
    (h2 : Charged t u d2) : Charged s u (d1 + d2) := by
  obtain ⟨a1, a2⟩ := h1
  obtain ⟨b1, b2⟩ := h2
  exact ⟨by rw [b1, a1]; omega, by rw [b2, a2]; omega⟩

theorem Charged_refl (s : State) : Charged s s 0 := ⟨rfl, rfl⟩

theorem Charged_of_norm {s t : State} (hn : norm t = norm s) : Charged s t 0 := by
  refine ⟨norm_cost hn, ?_⟩
  unfold acct
  rw [norm_ctx_switches hn, norm_process_exits hn, norm_nprocs hn]
  have : stat_sum t.processes s.nprocs = stat_sum s.processes s.nprocs := by
    apply stat_sum_congr
    intro q _
    have h2 := congrArg stat_cost (norm_proc_eq hn q)
    exact h2
  rw [this]; rfl

/-! ## Eviction -/

theorem get_pte_evict_closed (s : State) (f op ov p v : Nat) :
    get_pte (evict_closed s f op ov) p v =
      if p = op ∧ v = ov then
        { (get_pte s op ov) with present := false, frame := 0, referenced := false, modified := false }
      else get_pte s p v := by
  unfold evict_closed get_pte
  by_cases hp : p = op
  · subst hp
    by_cases hv : v = ov
    · subst hv; simp
    · simp [hv]
  · simp [hp]

theorem evict_cases (s : State) (f : Nat) (hc : Core s) (hf : f < MAX_FRAMES)
    (hpos : 0 < s.nprocs) :
    ((s.frame_table f).proc_id = -1 ∧ evict s f = some s) ∨
    (∃ op ov, (s.frame_table f).proc_id ≠ -1 ∧ slot_page s f = some (op, ov) ∧
      evict s f = some (evict_closed s f op ov)) := by
  unfold evict
  by_cases hfree : (s.frame_table f).proc_id ≠ -1
  · right
    rcases hc.slots hpos f hf with h | h
    · exact absurd h hfree
    · obtain ⟨⟨op, ov⟩, hpv⟩ := Option.isSome_iff_exists.mp h
      refine ⟨op, ov, hfree, hpv, ?_⟩
      rw [if_pos hfree, hpv]
      simp only [evict_page_eq]
  · left
    rw [if_neg hfree]
    exact ⟨by simpa using hfree, rfl⟩

theorem Core_evict_closed (s : State) (f op ov : Nat) (hc : Core s) (hf : f < MAX_FRAMES) :
    Core (evict_closed s f op ov) := by
  refine Core_transfer hc ?_ ?_ ?_ ?_ ?_ ?_ ?_ ?_
  · rfl
  · exact fun i => ⟨rfl, rfl⟩
  · intro i hi
    have hi2 : i ∈ s.free_frames ++ [f] := hi
    rw [List.mem_append, List.mem_singleton] at hi2
    rcases hi2 with h | h
    · exact hc.free_lt i h
    · rw [h]; exact hf
  · exact hc.pager
  · exact hc.cur
  · intro p
    simp only [evict_closed, upd_apply]
    split
    · next h => rw [h]
    · rfl
  · intro p
    simp only [evict_closed, upd_apply]
    split
    · next h => rw [h]
    · rfl
  · intro p v
    rw [get_pte_evict_closed]
    split
    · exact Or.inl ⟨rfl, rfl, Nat.zero_lt_succ 127⟩
    · exact PteStep_self hc p v

theorem Charged_evict_closed (s : State) (f op ov : Nat) (hop : op < s.nprocs) :
    Charged s (evict_closed s f op ov) (evict_charge (get_pte s op ov)) := by
  refine Charged_of_bump hop ?_ ?_ ?_ ?_ ?_
  · rfl
  · rfl
  · rfl
  · rfl
  intro q
  simp only [evict_closed, upd_apply, get_pte]
  by_cases hq : q = op
  · subst hq
    simp only [if_true, stat_cost, evict_charge]
    split <;> omega
  · simp only [if_neg hq]; rfl

/-- After the eviction of the occupant of frame `f`, no present entry uses `f`. -/
theorem evict_frame_unused (s t : State) (f : Nat) (hc : Core s) (hf : f < MAX_FRAMES)
    (hpos : 0 < s.nprocs) (ht : evict s f = some t) :
    ∀ p v, p < s.nprocs → v < MAX_VPAGES → (get_pte t p v).present = true →
      (get_pte t p v).frame ≠ f := by
  intro p v hp hv hpres hfr
  rcases evict_cases s f hc hf hpos with ⟨h1, h2⟩ | ⟨op, ov, h1, h2, h3⟩
  · rw [h2] at ht
    simp only [Option.some.injEq] at ht
    subst ht
    have := (hc.consistent p v hp hv hpres).1
    rw [hfr, h1] at this
    omega
  · rw [h3] at ht
    simp only [Option.some.injEq] at ht
    subst ht
    rw [get_pte_evict_closed] at hpres hfr
    by_cases hpv : p = op ∧ v = ov
    · rw [if_pos hpv] at hpres
      exact absurd hpres (by simp)
    · rw [if_neg hpv] at hpres hfr
      obtain ⟨c1, c2⟩ := hc.consistent p v hp hv hpres
      rw [hfr] at c1 c2
      obtain ⟨_, _, b1, b2⟩ := slot_page_bounds h2
      apply hpv
      rw [b1] at c1; rw [b2] at c2
      exact ⟨by omega, by omega⟩

/-! ## Mapping a page into a frame -/

theorem get_pte_fill_closed (s : State) (p vpage : Nat) (op : Char) (vma : VMA) (f q w : Nat) :
    get_pte (fill_closed s p vpage op vma f) q w =
      if q = p ∧ w = vpage then fill_pte (get_pte s p vpage) op vma f else get_pte s q w := by
  unfold fill_closed get_pte
  by_cases hq : q = p
  · subst hq
    by_cases hw : w = vpage
    · subst hw; simp
    · simp [hw]
  · simp [hq]

theorem PagerOK_reset_age (pg : Pager) (i : Nat) (h : PagerOK pg) : PagerOK (reset_age pg i) := by
  cases pg <;> exact h

theorem proc_fill_closed (s : State) (p vpage : Nat) (op : Char) (vma : VMA) (f q : Nat) :
    ((fill_closed s p vpage op vma f).processes q).pid = (s.processes q).pid ∧
    ((fill_closed s p vpage op vma f).processes q).vmas = (s.processes q).vmas := by
  simp only [fill_closed, upd_apply]
  split
  · next h => rw [h]; exact ⟨rfl, rfl⟩
  · exact ⟨rfl, rfl⟩

theorem frame_fill_closed (s : State) (p vpage : Nat) (op : Char) (vma : VMA) (f i : Nat) :
    ((fill_closed s p vpage op vma f).frame_table i).proc_id =
      (if i = f then (s.processes p).pid else (s.frame_table i).proc_id) ∧
    ((fill_closed s p vpage op vma f).frame_table i).vpage =
      (if i = f then (vpage : Int) else (s.frame_table i).vpage) := by
  simp only [fill_closed, upd_apply]
  split
  · exact ⟨rfl, rfl⟩
  · exact ⟨rfl, rfl⟩

theorem WF_fill_closed (s : State) (p vpage : Nat) (op : Char) (vma : VMA) (f : Nat)
    (hc : Core s) (hfm : FreeMarked s f) (hf : f < MAX_FRAMES) (hp : p < s.nprocs)
    (hv : vpage < MAX_VPAGES) (hvma : is_in_vma (s.processes p) vpage = some vma)
    (hun : ∀ q w, q < s.nprocs → w < MAX_VPAGES → (get_pte s q w).present = true →
      (get_pte s q w).frame ≠ f) :
    WF (fill_closed s p vpage op vma f) := by
  have hf128 : f % 128 = f := Nat.mod_eq_of_lt hf
  have hpid : (s.processes p).pid = (p : Int) := hc.pid p hp
  refine ⟨⟨?_, ?_, ?_, ?_, ?_, ?_, ?_, ?_, ?_⟩, ?_⟩
  · intro hpos i hi
    by_cases hif : i = f
    · right
      unfold slot_page
      rw [(frame_fill_closed s p vpage op vma f i).1, (frame_fill_closed s p vpage op vma f i).2,
        if_pos hif, if_pos hif, hpid]
      have hb : p < (fill_closed s p vpage op vma f).nprocs ∧ vpage < MAX_VPAGES := ⟨hp, hv⟩
      show (if p < (fill_closed s p vpage op vma f).nprocs ∧ vpage < MAX_VPAGES
        then some (p, vpage) else none).isSome = true
      rw [if_pos hb]; rfl
    · have h1 : slot_page (fill_closed s p vpage op vma f) i = slot_page s i := by
        unfold slot_page
        rw [(frame_fill_closed s p vpage op vma f i).1,
          (frame_fill_closed s p vpage op vma f i).2, if_neg hif, if_neg hif]
        rfl
      rw [h1, (frame_fill_closed s p vpage op vma f i).1, if_neg hif]
      exact hc.slots hpos i hi
  · exact hc.free_lt
  · exact PagerOK_reset_age _ _ hc.pager
  · exact hc.cur
  · intro q hq
    rw [(proc_fill_closed s p vpage op vma f q).1]
    exact hc.pid q hq
  · intro q w
    rw [get_pte_fill_closed]
    split
    · exact Nat.mod_lt _ (by decide)
    · exact hc.frame_lt q w
  · intro q w hq hw hpres
    rw [get_pte_fill_closed] at hpres ⊢
    by_cases hqw : q = p ∧ w = vpage
    · rw [if_pos hqw]
      have hfr : (fill_pte (get_pte s p vpage) op vma f).frame = f := hf128
      rw [hfr, (frame_fill_closed s p vpage op vma f f).1,
        (frame_fill_closed s p vpage op vma f f).2, if_pos rfl, if_pos rfl, hpid, hqw.1, hqw.2]
      exact ⟨rfl, rfl⟩
    · rw [if_neg hqw] at hpres ⊢
      have hne := hun q w hq hw hpres
      rw [(frame_fill_closed s p vpage op vma f _).1,
        (frame_fill_closed s p vpage op vma f _).2, if_neg hne, if_neg hne]
      exact hc.consistent q w hq hw hpres
  · intro q w hpres
    rw [get_pte_fill_closed] at hpres ⊢
    by_cases hqw : q = p ∧ w = vpage
    · rw [if_pos hqw] at hpres
      exact absurd hpres (by simp [fill_pte])
    · rw [if_neg hqw] at hpres ⊢
      exact hc.clean q w hpres
  · intro q w hpres
    rw [get_pte_fill_closed] at hpres ⊢
    have hvm : is_in_vma ((fill_closed s p vpage op vma f).processes q) w =
        is_in_vma (s.processes q) w := by
      unfold is_in_vma
      rw [(proc_fill_closed s p vpage op vma f q).2]
    rw [hvm]
    by_cases hqw : q = p ∧ w = vpage
    · rw [if_pos hqw, hqw.1, hqw.2]
      exact ⟨vma, hvma, rfl, rfl⟩
    · rw [if_neg hqw] at hpres ⊢
      exact hc.cached q w hpres
  · intro i hi _ hfree
    rw [(frame_fill_closed s p vpage op vma f i).1] at hfree
    by_cases hif : i = f
    · rw [if_pos hif, hpid] at hfree
      omega
    · rw [if_neg hif] at hfree
      exact hfm i hi hif hfree

theorem Charged_fill_closed (s : State) (p vpage : Nat) (op : Char) (vma : VMA) (f : Nat)
    (hp : p < s.nprocs) :
    Charged s (fill_closed s p vpage op vma f) (fill_charge op vma) := by
  refine Charged_of_bump hp ?_ ?_ ?_ ?_ ?_
  · rfl
  · rfl
  · rfl
  · rfl
  intro q
  simp only [fill_closed, upd_apply]
  by_cases hq : q = p
  · subst hq
    simp only [if_true, stat_cost, fill_charge]
    split <;> split <;> omega
  · simp only [if_neg hq]; rfl

/-! ## Frame allocation -/

theorem get_frame_spec (s : State) (h : WF s) (hpos : 0 < s.nprocs) :
    ∃ f s1, get_frame s = some (f, s1) ∧ f < MAX_FRAMES ∧ Core s1 ∧ FreeMarked s1 f ∧
      norm { s1 with free_frames := [] } = norm { s with free_frames := [] } ∧
      (∀ i, i ∈ s1.free_frames → i ∈ s.free_frames) := by
  obtain ⟨hc, hfm⟩ := h
  unfold get_frame
  cases hfl : s.free_frames with
  | cons f rest =>
    refine ⟨f, _, rfl, ?_, ?_, ?_, rfl, ?_⟩
    · exact hc.free_lt f (by rw [hfl]; exact List.mem_cons_self f rest)
    · refine Core_transfer hc ?_ ?_ ?_ ?_ ?_ ?_ ?_ ?_
      · rfl
      · exact fun i => ⟨rfl, rfl⟩
      · intro i hi
        exact hc.free_lt i (by rw [hfl]; exact List.mem_cons_of_mem f hi)
      · exact hc.pager
      · exact hc.cur
      · exact fun _ => rfl
      · exact fun _ => rfl
      · exact fun p v => PteStep_self hc p v
    · intro i hi hif hfree
      have := hfm i hi (by simp only [MAX_FRAMES] at hi ⊢; omega) hfree
      rw [hfl] at this
      rcases List.mem_cons.mp this with h | h
      · exact absurd h hif
      · exact h
    · intro i hi
      exact List.mem_cons_of_mem f hi
  | nil =>
    have hnone : ∀ i, i < MAX_FRAMES → (s.frame_table i).proc_id ≠ -1 := by
      intro i hi hfree
      have := hfm i hi (by simp only [MAX_FRAMES] at hi ⊢; omega) hfree
      rw [hfl] at this
      exact absurd this (List.not_mem_nil i)
    have hall : ∀ i, i < MAX_FRAMES → (slot_page s i).isSome = true := by
      intro i hi
      rcases hc.slots hpos i hi with h | h
      · exact absurd h (hnone i hi)
      · exact h
    obtain ⟨⟨f, s1⟩, hsel, hn, hf, hpg⟩ := select_victim_frame_spec s hc.pager hall
    have hfree1 : s1.free_frames = [] := by rw [norm_free_frames hn, hfl]
    refine ⟨f, s1, hsel, hf, Core_of_norm hc hn hpg, ?_, ?_, ?_⟩
    · intro i hi _ hfree
      rw [norm_proc_id hn] at hfree
      exact absurd hfree (hnone i hi)
    · have h1 : { s1 with free_frames := [] } = s1 := by rw [← hfree1]
      have h2 : { s with free_frames := [] } = s := by rw [← hfl]
      rw [h1, h2]; exact hn
    · intro i hi
      rw [hfree1] at hi
      exact absurd hi (List.not_mem_nil i)

/-! ## Memory references -/

theorem mem_ref_present (s : State) (p vpage : Nat) (op : Char)
    (hpres : (get_pte s p vpage).present = true) :
    mem_ref s p vpage op = some (hit_closed s p vpage op) := by
  have hpres1 : ((s.processes p).page_table vpage).present = true := hpres
  by_cases hw : op = 'w' <;> by_cases hr : op = 'r' <;>
    by_cases hwp : ((s.processes p).page_table vpage).write_protect = true <;>
    by_cases hfm : ((s.processes p).page_table vpage).file_mapped = true <;>
    simp [mem_ref, hit_closed, hit_charge, hit_pte, get_pte, set_pte, map_proc, hpres1,
      hw, hr, hwp, hfm]

theorem mem_ref_segv (s : State) (p vpage : Nat) (op : Char)
    (hpres : (get_pte s p vpage).present = false)
    (hvma : is_in_vma (s.processes p) vpage = none) :
    mem_ref s p vpage op = some (segv_closed s p) := by
  simp [mem_ref, hpres, handle_page_fault, hvma, map_proc, segv_closed]

theorem evict_some (s t : State) (f : Nat) (ht : evict s f = some t) :
    t = s ∨ ∃ op ov, slot_page s f = some (op, ov) ∧ t = evict_closed s f op ov := by
  unfold evict at ht
  split at ht
  · split at ht
    · exact absurd ht (by simp)
    · next op ov hpv =>
      right
      simp only [Option.some.injEq] at ht
      exact ⟨op, ov, hpv, by rw [← ht, evict_page_eq]⟩
  · left
    simp only [Option.some.injEq] at ht
    exact ht.symm

theorem evict_vmas (s t : State) (f : Nat) (ht : evict s f = some t) (q : Nat) :
    (t.processes q).vmas = (s.processes q).vmas := by
  rcases evict_some s t f ht with h | ⟨op, ov, _, h⟩
  · rw [h]
  · rw [h]
    simp only [evict_closed, upd_apply]
    split
    · next h => rw [h]
    · rfl

theorem evict_nprocs (s t : State) (f : Nat) (ht : evict s f = some t) :
    t.nprocs = s.nprocs := by
  rcases evict_some s t f ht with h | ⟨op, ov, _, h⟩
  · rw [h]
  · rw [h]; rfl

theorem mem_ref_fault (s : State) (p vpage : Nat) (op : Char) (vma : VMA) (h : WF s)
    (hp : p < s.nprocs) (hv : vpage < MAX_VPAGES)
    (hpres : (get_pte s p vpage).present = false)
    (hvma : is_in_vma (s.processes p) vpage = some vma) :
    ∃ f s1 s2, get_frame s = some (f, s1) ∧ evict s1 f = some s2 ∧ f < MAX_FRAMES ∧
      norm { s1 with free_frames := [] } = norm { s with free_frames := [] } ∧
      Core s1 ∧ Core s2 ∧
      mem_ref s p vpage op = some
        { fill_closed s2 p vpage op vma f with cost := (fill_closed s2 p vpage op vma f).cost + 1 } ∧
      WF (fill_closed s2 p vpage op vma f) ∧
      Charged s s2 (s2.cost - s.cost) := by
  have hpos : 0 < s.nprocs := by omega
  obtain ⟨f, s1, hgf, hf, hc1, hfm1, hn1, hsub⟩ := get_frame_spec s h hpos
  have hnp1 : s1.nprocs = s.nprocs := by
    have h3 := norm_nprocs hn1
    exact h3
  have hpos1 : 0 < s1.nprocs := by omega
  have hch1 : Charged s s1 0 := by
    have := Charged_of_norm hn1
    exact this
  have hev : ∃ s2, evict s1 f = some s2 ∧ Core s2 ∧ FreeMarked s2 f ∧
      Charged s1 s2 (s2.cost - s1.cost) := by
    rcases evict_cases s1 f hc1 hf hpos1 with ⟨_, h2⟩ | ⟨ep, ev, _, h2, h3⟩
    · refine ⟨s1, h2, hc1, hfm1, ?_⟩
      rw [Nat.sub_self]; exact Charged_refl s1
    · refine ⟨_, h3, Core_evict_closed s1 f ep ev hc1 hf, ?_, ?_⟩
      · intro i hi hif hfree
        have := hfm1 i hi hif hfree
        exact List.mem_append_left _ this
      · have hch := Charged_evict_closed s1 f ep ev (slot_page_bounds h2).1
        have hcost : (evict_closed s1 f ep ev).cost - s1.cost = evict_charge (get_pte s1 ep ev) := by
          rw [hch.1]; omega
        rw [hcost]; exact hch
  obtain ⟨s2, hev2, hc2, hfm2, hch2⟩ := hev
  have hnp2 : s2.nprocs = s1.nprocs := evict_nprocs s1 s2 f hev2
  have hvma2 : is_in_vma (s2.processes p) vpage = some vma := by
    unfold is_in_vma at hvma ⊢
    rw [evict_vmas s1 s2 f hev2 p]
    have hv1 : (s1.processes p).vmas = (s.processes p).vmas := by
      have h3 := norm_vmas hn1 p
      exact h3
    rw [hv1]; exact hvma
  have hun := evict_frame_unused s1 s2 f hc1 hf hpos1 hev2
  refine ⟨f, s1, s2, hgf, hev2, hf, hn1, hc1, hc2, ?_, ?_, ?_⟩
  · unfold mem_ref handle_page_fault
    simp only [hpres, Bool.not_false, if_true, hvma, hgf, if_pos hf, hev2, Option.map, fill_eq]
  · apply WF_fill_closed s2 p vpage op vma f hc2 hfm2 hf (by omega) hv hvma2
    intro q w hq hw
    exact hun q w (by omega) hw
  · have hch := Charged_trans hch1 hch2
    have hle : s1.cost = s.cost := by rw [hch1.1]; omega
    have e1 : 0 + (s2.cost - s1.cost) = s2.cost - s.cost := by rw [hle]; omega
    rw [e1] at hch
    exact hch

/-! ## One instruction preserves the invariants -/

theorem WF_same {s t : State} (h : WF s) (hp : t.processes = s.processes)
    (hn : t.nprocs = s.nprocs) (hft : t.frame_table = s.frame_table)
    (hfree : t.free_frames = s.free_frames) (hpg : t.pager = s.pager)
    (hcur : ∀ p, t.current_process = some p → p < t.nprocs) : WF t := by
  obtain ⟨hc, hfm⟩ := h
  constructor
  · refine Core_transfer hc hn ?_ ?_ ?_ hcur ?_ ?_ ?_
    · intro i; rw [hft]; exact ⟨rfl, rfl⟩
    · rw [hfree]; exact hc.free_lt
    · rw [hpg]; exact hc.pager
    · intro p; rw [hp]
    · intro p; rw [hp]
    · intro p v
      have : get_pte t p v = get_pte s p v := by unfold get_pte; rw [hp]
      rw [this]; exact PteStep_self hc p v
  · intro i hi hne hfree2
    rw [hft] at hfree2
    rw [hfree]
    exact hfm i hi hne hfree2

theorem WF_ctx_switch (s : State) (n : Nat) (h : WF s) (hn : n < s.nprocs) :
    WF (ctx_switch s n) := by
  have e1 : (ctx_switch s n).processes = s.processes := by
    simp only [ctx_switch]; split <;> rfl
  have e2 : (ctx_switch s n).nprocs = s.nprocs := by
    simp only [ctx_switch]; split <;> rfl
  have e3 : (ctx_switch s n).frame_table = s.frame_table := by
    simp only [ctx_switch]; split <;> rfl
  have e4 : (ctx_switch s n).free_frames = s.free_frames := by
    simp only [ctx_switch]; split <;> rfl
  have e5 : (ctx_switch s n).pager = s.pager := by
    simp only [ctx_switch]; split <;> rfl
  have e6 : (ctx_switch s n).current_process = some n := by
    simp only [ctx_switch]
  refine WF_same h e1 e2 e3 e4 e5 ?_
  intro p hp
  rw [e6] at hp
  simp only [Option.some.injEq] at hp
  rw [e2, ← hp]; exact hn

theorem ctx_switch_acct (s : State) (n : Nat) :
    (ctx_switch s n).cost + acct s = s.cost + acct (ctx_switch s n) ∧
      s.cost ≤ (ctx_switch s n).cost := by
  simp only [ctx_switch]
  split
  · simp only [acct]; omega
  · exact ⟨rfl, Nat.le_refl _⟩

theorem get_pte_exit_closed (s : State) (n j p v : Nat) :
    get_pte (exit_closed s n j) p v =
      if p = n ∧ v < j ∧ (get_pte s n v).present = true then zero_pte else get_pte s p v := by
  unfold exit_closed get_pte
  by_cases hp : p = n
  · subst hp
    by_cases hv : v < j ∧ ((s.processes p).page_table v).present = true
    · simp [hv]
    · simp only [upd_same]
      rw [if_neg hv, if_neg (by intro h; exact hv h.2)]
  · simp [hp]

theorem WF_process_exit (s : State) (n : Nat) (h : WF s) :
    WF (process_exit s n) := by
  obtain ⟨hc, hfm⟩ := h
  rw [process_exit_eq]
  constructor
  · refine Core_transfer hc ?_ ?_ ?_ ?_ ?_ ?_ ?_ ?_
    · rfl
    · exact fun i => ⟨rfl, rfl⟩
    · intro i hi
      have hi2 : i ∈ s.free_frames ++ ((List.range MAX_VPAGES).filter
          (fun i => ((s.processes n).page_table i).present)).map
          (fun i => ((s.processes n).page_table i).frame) := hi
      rw [List.mem_append] at hi2
      rcases hi2 with h1 | h1
      · exact hc.free_lt i h1
      · obtain ⟨w, _, hw⟩ := List.mem_map.mp h1
        rw [← hw]; exact hc.frame_lt n w
    · exact hc.pager
    · intro p hp
      have hp2 : (if s.current_process = some n then none else s.current_process) = some p := hp
      split at hp2
      · exact absurd hp2 (by simp)
      · exact hc.cur p hp2
    · intro p
      show ((exit_closed s n MAX_VPAGES).processes p).pid = _
      simp only [exit_closed, upd_apply]
      split
      · next h => rw [h]
      · rfl
    · intro p
      show ((exit_closed s n MAX_VPAGES).processes p).vmas = _
      simp only [exit_closed, upd_apply]
      split
      · next h => rw [h]
      · rfl
    · intro p v
      have : get_pte { exit_closed s n MAX_VPAGES with
          process_exits := s.process_exits + 1,
          cost := (exit_closed s n MAX_VPAGES).cost + 400,
          current_process := if s.current_process = some n then none else s.current_process } p v
          = get_pte (exit_closed s n MAX_VPAGES) p v := rfl
      rw [this, get_pte_exit_closed]
      split
      · exact Or.inl ⟨rfl, rfl, Nat.zero_lt_succ 127⟩
      · exact PteStep_self hc p v
  · intro i hi hne hfree
    have := hfm i hi hne hfree
    exact List.mem_append_left _ this

theorem process_exit_acct (s : State) (n : Nat) (hn : n < s.nprocs) :
    (process_exit s n).cost + acct s = s.cost + acct (process_exit s n) ∧
      s.cost ≤ (process_exit s n).cost := by
  have hch : Charged s (exit_closed s n MAX_VPAGES)
      (400 * (List.range MAX_VPAGES).countP (fun i => ((s.processes n).page_table i).present) +
        1523 * (List.range MAX_VPAGES).countP (fun i =>
          ((s.processes n).page_table i).present &&
            (((s.processes n).page_table i).modified && ((s.processes n).page_table i).file_mapped))) := by
    refine Charged_of_bump hn ?_ ?_ ?_ ?_ ?_
    · rfl
    · simp only [exit_closed]; omega
    · rfl
    · rfl
    intro q
    simp only [exit_closed, upd_apply]
    by_cases hq : q = n
    · subst hq
      simp only [if_true, stat_cost]
      omega
    · simp only [if_neg hq]; rfl
  rw [process_exit_eq]
  obtain ⟨h1, h2⟩ := hch
  constructor
  · show (exit_closed s n MAX_VPAGES).cost + 400 + acct s = s.cost +
      (130 * (exit_closed s n MAX_VPAGES).ctx_switches + 400 * (s.process_exits + 1) +
        stat_sum (exit_closed s n MAX_VPAGES).processes (exit_closed s n MAX_VPAGES).nprocs)
    have h3 : acct (exit_closed s n MAX_VPAGES) =
      130 * (exit_closed s n MAX_VPAGES).ctx_switches + 400 * s.process_exits +
        stat_sum (exit_closed s n MAX_VPAGES).processes (exit_closed s n MAX_VPAGES).nprocs := rfl
    omega
  · show s.cost ≤ (exit_closed s n MAX_VPAGES).cost + 400
    omega

theorem hit_pte_fields (e : pte_t) (op : Char) :
    (hit_pte e op).present = e.present ∧ (hit_pte e op).frame = e.frame ∧
      (hit_pte e op).write_protect = e.write_protect ∧
      (hit_pte e op).file_mapped = e.file_mapped := by
  unfold hit_pte
  split <;> exact ⟨rfl, rfl, rfl, rfl⟩

theorem get_pte_hit_closed (s : State) (p vpage : Nat) (op : Char) (q w : Nat) :
    get_pte (hit_closed s p vpage op) q w =
      if q = p ∧ w = vpage then hit_pte (get_pte s p vpage) op else get_pte s q w := by
  unfold hit_closed get_pte
  by_cases hq : q = p
  · subst hq
    by_cases hw : w = vpage
    · subst hw; simp
    · simp [hw]
  · simp [hq]

theorem WF_hit_closed (s : State) (p vpage : Nat) (op : Char) (h : WF s)
    (hpres : (get_pte s p vpage).present = true) : WF (hit_closed s p vpage op) := by
  obtain ⟨hc, hfm⟩ := h
  constructor
  · refine Core_transfer hc ?_ ?_ ?_ ?_ ?_ ?_ ?_ ?_
    · rfl
    · exact fun i => ⟨rfl, rfl⟩
    · exact hc.free_lt
    · exact hc.pager
    · exact hc.cur
    · intro q
      simp only [hit_closed, upd_apply]
      split
      · next h => rw [h]
      · rfl
    · intro q
      simp only [hit_closed, upd_apply]
      split
      · next h => rw [h]
      · rfl
    · intro q w
      rw [get_pte_hit_closed]
      split
      · next hqw =>
        obtain ⟨f1, f2, f3, f4⟩ := hit_pte_fields (get_pte s p vpage) op
        rw [hqw.1, hqw.2]
        exact Or.inr ⟨hpres, by rw [f1]; exact hpres, f2, f3, f4⟩
      · exact PteStep_self hc q w
  · exact hfm

theorem hit_closed_acct (s : State) (p vpage : Nat) (op : Char) (hp : p < s.nprocs) :
    (hit_closed s p vpage op).cost + acct s = s.cost + acct (hit_closed s p vpage op) + 1 ∧
      s.cost ≤ (hit_closed s p vpage op).cost := by
  have hsum : stat_sum (hit_closed s p vpage op).processes s.nprocs =
      stat_sum s.processes s.nprocs + hit_charge ((s.processes p).page_table vpage) op := by
    apply stat_sum_bump _ _ p _ _ _ hp
    intro q
    simp only [hit_closed, upd_apply]
    by_cases hq : q = p
    · subst hq
      simp only [if_true, stat_cost, hit_charge]
      split <;> omega
    · simp only [if_neg hq]; rfl
  have hcost : (hit_closed s p vpage op).cost =
      s.cost + hit_charge ((s.processes p).page_table vpage) op + 1 := rfl
  have hacct : acct (hit_closed s p vpage op) = 130 * s.ctx_switches + 400 * s.process_exits +
      stat_sum (hit_closed s p vpage op).processes s.nprocs := rfl
  rw [hacct, hsum, hcost]
  simp only [acct]
  omega

theorem WF_segv_closed (s : State) (p : Nat) (h : WF s) : WF (segv_closed s p) := by
  obtain ⟨hc, hfm⟩ := h
  constructor
  · refine Core_transfer hc ?_ ?_ ?_ ?_ ?_ ?_ ?_ ?_
    · rfl
    · exact fun i => ⟨rfl, rfl⟩
    · exact hc.free_lt
    · exact hc.pager
    · exact hc.cur
    · intro q
      simp only [segv_closed, upd_apply]
      split
      · next h => rw [h]
      · rfl
    · intro q
      simp only [segv_closed, upd_apply]
      split
      · next h => rw [h]
      · rfl
    · intro q w
      have : get_pte (segv_closed s p) q w = get_pte s q w := by
        simp only [segv_closed, get_pte, upd_apply]
        split
        · next h => rw [h]
        · rfl
      rw [this]; exact PteStep_self hc q w
  · exact hfm

theorem segv_closed_acct (s : State) (p : Nat) (hp : p < s.nprocs) :
    (segv_closed s p).cost + acct s = s.cost + acct (segv_closed s p) + 1 ∧
      s.cost ≤ (segv_closed s p).cost := by
  have hsum : stat_sum (segv_closed s p).processes s.nprocs =
      stat_sum s.processes s.nprocs + 444 := by
    apply stat_sum_bump _ _ p _ _ _ hp
    intro q
    simp only [segv_closed, upd_apply]
    by_cases hq : q = p
    · subst hq
      simp only [if_true, stat_cost]
      omega
    · simp only [if_neg hq]; rfl
  have hcost : (segv_closed s p).cost = s.cost + 444 + 1 := rfl
  have hacct : acct (segv_closed s p) = 130 * s.ctx_switches + 400 * s.process_exits +
      stat_sum (segv_closed s p).processes s.nprocs := rfl
  rw [hacct, hsum, hcost]
  simp only [acct]
  omega

theorem evict_current (s t : State) (f : Nat) (ht : evict s f = some t) :
    t.current_process = s.current_process := by
  rcases evict_some s t f ht with h | ⟨op, ov, _, h⟩
  · rw [h]
  · rw [h]; rfl

theorem valid_pid {n : Nat} {x : Int} (h : decide (0 ≤ x ∧ x < (n : Int)) = true) :
    ∃ m, x = Int.ofNat m ∧ m < n ∧ x.toNat = m := by
  have h2 : 0 ≤ x ∧ x < (n : Int) := of_decide_eq_true h
  obtain ⟨m, hm⟩ := Int.eq_ofNat_of_zero_le h2.1
  refine ⟨m, hm, ?_, ?_⟩
  · have := h2.2; rw [hm] at this; exact_mod_cast this
  · rw [hm]; rfl

theorem WF_inst_count (t : State) (h : WF t) :
    WF { t with inst_count := t.inst_count + 1 } :=
  WF_same h rfl rfl rfl rfl rfl h.1.cur

theorem WF_cost_inst_count (t : State) (h : WF t) :
    WF { t with cost := t.cost + 1, inst_count := t.inst_count + 1 } :=
  WF_same h rfl rfl rfl rfl rfl h.1.cur

theorem step_spec (s : State) (inst : Instruction) (h : WF s)
    (hv : valid_inst s.nprocs s.current_process inst = true) :
    ∃ t, step s inst = some t ∧ WF t ∧ t.nprocs = s.nprocs ∧
      t.current_process = next_cur s.current_process inst ∧
      t.cost + acct s = s.cost + acct t + (if is_rw inst = true then 1 else 0) ∧
      s.cost ≤ t.cost := by
  obtain ⟨op, value⟩ := inst
  by_cases hc : op = 'c'
  · subst hc
    have hv2 : decide (0 ≤ value ∧ value < (s.nprocs : Int)) = true := by
      simpa [valid_inst] using hv
    obtain ⟨n, hn, hlt, htn⟩ := valid_pid hv2
    subst hn
    have hstep : step s ⟨'c', Int.ofNat n⟩ =
        some { ctx_switch s n with inst_count := (ctx_switch s n).inst_count + 1 } := by
      show (Option.map _ (if ('c' : Char) = 'c' then
        (if n < s.nprocs then some (ctx_switch s n) else none) else _)) = _
      rw [if_pos rfl, if_pos hlt]; rfl
    have hw := WF_ctx_switch s n h hlt
    refine ⟨_, hstep, WF_inst_count _ hw, ?_, ?_, ?_, ?_⟩
    · show (ctx_switch s n).nprocs = s.nprocs
      simp only [ctx_switch]; split <;> rfl
    · show (ctx_switch s n).current_process = _
      simp only [ctx_switch, next_cur, if_true, htn]
    · have := (ctx_switch_acct s n).1
      have hrw : is_rw ⟨'c', Int.ofNat n⟩ = false := by simp [is_rw]
      rw [hrw]
      simpa using this
    · exact (ctx_switch_acct s n).2
  · by_cases he : op = 'e'
    · subst he
      have hv2 : decide (0 ≤ value ∧ value < (s.nprocs : Int)) = true := by
        simpa [valid_inst] using hv
      obtain ⟨n, hn, hlt, htn⟩ := valid_pid hv2
      subst hn
      have hw := WF_process_exit s n h
      have e1 : (process_exit s n).nprocs = s.nprocs := by
        rw [process_exit_eq]; rfl
      have e2 : (process_exit s n).current_process =
          next_cur s.current_process ⟨'e', Int.ofNat n⟩ := by
        rw [process_exit_eq]
        show (if s.current_process = some n then none else s.current_process) = _
        unfold next_cur
        rw [if_neg hc, if_pos rfl, htn]
      have e3 := process_exit_acct s n hlt
      have e4 := step_exit s n hlt
      have hrw : is_rw ⟨'e', Int.ofNat n⟩ = false := by simp [is_rw]
      rw [hrw]
      generalize process_exit s n = u at hw e1 e2 e3 e4
      refine ⟨_, e4, WF_inst_count _ hw, e1, e2, ?_, e3.2⟩
      have := e3.1
      simpa using this
    · have hnce : ¬ (op = 'c' ∨ op = 'e') := by
        intro h; rcases h with h | h
        · exact hc h
        · exact he h
      have hv1 : ((op == 'r' || op == 'w') && s.current_process.isSome &&
          decide (0 ≤ value ∧ value < (MAX_VPAGES : Int))) = true := by
        unfold valid_inst at hv
        rw [if_neg hnce] at hv
        exact hv
      simp only [Bool.and_eq_true] at hv1
      obtain ⟨⟨hrw, hcur⟩, hval⟩ := hv1
      obtain ⟨vpage, hn, hlt, _⟩ := valid_pid hval
      subst hn
      obtain ⟨p, hp⟩ := Option.isSome_iff_exists.mp hcur
      have hpl : p < s.nprocs := h.1.cur p hp
      have hisrw : is_rw ⟨op, Int.ofNat vpage⟩ = true := hrw
      have hnext : next_cur s.current_process ⟨op, Int.ofNat vpage⟩ = s.current_process := by
        simp only [next_cur]
        rw [if_neg hc, if_neg he]
      have hstep : step s ⟨op, Int.ofNat vpage⟩ =
          (mem_ref s p vpage op).map (fun t => { t with inst_count := t.inst_count + 1 }) := by
        show (Option.map _ (if op = 'c' then _ else if op = 'e' then _ else
          (match s.current_process, Int.ofNat vpage with
            | some p, Int.ofNat vpage =>
              if p < s.nprocs ∧ vpage < MAX_VPAGES then mem_ref s p vpage op else none
            | _, _ => none))) = _
        rw [if_neg hc, if_neg he, hp]
        show (Option.map _ (if p < s.nprocs ∧ vpage < MAX_VPAGES then
          mem_ref s p vpage op else none)) = _
        rw [if_pos ⟨hpl, hlt⟩]
      rw [hstep, hisrw, hnext]
      simp only [if_true]
      cases hpres : (get_pte s p vpage).present
      · cases hvma : is_in_vma (s.processes p) vpage with
        | none =>
          rw [mem_ref_segv s p vpage op hpres hvma]
          have hw := WF_segv_closed s p h
          refine ⟨_, rfl, WF_inst_count _ hw, rfl, rfl, ?_, ?_⟩
          · exact (segv_closed_acct s p hpl).1
          · exact (segv_closed_acct s p hpl).2
        | some vma =>
          obtain ⟨f, s1, s2, hgf, hev, hf, hn1, hc1, hc2, hmr, hwf, hch⟩ :=
            mem_ref_fault s p vpage op vma h hpl hlt hpres hvma
          have hnp1 : s1.nprocs = s.nprocs := by
            have h3 := norm_nprocs hn1
            exact h3
          have hnp2 : s2.nprocs = s1.nprocs := evict_nprocs s1 s2 f hev
          have hcu1 : s1.current_process = s.current_process := by
            have h3 := norm_current hn1
            exact h3
          have hcu2 : s2.current_process = s1.current_process := evict_current s1 s2 f hev
          have hchf := Charged_trans hch
            (Charged_fill_closed s2 p vpage op vma f (by omega))
          rw [hmr]
          refine ⟨_, rfl, WF_cost_inst_count _ hwf, ?_, ?_, ?_, ?_⟩
          · show s2.nprocs = s.nprocs
            omega
          · show s2.current_process = s.current_process
            rw [hcu2, hcu1]
          · obtain ⟨a1, a2⟩ := hchf
            show (fill_closed s2 p vpage op vma f).cost + 1 + acct s =
              s.cost + acct (fill_closed s2 p vpage op vma f) + 1
            omega
          · obtain ⟨a1, a2⟩ := hchf
            show s.cost ≤ (fill_closed s2 p vpage op vma f).cost + 1
            omega
      · rw [mem_ref_present s p vpage op hpres]
        have hw := WF_hit_closed s p vpage op h hpres
        refine ⟨_, rfl, WF_inst_count _ hw, rfl, rfl, ?_, ?_⟩
        · exact (hit_closed_acct s p vpage op hpl).1
        · exact (hit_closed_acct s p vpage op hpl).2

/-! ## Runs -/

theorem simulate_cons (s : State) (inst : Instruction) (rest : List Instruction) :
    simulate s (inst :: rest) = (step s inst).bind (fun t => simulate t rest) := by
  unfold simulate
  rw [List.foldlM_cons]
  rfl

theorem simulate_spec : ∀ (insts : List Instruction) (s : State), WF s →
    valid_trace s.nprocs s.current_process insts = true →
    ∃ t, simulate s insts = some t ∧ WF t ∧ t.nprocs = s.nprocs ∧
      t.cost + acct s = s.cost + acct t + rw_count insts ∧ s.cost ≤ t.cost := by
  intro insts
  induction insts with
  | nil =>
    intro s h _
    exact ⟨s, rfl, h, rfl, rfl, Nat.le_refl _⟩
  | cons inst rest ih =>
    intro s h hv
    simp only [valid_trace, Bool.and_eq_true] at hv
    obtain ⟨t, ht, hwt, hnt, hcu, hacc, hle⟩ := step_spec s inst h hv.1
    have hv2 : valid_trace t.nprocs t.current_process rest = true := by
      rw [hnt, hcu]; exact hv.2
    obtain ⟨u, hu, hwu, hnu, hacc2, hle2⟩ := ih t hwt hv2
    refine ⟨u, ?_, hwu, by omega, ?_, by omega⟩
    · rw [simulate_cons, ht]; exact hu
    · have hcount : rw_count (inst :: rest) =
          rw_count rest + (if is_rw inst = true then 1 else 0) := by
        unfold rw_count
        rw [List.countP_cons]
      rw [hcount]
      omega

theorem valid_trace_take (n : Nat) : ∀ (insts : List Instruction) (cur : Option Nat) (k : Nat),
    valid_trace n cur insts = true → valid_trace n cur (insts.take k) = true := by
  intro insts
  induction insts with
  | nil => intro cur k h; simp [valid_trace]
  | cons inst rest ih =>
    intro cur k h
    cases k with
    | zero => simp [valid_trace]
    | succ k =>
      simp only [valid_trace, Bool.and_eq_true, List.take_succ_cons] at h ⊢
      exact ⟨h.1, ih _ k h.2⟩

/-! ## The initial state -/

theorem init_frame_table_eq (n : Nat) :
    init_frame_table n =
      ((fun i => if i < n then (⟨-1, -1, 0, 0⟩ : frame_t) else zero_frame), List.range n) := by
  unfold init_frame_table
  induction n with
  | zero => simp
  | succ n ih =>
    rw [List.range_succ, List.foldl_append, ih]
    simp only [List.foldl_cons, List.foldl_nil, Prod.mk.injEq, and_true]
    funext i
    simp only [upd_apply]
    by_cases hi : i = n
    · subst hi; simp
    · have : i < n + 1 ↔ i < n := by omega
      simp [hi, this]

theorem stat_sum_initial (vmas : List (List VMA)) :
    ∀ n, stat_sum (fun i => new_process i (vmas.getD i [])) n = 0 := by
  intro n
  induction n with
  | zero => rfl
  | succ n ih => simp only [stat_sum, ih]; rfl

theorem WF_initial (vmas : List (List VMA)) (num_frames : Nat) (algo : Algo)
    (random_values : List Int) (hcfg : valid_config num_frames algo random_values) :
    WF (initial_state vmas num_frames algo random_values) := by
  obtain ⟨_, hN, hrand⟩ := hcfg
  have hft : (initial_state vmas num_frames algo random_values).frame_table =
      (fun i => if i < num_frames then (⟨-1, -1, 0, 0⟩ : frame_t) else zero_frame) := by
    simp only [initial_state, init_frame_table_eq]
  have hfl : (initial_state vmas num_frames algo random_values).free_frames =
      List.range num_frames := by
    simp only [initial_state, init_frame_table_eq]
  have hpte : ∀ p v, get_pte (initial_state vmas num_frames algo random_values) p v = zero_pte :=
    fun _ _ => rfl
  refine ⟨⟨?_, ?_, ?_, ?_, ?_, ?_, ?_, ?_, ?_⟩, ?_⟩
  · intro hpos i hi
    by_cases hlt : i < num_frames
    · left; rw [hft]; simp only [if_pos hlt]
    · right
      unfold slot_page
      rw [hft]
      simp only [if_neg hlt, zero_frame]
      have hb : 0 < (initial_state vmas num_frames algo random_values).nprocs ∧
          0 < MAX_VPAGES := ⟨hpos, by decide⟩
      show (if 0 < (initial_state vmas num_frames algo random_values).nprocs ∧ 0 < MAX_VPAGES
        then some (0, 0) else none).isSome = true
      rw [if_pos hb]; rfl
  · intro i hi
    rw [hfl, List.mem_range] at hi
    omega
  · show PagerOK (make_pager algo random_values)
    cases algo with
    | r =>
      obtain ⟨hne, hnn⟩ := hrand rfl
      exact ⟨List.length_pos.mpr hne, hnn⟩
    | f => exact Nat.zero_lt_succ 127
    | c => exact Nat.zero_lt_succ 127
    | e => exact Nat.zero_lt_succ 127
    | a => exact Nat.zero_lt_succ 127
    | w => exact Nat.zero_lt_succ 127
  · intro p hp
    exact absurd hp (by simp [initial_state])
  · intro p _; rfl
  · intro p v; rw [hpte]; exact Nat.zero_lt_succ 127
  · intro p v _ _ hpres
    rw [hpte] at hpres
    exact absurd hpres (by simp [zero_pte])
  · intro p v _; rw [hpte]; rfl
  · intro p v hpres
    rw [hpte] at hpres
    exact absurd hpres (by simp [zero_pte])
  · intro i hi _ hfree
    rw [hft] at hfree
    rw [hfl, List.mem_range]
    by_cases hlt : i < num_frames
    · exact hlt
    · simp only [if_neg hlt, zero_frame] at hfree
      omega

/-- A valid run never gets stuck, and after every prefix the invariants hold and
the cost is accounted for. -/
theorem run_spec (vmas : List (List VMA)) (num_frames : Nat) (algo : Algo)
    (random_values : List Int) (insts : List Instruction)
    (hcfg : valid_config num_frames algo random_values)
    (htr : valid_trace vmas.length none insts = true) (k : Nat) :
    ∃ t, simulate (initial_state vmas num_frames algo random_values) (insts.take k) = some t ∧
      WF t ∧ t.nprocs = vmas.length ∧ t.cost = acct t + rw_count (insts.take k) := by
  have hw := WF_initial vmas num_frames algo random_values hcfg
  have hv := valid_trace_take vmas.length insts none k htr
  obtain ⟨t, ht, hwt, hnt, hacc, _⟩ :=
    simulate_spec (insts.take k) (initial_state vmas num_frames algo random_values) hw hv
  refine ⟨t, ht, hwt, hnt, ?_⟩
  have h0 : acct (initial_state vmas num_frames algo random_values) = 0 := by
    simp only [acct, initial_state, stat_sum_initial]
  have hc0 : (initial_state vmas num_frames algo random_values).cost = 0 := rfl
  rw [h0, hc0] at hacc
  omega

theorem simulate_mono : ∀ (insts : List Instruction) (s : State) (k : Nat), WF s →
    valid_trace s.nprocs s.current_process insts = true →
    ∃ t u, simulate s (insts.take k) = some t ∧ simulate s (insts.take (k + 1)) = some u ∧
      t.cost ≤ u.cost := by
  intro insts
  induction insts with
  | nil =>
    intro s k _ _
    exact ⟨s, s, by simp [simulate], by simp [simulate], Nat.le_refl _⟩
  | cons inst rest ih =>
    intro s k h hv
    simp only [valid_trace, Bool.and_eq_true] at hv
    obtain ⟨s1, hs1, hw1, hn1, hcu1, _, hle1⟩ := step_spec s inst h hv.1
    have hv2 : valid_trace s1.nprocs s1.current_process rest = true := by
      rw [hn1, hcu1]; exact hv.2
    cases k with
    | zero =>
      refine ⟨s, s1, by simp [simulate], ?_, hle1⟩
      simp only [Nat.zero_add, List.take_succ_cons, List.take_zero]
      rw [simulate_cons, hs1]
      rfl
    | succ k =>
      obtain ⟨t, u, ht, hu, hle⟩ := ih s1 k hw1 hv2
      refine ⟨t, u, ?_, ?_, hle⟩
      · rw [List.take_succ_cons, simulate_cons, hs1]; exact ht
      · rw [List.take_succ_cons, simulate_cons, hs1]; exact hu

/-! ## Invariants of valid runs -/

/-- Claim C1. For every policy, every number of frames `1..128` and every valid
trace run from the initial state, the run does not get stuck and after every
instruction (every prefix of the trace) each present page-table entry `(p, v)` with
frame field `f` has `frame_table[f].proc_id = p` and `frame_table[f].vpage = v`. -/
theorem frame_pte_consistency (vmas : List (List VMA)) (num_frames : Nat) (algo : Algo)
    (random_values : List Int) (insts : List Instruction)
    (hcfg : valid_config num_frames algo random_values)
    (htr : valid_trace vmas.length none insts = true) (k : Nat) :
    ∃ t, simulate (initial_state vmas num_frames algo random_values) (insts.take k) = some t ∧
      ∀ p v, p < t.nprocs → v < MAX_VPAGES → (get_pte t p v).present = true →
        (t.frame_table (get_pte t p v).frame).proc_id = (p : Int) ∧
        (t.frame_table (get_pte t p v).frame).vpage = (v : Int) := by
  obtain ⟨t, ht, hwt, _, _⟩ := run_spec vmas num_frames algo random_values insts hcfg htr k
  exact ⟨t, ht, hwt.1.consistent⟩

/-- Claim C4. After every prefix of a valid trace, `cost` equals
`130*ctx_switches + 400*process_exits`, plus the number of `r`/`w` instructions
executed, plus the sum over all processes of `400*unmaps + 300*maps + 3200*ins +
3000*outs + 1500*fins + 1523*fouts + 140*zeros + 444*segv + 340*segprot`; and the
cost after one more instruction is not smaller. -/
theorem cost_accounting (vmas : List (List VMA)) (num_frames : Nat) (algo : Algo)
    (random_values : List Int) (insts : List Instruction)
    (hcfg : valid_config num_frames algo random_values)
    (htr : valid_trace vmas.length none insts = true) (k : Nat) :
    ∃ t u, simulate (initial_state vmas num_frames algo random_values) (insts.take k) = some t ∧
      simulate (initial_state vmas num_frames algo random_values) (insts.take (k + 1)) = some u ∧
      t.cost = 130 * t.ctx_switches + 400 * t.process_exits + rw_count (insts.take k)
        + stat_sum t.processes t.nprocs ∧
      t.cost ≤ u.cost := by
  obtain ⟨t, ht, _, _, hacc⟩ := run_spec vmas num_frames algo random_values insts hcfg htr k
  obtain ⟨t2, u, ht2, hu, hle⟩ := simulate_mono insts
    (initial_state vmas num_frames algo random_values) k
    (WF_initial vmas num_frames algo random_values hcfg) htr
  have htt : t2 = t := by
    rw [ht] at ht2
    simp only [Option.some.injEq] at ht2
    exact ht2.symm
  subst htt
  refine ⟨t2, u, ht, hu, ?_, hle⟩
  rw [hacc]
  simp only [acct]
  omega

/-- Witness for C1: Clock with one frame, where the second fault maps page 1 into
slot 1 of the table. -/
theorem frame_pte_consistency_witness :
    ∃ t, simulate (initial_state one_proc 1 Algo.c [])
        (([⟨'c', 0⟩, ⟨'r', 0⟩, ⟨'r', 1⟩] : List Instruction).take 3) = some t ∧
      ∀ p v, p < t.nprocs → v < MAX_VPAGES → (get_pte t p v).present = true →
        (t.frame_table (get_pte t p v).frame).proc_id = (p : Int) ∧
        (t.frame_table (get_pte t p v).frame).vpage = (v : Int) :=
  frame_pte_consistency one_proc 1 Algo.c [] [⟨'c', 0⟩, ⟨'r', 0⟩, ⟨'r', 1⟩]
    ⟨by decide, by decide, fun h => absurd h (by decide)⟩ (by decide) 3

/-- Witness for C4: FIFO with one frame on a trace with a fault, an eviction and an
exit. -/
theorem cost_accounting_witness :
    ∃ t u, simulate (initial_state one_proc 1 Algo.f [])
        (([⟨'c', 0⟩, ⟨'r', 0⟩, ⟨'w', 1⟩, ⟨'e', 0⟩] : List Instruction).take 3) = some t ∧
      simulate (initial_state one_proc 1 Algo.f [])
        (([⟨'c', 0⟩, ⟨'r', 0⟩, ⟨'w', 1⟩, ⟨'e', 0⟩] : List Instruction).take (3 + 1)) = some u ∧
      t.cost = 130 * t.ctx_switches + 400 * t.process_exits
        + rw_count (([⟨'c', 0⟩, ⟨'r', 0⟩, ⟨'w', 1⟩, ⟨'e', 0⟩] : List Instruction).take 3)
        + stat_sum t.processes t.nprocs ∧
      t.cost ≤ u.cost :=
  cost_accounting one_proc 1 Algo.f [] [⟨'c', 0⟩, ⟨'r', 0⟩, ⟨'w', 1⟩, ⟨'e', 0⟩]
    ⟨by decide, by decide, fun h => absurd h (by decide)⟩ (by decide) 3

/-! ## SEGPROT -/

theorem Reachable_WF {s : State} (h : Reachable s) : WF s := by
  obtain ⟨vmas, num_frames, algo, rv, insts, hcfg, htr, hs⟩ := h
  obtain ⟨t, ht, hwt, _, _⟩ := run_spec vmas num_frames algo rv insts hcfg htr insts.length
  rw [List.take_length] at ht
  rw [hs] at ht
  simp only [Option.some.injEq] at ht
  rw [ht]; exact hwt

theorem evict_cost (s t : State) (f : Nat) (ht : evict s f = some t) :
    ∃ e, (e = 0 ∨ e = 400 ∨ e = 400 + 1523) ∧ t.cost = s.cost + e := by
  rcases evict_some s t f ht with h | ⟨op, ov, _, h⟩
  · exact ⟨0, Or.inl rfl, by subst h; rfl⟩
  · rw [h]
    simp only [evict_closed, evict_charge]
    split
    · exact ⟨400 + 1523, Or.inr (Or.inr rfl), rfl⟩
    · exact ⟨400, Or.inr (Or.inl rfl), rfl⟩

theorem evict_segprot (s t : State) (f : Nat) (ht : evict s f = some t) (q : Nat) :
    (t.processes q).segprot = (s.processes q).segprot := by
  rcases evict_some s t f ht with h | ⟨op, ov, _, h⟩
  · rw [h]
  · rw [h]
    simp only [evict_closed, upd_apply]
    split
    · next h => rw [h]
    · rfl

theorem evict_present (s t : State) (f : Nat) (ht : evict s f = some t) (p v : Nat)
    (hpres : (get_pte s p v).present = false) : (get_pte t p v).present = false := by
  rcases evict_some s t f ht with h | ⟨op, ov, _, h⟩
  · rw [h]; exact hpres
  · rw [h, get_pte_evict_closed]
    split
    · rfl
    · exact hpres

/-- Claim C9. In a reachable state, a write `w V` by the current process to a page
whose first matching VMA has `write_protected = 1` (file-mapped or not) increments
the `segprot` of that process by exactly one, leaves the `modified` bit of the entry as it was
and its `referenced` bit set. When the page is present the instruction costs
`340 + 1`; when it is faulted in by this instruction the cost is the eviction charge
(`0`, `400` or `400 + 1523`), the fill charge (`1500` or `140`), `300` for the map,
one SEGPROT charge `340` and `1`. -/
theorem segprot_keeps_modified (s : State) (p V : Nat) (vma : VMA) (hr : Reachable s)
    (hcur : s.current_process = some p) (hV : V < MAX_VPAGES)
    (hvma : is_in_vma (s.processes p) V = some vma) (hwp : vma.write_protected = 1) :
    ∃ t, step s ⟨'w', (V : Int)⟩ = some t ∧
      (t.processes p).segprot = (s.processes p).segprot + 1 ∧
      (get_pte t p V).modified = (get_pte s p V).modified ∧
      (get_pte t p V).referenced = true ∧
      ((get_pte s p V).present = true → t.cost = s.cost + 340 + 1) ∧
      ((get_pte s p V).present = false →
        ∃ e, (e = 0 ∨ e = 400 ∨ e = 400 + 1523) ∧
          t.cost = s.cost + e + (if vma.file_mapped ≠ 0 then 1500 else 140) + 300 + 340 + 1) := by
  have h := Reachable_WF hr
  have hpl : p < s.nprocs := h.1.cur p hcur
  have hstep : step s ⟨'w', (V : Int)⟩ =
      (mem_ref s p V 'w').map (fun t => { t with inst_count := t.inst_count + 1 }) := by
    show (Option.map _ (if ('w' : Char) = 'c' then _ else if ('w' : Char) = 'e' then _ else
      (match s.current_process, (V : Int) with
        | some p, Int.ofNat vpage =>
          if p < s.nprocs ∧ vpage < MAX_VPAGES then mem_ref s p vpage 'w' else none
        | _, _ => none))) = _
    rw [if_neg (by decide), if_neg (by decide), hcur]
    show (Option.map _ (if p < s.nprocs ∧ V < MAX_VPAGES then mem_ref s p V 'w' else none)) = _
    rw [if_pos ⟨hpl, hV⟩]
  rw [hstep]
  cases hpres : (get_pte s p V).present
  · obtain ⟨f, s1, s2, hgf, hev, hf, hn1, hc1, hc2, hmr, hwf, hch⟩ :=
      mem_ref_fault s p V 'w' vma h hpl hV hpres hvma
    rw [hmr]
    have hwp0 : vma.write_protected ≠ 0 := by rw [hwp]; decide
    have hpres1 : (get_pte s1 p V).present = false := by
      have h3 := norm_present hn1 p V
      rw [← hpres]; exact h3
    have hpres2 : (get_pte s2 p V).present = false := evict_present s1 s2 f hev p V hpres1
    have hmod2 : (get_pte s2 p V).modified = false := hc2.clean p V hpres2
    have hmod : (get_pte s p V).modified = false := h.1.clean p V hpres
    have hseg1 : (s1.processes p).segprot = (s.processes p).segprot := by
      have h3 := congrArg Process.segprot (norm_proc_eq hn1 p)
      exact h3
    have hseg2 : (s2.processes p).segprot = (s1.processes p).segprot :=
      evict_segprot s1 s2 f hev p
    have hcost1 : s1.cost = s.cost := by
      have h3 := norm_cost hn1
      exact h3
    obtain ⟨e, he, hcost2⟩ := evict_cost s1 s2 f hev
    refine ⟨_, rfl, ?_, ?_, ?_, ?_, ?_⟩
    · show ((fill_closed s2 p V 'w' vma f).processes p).segprot = _
      simp [fill_closed, hwp0, hseg2, hseg1]
    · show (get_pte (fill_closed s2 p V 'w' vma f) p V).modified = _
      rw [get_pte_fill_closed, if_pos ⟨rfl, rfl⟩, hmod]
      simp [fill_pte, hmod2, hwp0]
    · show (get_pte (fill_closed s2 p V 'w' vma f) p V).referenced = true
      rw [get_pte_fill_closed, if_pos ⟨rfl, rfl⟩]
      rfl
    · intro hc; exact absurd hc (by simp)
    · intro _
      refine ⟨e, he, ?_⟩
      have hfc : fill_charge 'w' vma =
          (if vma.file_mapped ≠ 0 then 1500 else 140) + 300 + 340 := by
        simp [fill_charge, hwp0]
      show s2.cost + fill_charge 'w' vma + 1 = _
      rw [hcost2, hcost1, hfc]
      omega
  · rw [mem_ref_present s p V 'w' hpres]
    obtain ⟨vma2, hv2, hw2, _⟩ := h.1.cached p V hpres
    rw [hvma] at hv2
    simp only [Option.some.injEq] at hv2
    subst hv2
    have hwpt : ((s.processes p).page_table V).write_protect = true := by
      have : (get_pte s p V).write_protect = bit1 vma.write_protected := hw2
      rw [hwp] at this
      exact this
    refine ⟨_, rfl, ?_, ?_, ?_, ?_, ?_⟩
    · show ((hit_closed s p V 'w').processes p).segprot = _
      simp [hit_closed, hwpt]
    · show (get_pte (hit_closed s p V 'w') p V).modified = _
      rw [get_pte_hit_closed, if_pos ⟨rfl, rfl⟩]
      simp [hit_pte, get_pte, hwpt]
    · show (get_pte (hit_closed s p V 'w') p V).referenced = true
      rw [get_pte_hit_closed, if_pos ⟨rfl, rfl⟩]
      simp [hit_pte, get_pte, hwpt]
    · intro _
      show s.cost + hit_charge ((s.processes p).page_table V) 'w' + 1 = _
      simp [hit_charge, hwpt]
    · intro hc; exact absurd hc (by simp)

/-- Witness for C9: the first write to page 3 of the write-protected, file-mapped
VMA of `one_proc_wp`, right after `c 0`. -/
theorem segprot_keeps_modified_witness :
    ∃ t, step wp_state ⟨'w', ((3 : Nat) : Int)⟩ = some t ∧
      (t.processes 0).segprot = (wp_state.processes 0).segprot + 1 ∧
      (get_pte t 0 3).modified = (get_pte wp_state 0 3).modified ∧
      (get_pte t 0 3).referenced = true :=
  have h := segprot_keeps_modified wp_state 0 3 ⟨0, 7, 1, 1⟩
    ⟨one_proc_wp, 1, Algo.f, [], [⟨'c', 0⟩],
      ⟨by decide, by decide, fun h => absurd h (by decide)⟩, by decide, rfl⟩
    rfl (by decide) rfl rfl
  h.elim (fun t ht => ⟨t, ht.1, ht.2.1, ht.2.2.1, ht.2.2.2.1⟩)

/-! ## Evaluations at failing inputs: the policies and the fault path -/

/-- Claim C13, the code at a failing input. One frame, one process whose only VMA
`[0..7]` is not file-mapped, trace `c 0, r 0`: the read faults page 0 in, and the
fault path stores `modified = 1` for any read, so the bit is 1 after the instruction
although it was 0 before and the page was only read. -/
theorem read_fault_dirties_anonymous_page :
    (get_pte (initial_state one_proc 1 Algo.f []) 0 0).modified = false ∧
    (simulate (initial_state one_proc 1 Algo.f []) [⟨'c', 0⟩, ⟨'r', 0⟩]).map
      (fun t => ((get_pte t 0 0).present, (get_pte t 0 0).file_mapped, (get_pte t 0 0).modified))
      = some (true, false, true) := by
  constructor
  · rfl
  · set_option maxRecDepth 100000 in decide

/-- Claim C16, the code at a failing input. FIFO called with `hand = 0` returns frame
0 and stores `hand = 1`, for any number of frames; with one frame (trace
`c 0, r 0, r 1`, whose second fault calls the policy) the hand is 1 afterwards, not
`(0 + 1) mod 1 = 0`. -/
theorem fifo_hand_wraps_at_128 :
    (∀ s : State, FIFO_select s 0 = some (0, { s with pager := Pager.FIFO 1 })) ∧
    (simulate (initial_state one_proc 1 Algo.f []) [⟨'c', 0⟩, ⟨'r', 0⟩, ⟨'r', 1⟩]).map
      (fun t => pager_hand t.pager) = some 1 := by
  constructor
  · intro s; rfl
  · set_option maxRecDepth 100000 in decide

/-- Claim C17, the code at a failing input. One frame, Clock, one process; after
`c 0, r 0` frame 0 holds the present, referenced page 0 and the hand is 0. The
policy clears the bit, moves on to slot 1 of the 128-slot table and returns it,
leaving `hand = 2`; the claim gives victim 0 and `hand = 0`. -/
theorem clock_scans_past_num_frames :
    ((simulate (initial_state one_proc 1 Algo.c []) [⟨'c', 0⟩, ⟨'r', 0⟩]).bind
      (fun s => (select_victim_frame s).map (fun r =>
        (pager_hand s.pager, (get_pte s 0 0).present, (get_pte s 0 0).referenced,
          r.1, pager_hand r.2.pager, (get_pte r.2 0 0).referenced))))
      = some (0, true, true, 1, 2, false) := by
  set_option maxRecDepth 100000 in decide

/-! ## The shape of one step -/

theorem exit_final_eq (s : State) (n : Nat) :
    { process_exit s n with inst_count := (process_exit s n).inst_count + 1 } = exit_final s n := by
  rw [process_exit_eq]
  rfl

theorem step_kinds (s : State) (inst : Instruction) (h : WF s)
    (hv : valid_inst s.nprocs s.current_process inst = true) :
    ∃ t, step s inst = some t ∧ StepKind s inst t := by
  obtain ⟨op, value⟩ := inst
  by_cases hc : op = 'c'
  · subst hc
    have hv2 : decide (0 ≤ value ∧ value < (s.nprocs : Int)) = true := by
      simpa [valid_inst] using hv
    obtain ⟨n, hn, hlt, htn⟩ := valid_pid hv2
    subst hn
    have hstep : step s ⟨'c', Int.ofNat n⟩ =
        some { ctx_switch s n with inst_count := (ctx_switch s n).inst_count + 1 } := by
      show (Option.map _ (if ('c' : Char) = 'c' then
        (if n < s.nprocs then some (ctx_switch s n) else none) else _)) = _
      rw [if_pos rfl, if_pos hlt]; rfl
    exact ⟨_, hstep, StepKind.ctx n rfl hlt rfl⟩
  · by_cases he : op = 'e'
    · subst he
      have hv2 : decide (0 ≤ value ∧ value < (s.nprocs : Int)) = true := by
        simpa [valid_inst] using hv
      obtain ⟨n, hn, hlt, htn⟩ := valid_pid hv2
      subst hn
      exact ⟨_, (step_exit s n hlt).trans (congrArg some (exit_final_eq s n)),
        StepKind.exit n rfl hlt rfl⟩
    · have hnce : ¬ (op = 'c' ∨ op = 'e') := by
        intro h; rcases h with h | h
        · exact hc h
        · exact he h
      have hv1 : ((op == 'r' || op == 'w') && s.current_process.isSome &&
          decide (0 ≤ value ∧ value < (MAX_VPAGES : Int))) = true := by
        unfold valid_inst at hv
        rw [if_neg hnce] at hv
        exact hv
      simp only [Bool.and_eq_true] at hv1
      obtain ⟨⟨hrw, hcur⟩, hval⟩ := hv1
      obtain ⟨vpage, hn, hlt, _⟩ := valid_pid hval
      subst hn
      obtain ⟨p, hp⟩ := Option.isSome_iff_exists.mp hcur
      have hpl : p < s.nprocs := h.1.cur p hp
      have hstep : step s ⟨op, Int.ofNat vpage⟩ =
          (mem_ref s p vpage op).map (fun t => { t with inst_count := t.inst_count + 1 }) := by
        show (Option.map _ (if op = 'c' then _ else if op = 'e' then _ else
          (match s.current_process, Int.ofNat vpage with
            | some p, Int.ofNat vpage =>
              if p < s.nprocs ∧ vpage < MAX_VPAGES then mem_ref s p vpage op else none
            | _, _ => none))) = _
        rw [if_neg hc, if_neg he, hp]
        show (Option.map _ (if p < s.nprocs ∧ vpage < MAX_VPAGES then
          mem_ref s p vpage op else none)) = _
        rw [if_pos ⟨hpl, hlt⟩]
      rw [hstep]
      cases hpres : (get_pte s p vpage).present
      · cases hvma : is_in_vma (s.processes p) vpage with
        | none =>
          rw [mem_ref_segv s p vpage op hpres hvma]
          exact ⟨_, rfl, StepKind.segv p vpage hc he rfl hp hpl hlt hpres hvma rfl⟩
        | some vma =>
          obtain ⟨f, s1, s2, hgf, hev, hf, hn1, hc1, hc2, hmr, hwf, hch⟩ :=
            mem_ref_fault s p vpage op vma h hpl hlt hpres hvma
          rw [hmr]
          exact ⟨_, rfl, StepKind.fault p vpage vma f s1 s2 hc he rfl hp hpl hlt hpres hvma
            hgf hev hf hn1 hc1 hc2 rfl⟩
      · rw [mem_ref_present s p vpage op hpres]
        exact ⟨_, rfl, StepKind.hit p vpage hc he rfl hp hpl hlt hpres rfl⟩

/-! ## Fill step of a page fault -/

theorem evict_stats (s t : State) (f : Nat) (ht : evict s f = some t) (q : Nat) :
    (t.processes q).maps = (s.processes q).maps ∧ (t.processes q).ins = (s.processes q).ins ∧
    (t.processes q).outs = (s.processes q).outs ∧ (t.processes q).fins = (s.processes q).fins ∧
    (t.processes q).zeros = (s.processes q).zeros ∧ (t.processes q).segv = (s.processes q).segv := by
  rcases evict_some s t f ht with h | ⟨op, ov, _, h⟩
  · rw [h]; exact ⟨rfl, rfl, rfl, rfl, rfl, rfl⟩
  · rw [h]
    simp only [evict_closed, upd_apply]
    split
    · next h => rw [h]; exact ⟨rfl, rfl, rfl, rfl, rfl, rfl⟩
    · exact ⟨rfl, rfl, rfl, rfl, rfl, rfl⟩

theorem step_rw (s : State) (p V : Nat) (op : Char) (hc : op ≠ 'c') (he : op ≠ 'e')
    (hcur : s.current_process = some p) (hp : p < s.nprocs) (hV : V < MAX_VPAGES) :
    step s ⟨op, (V : Int)⟩ =
      (mem_ref s p V op).map (fun t => { t with inst_count := t.inst_count + 1 }) := by
  show (Option.map _ (if op = 'c' then _ else if op = 'e' then _ else
    (match s.current_process, (V : Int) with
      | some p, Int.ofNat vpage =>
        if p < s.nprocs ∧ vpage < MAX_VPAGES then mem_ref s p vpage op else none
      | _, _ => none))) = _
  rw [if_neg hc, if_neg he, hcur]
  show (Option.map _ (if p < s.nprocs ∧ V < MAX_VPAGES then mem_ref s p V op else none)) = _
  rw [if_pos ⟨hp, hV⟩]

/-- Claim C12, as amended. In a reachable state, a reference `r V` or `w V` by the
current process to a non-present page that lies in a VMA increments exactly one of
that process's `fins` and `zeros`, by one: `fins` (charge 1500) when the first
matching VMA is file-mapped, `zeros` (charge 140) otherwise, whatever the `pagedout`
bit of the entry; `ins` is not incremented. The cost of the instruction is the
eviction charge (`0`, `400` or `400 + 1523`), the fill charge, `300` for the map,
`340` when a write hits a write-protected VMA, and `1`. -/
theorem fill_classification (s : State) (p V : Nat) (op : Char) (vma : VMA)
    (hr : Reachable s) (hop : op = 'r' ∨ op = 'w')
    (hcur : s.current_process = some p) (hV : V < MAX_VPAGES)
    (hpres : (get_pte s p V).present = false)
    (hvma : is_in_vma (s.processes p) V = some vma) :
    ∃ t, step s ⟨op, (V : Int)⟩ = some t ∧
      (vma.file_mapped ≠ 0 → (t.processes p).fins = (s.processes p).fins + 1 ∧
        (t.processes p).zeros = (s.processes p).zeros) ∧
      (vma.file_mapped = 0 → (t.processes p).zeros = (s.processes p).zeros + 1 ∧
        (t.processes p).fins = (s.processes p).fins) ∧
      (t.processes p).ins = (s.processes p).ins ∧
      (∃ e, (e = 0 ∨ e = 400 ∨ e = 400 + 1523) ∧
        t.cost = s.cost + e + (if vma.file_mapped ≠ 0 then 1500 else 140) + 300
          + (if op = 'w' ∧ vma.write_protected ≠ 0 then 340 else 0) + 1) := by
  have h := Reachable_WF hr
  have hpl : p < s.nprocs := h.1.cur p hcur
  have hc : op ≠ 'c' := by rcases hop with h | h <;> rw [h] <;> decide
  have he : op ≠ 'e' := by rcases hop with h | h <;> rw [h] <;> decide
  rw [step_rw s p V op hc he hcur hpl hV]
  obtain ⟨f, s1, s2, hgf, hev, hf, hn1, hc1, hc2, hmr, hwf, hch⟩ :=
    mem_ref_fault s p V op vma h hpl hV hpres hvma
  rw [hmr]
  have hfins1 : (s1.processes p).fins = (s.processes p).fins := by
    have h3 := congrArg Process.fins (norm_proc_eq hn1 p)
    exact h3
  have hzeros1 : (s1.processes p).zeros = (s.processes p).zeros := by
    have h3 := congrArg Process.zeros (norm_proc_eq hn1 p)
    exact h3
  have hins1 : (s1.processes p).ins = (s.processes p).ins := by
    have h3 := congrArg Process.ins (norm_proc_eq hn1 p)
    exact h3
  obtain ⟨_, hins2, _, hfins2, hzeros2, _⟩ := evict_stats s1 s2 f hev p
  have hcost1 : s1.cost = s.cost := by
    have h3 := norm_cost hn1
    exact h3
  obtain ⟨e, he2, hcost2⟩ := evict_cost s1 s2 f hev
  refine ⟨_, rfl, ?_, ?_, ?_, ?_⟩
  · intro hfm
    constructor
    · show ((fill_closed s2 p V op vma f).processes p).fins = _
      simp [fill_closed, hfm, hfins2, hfins1]
    · show ((fill_closed s2 p V op vma f).processes p).zeros = _
      simp [fill_closed, hfm, hzeros2, hzeros1]
  · intro hfm
    constructor
    · show ((fill_closed s2 p V op vma f).processes p).zeros = _
      simp [fill_closed, hfm, hzeros2, hzeros1]
    · show ((fill_closed s2 p V op vma f).processes p).fins = _
      simp [fill_closed, hfm, hfins2, hfins1]
  · show ((fill_closed s2 p V op vma f).processes p).ins = _
    simp [fill_closed, hins2, hins1]
  · refine ⟨e, he2, ?_⟩
    show s2.cost + fill_charge op vma + 1 = _
    rw [hcost2, hcost1]
    simp only [fill_charge]
    omega

/-- Witness for the amended C12: the first read of page 3 of the file-mapped VMA of
`one_proc_wp`, right after `c 0`. -/
theorem fill_classification_witness :
    ∃ t, step wp_state ⟨'r', ((3 : Nat) : Int)⟩ = some t ∧
      (t.processes 0).fins = (wp_state.processes 0).fins + 1 ∧
      (t.processes 0).zeros = (wp_state.processes 0).zeros ∧
      (t.processes 0).ins = (wp_state.processes 0).ins :=
  have h := fill_classification wp_state 0 3 'r' ⟨0, 7, 1, 1⟩
    ⟨one_proc_wp, 1, Algo.f, [], [⟨'c', 0⟩],
      ⟨by decide, by decide, fun h => absurd h (by decide)⟩, by decide, rfl⟩
    (Or.inl rfl) rfl (by decide) rfl rfl
  h.elim (fun t ht => ⟨t, ht.1, (ht.2.1 (by decide)).1, (ht.2.1 (by decide)).2, ht.2.2.2.1⟩)

/-- Counterexample to C12 as stated. With one frame, `c 0, r 0, r 1` reaches a state
in which page 0 of the only process (VMA not file-mapped) is not present and has
`pagedout = 1`; the next `r 0` faults it in and increments `zeros`, not `ins`. -/
theorem pagedout_fault_counts_zero :
    ∃ s t, simulate (initial_state one_proc 1 Algo.f []) [⟨'c', 0⟩, ⟨'r', 0⟩, ⟨'r', 1⟩] = some s ∧
      step s ⟨'r', 0⟩ = some t ∧
      (get_pte s 0 0).present = false ∧ (get_pte s 0 0).pagedout = true ∧
      (t.processes 0).ins = (s.processes 0).ins ∧
      (t.processes 0).zeros = (s.processes 0).zeros + 1 := by
  have h : ((simulate (initial_state one_proc 1 Algo.f []) [⟨'c', 0⟩, ⟨'r', 0⟩, ⟨'r', 1⟩]).bind
      (fun s => (step s ⟨'r', 0⟩).map (fun t =>
        ((get_pte s 0 0).present, (get_pte s 0 0).pagedout,
          decide ((t.processes 0).ins = (s.processes 0).ins),
          decide ((t.processes 0).zeros = (s.processes 0).zeros + 1)))))
      = some (false, true, true, true) := by
    set_option maxRecDepth 100000 in decide
  cases hs : simulate (initial_state one_proc 1 Algo.f []) [⟨'c', 0⟩, ⟨'r', 0⟩, ⟨'r', 1⟩] with
  | none => rw [hs] at h; simp at h
  | some s =>
    rw [hs] at h
    cases ht : step s ⟨'r', 0⟩ with
    | none => simp [ht] at h
    | some t =>
      simp [ht] at h
      exact ⟨s, t, rfl, ht, h.1, h.2.1, h.2.2.1, h.2.2.2⟩

/-! ## Induction over valid runs -/

theorem ctx_switch_processes (s : State) (n : Nat) :
    (ctx_switch s n).processes = s.processes ∧ (ctx_switch s n).frame_table = s.frame_table ∧
    (ctx_switch s n).free_frames = s.free_frames ∧ (ctx_switch s n).nprocs = s.nprocs ∧
    (ctx_switch s n).pager = s.pager := by
  simp only [ctx_switch]
  split <;> exact ⟨rfl, rfl, rfl, rfl, rfl⟩

theorem StepKind_vmas {s t : State} {inst : Instruction} (hk : StepKind s inst t) (q : Nat) :
    (t.processes q).vmas = (s.processes q).vmas := by
  cases hk with
  | ctx n hi hn ht =>
    have := (ctx_switch_processes s n).1
    rw [ht]
    show ((ctx_switch s n).processes q).vmas = _
    rw [this]
  | exit n hi hn ht =>
    rw [ht]
    show ((exit_closed s n MAX_VPAGES).processes q).vmas = _
    simp only [exit_closed, upd_apply]
    split
    · next h => rw [h]
    · rfl
  | hit p V hc he hval hcur hp hV hpres ht =>
    rw [ht]
    show ((hit_closed s p V inst.op).processes q).vmas = _
    simp only [hit_closed, upd_apply]
    split
    · next h => rw [h]
    · rfl
  | segv p V hc he hval hcur hp hV hpres hvma ht =>
    rw [ht]
    show ((segv_closed s p).processes q).vmas = _
    simp only [segv_closed, upd_apply]
    split
    · next h => rw [h]
    · rfl
  | fault p V vma f s1 s2 hc he hval hcur hp hV hpres hvma hgf hev hf hn1 hc1 hc2 ht =>
    rw [ht]
    show ((fill_closed s2 p V inst.op vma f).processes q).vmas = _
    rw [(proc_fill_closed s2 p V inst.op vma f q).2, evict_vmas s1 s2 f hev q]
    have h3 := norm_vmas hn1 q
    exact h3

/-- Induction over a valid run: a property that holds initially and is preserved
by every kind of step (for instructions satisfying `Q`) holds at the end, and the
run does not get stuck. -/
theorem simulate_induct (P : State → Prop) (Q : Instruction → Prop)
    (hstep : ∀ s inst t, WF s → valid_inst s.nprocs s.current_process inst = true → Q inst →
      StepKind s inst t → P s → P t) :
    ∀ (insts : List Instruction) (s : State), WF s →
      valid_trace s.nprocs s.current_process insts = true → (∀ i ∈ insts, Q i) → P s →
      ∃ t, simulate s insts = some t ∧ WF t ∧ P t := by
  intro insts
  induction insts with
  | nil =>
    intro s h _ _ hP
    exact ⟨s, rfl, h, hP⟩
  | cons inst rest ih =>
    intro s h hv hQ hP
    simp only [valid_trace, Bool.and_eq_true] at hv
    obtain ⟨t, ht, hwt, hnt, hcu, _, _⟩ := step_spec s inst h hv.1
    obtain ⟨t2, ht2, hk⟩ := step_kinds s inst h hv.1
    have htt : t2 = t := by
      rw [ht] at ht2
      simp only [Option.some.injEq] at ht2
      exact ht2.symm
    subst htt
    have hv2 : valid_trace t2.nprocs t2.current_process rest = true := by
      rw [hnt, hcu]; exact hv.2
    have hPt := hstep s inst t2 h hv.1 (hQ inst (List.mem_cons_self inst rest)) hk hP
    obtain ⟨u, hu, hwu, hPu⟩ := ih t2 hwt hv2
      (fun i hi => hQ i (List.mem_cons_of_mem inst hi)) hPt
    exact ⟨u, by rw [simulate_cons, ht]; exact hu, hwu, hPu⟩

/-- The VMA lists are those of the input throughout a valid run. -/
theorem run_vmas (vmas : List (List VMA)) (num_frames : Nat) (algo : Algo)
    (random_values : List Int) (insts : List Instruction)
    (hcfg : valid_config num_frames algo random_values)
    (htr : valid_trace vmas.length none insts = true) :
    ∃ t, simulate (initial_state vmas num_frames algo random_values) insts = some t ∧ WF t ∧
      t.nprocs = vmas.length ∧ ∀ q, (t.processes q).vmas = vmas.getD q [] := by
  have hw := WF_initial vmas num_frames algo random_values hcfg
  obtain ⟨t, ht, hwt, hP⟩ := simulate_induct
    (fun s => s.nprocs = vmas.length ∧ ∀ q, (s.processes q).vmas = vmas.getD q [])
    (fun _ => True)
    (by
      intro s inst t hws hvi _ hk hP
      obtain ⟨u, hu, _, hnu, _⟩ := step_spec s inst hws hvi
      obtain ⟨u2, hu2, hk2⟩ := step_kinds s inst hws hvi
      refine ⟨?_, fun q => by rw [StepKind_vmas hk q]; exact hP.2 q⟩
      cases hk with
      | ctx n hi hn ht => rw [ht]; exact (ctx_switch_processes s n).2.2.2.1.trans hP.1
      | exit n hi hn ht =>
        rw [ht]; exact hP.1
      | hit p V hc he hval hcur hp hV hpres ht => rw [ht]; exact hP.1
      | segv p V hc he hval hcur hp hV hpres hvma ht => rw [ht]; exact hP.1
      | fault p V vma f s1 s2 hc he hval hcur hp hV hpres hvma hgf hev hf hn1 hc1 hc2 ht =>
        rw [ht]
        show s2.nprocs = _
        rw [evict_nprocs s1 s2 f hev]
        have h3 := norm_nprocs hn1
        exact h3.trans hP.1)
    insts (initial_state vmas num_frames algo random_values) hw htr
    (fun _ _ => trivial) ⟨rfl, fun _ => rfl⟩
  exact ⟨t, ht, hwt, hP.1, hP.2⟩

/-! ## Cached protection bits -/

theorem bit1_flag (x : Int) (h : x = 0 ∨ x = 1) : (bit1 x = true ↔ x = 1) := by
  rcases h with h | h <;> subst h <;> decide

/-- Claim C11. For every policy and every valid trace over processes whose VMAs do
not overlap and whose flags are `0` or `1`, the run does not get stuck and after
every instruction each present page-table entry `(p, v)` lies in a VMA of process
`p`, and for the VMA of `p` that contains `v` the entry has `write_protect = 1`
exactly when the VMA has `write_protected = 1` and `file_mapped = 1` exactly when the
VMA has `file_mapped = 1`. -/
theorem cached_bits_match_vma (vmas : List (List VMA)) (num_frames : Nat) (algo : Algo)
    (random_values : List Int) (insts : List Instruction)
    (hcfg : valid_config num_frames algo random_values)
    (htr : valid_trace vmas.length none insts = true)
    (hflags : ∀ l ∈ vmas, ∀ vma ∈ l, flags01 vma)
    (hdisj : ∀ l ∈ vmas, vmas_disjoint l) (k : Nat) :
    ∃ t, simulate (initial_state vmas num_frames algo random_values) (insts.take k) = some t ∧
      ∀ p v, p < t.nprocs → v < MAX_VPAGES → (get_pte t p v).present = true →
        (∃ vma, vma ∈ vmas.getD p [] ∧ vma_contains vma (v : Int)) ∧
        ∀ vma, vma ∈ vmas.getD p [] → vma_contains vma (v : Int) →
          ((get_pte t p v).write_protect = true ↔ vma.write_protected = 1) ∧
          ((get_pte t p v).file_mapped = true ↔ vma.file_mapped = 1) := by
  have hv := valid_trace_take vmas.length insts none k htr
  obtain ⟨t, ht, hwt, hnt, hvm⟩ :=
    run_vmas vmas num_frames algo random_values (insts.take k) hcfg hv
  refine ⟨t, ht, ?_⟩
  intro p v hp _ hpres
  obtain ⟨vma0, hfind, hwp, hfm⟩ := hwt.1.cached p v hpres
  unfold is_in_vma at hfind
  rw [hvm p] at hfind
  have hmem0 : vma0 ∈ vmas.getD p [] := List.mem_of_find?_eq_some hfind
  have hcont0 : vma_contains vma0 (v : Int) := by
    have := List.find?_some hfind
    simpa [vma_contains] using this
  have hpl : p < vmas.length := by omega
  have hlist : vmas.getD p [] ∈ vmas := by
    rw [List.getD_eq_getElem _ _ hpl]
    exact List.getElem_mem hpl
  refine ⟨⟨vma0, hmem0, hcont0⟩, ?_⟩
  intro vma hmem hcont
  have heq : vma = vma0 := by
    by_contra hne
    have hsym : Symmetric (fun a b : VMA => ∀ v : Int, ¬ (vma_contains a v ∧ vma_contains b v)) := by
      intro a b hab w hw
      exact hab w ⟨hw.2, hw.1⟩
    exact List.Pairwise.forall hsym (hdisj _ hlist) hmem hmem0 hne (v : Int) ⟨hcont, hcont0⟩
  subst heq
  obtain ⟨f1, f2⟩ := hflags _ hlist vma hmem
  rw [hwp, hfm]
  exact ⟨bit1_flag _ f1, bit1_flag _ f2⟩

/-- Witness for C11: Clock with one frame on a process with a write-protected,
file-mapped VMA. -/
theorem cached_bits_match_vma_witness :
    ∃ t, simulate (initial_state one_proc_wp 1 Algo.c [])
        (([⟨'c', 0⟩, ⟨'w', 0⟩, ⟨'r', 1⟩] : List Instruction).take 3) = some t ∧
      ∀ p v, p < t.nprocs → v < MAX_VPAGES → (get_pte t p v).present = true →
        (∃ vma, vma ∈ one_proc_wp.getD p [] ∧ vma_contains vma (v : Int)) ∧
        ∀ vma, vma ∈ one_proc_wp.getD p [] → vma_contains vma (v : Int) →
          ((get_pte t p v).write_protect = true ↔ vma.write_protected = 1) ∧
          ((get_pte t p v).file_mapped = true ↔ vma.file_mapped = 1) :=
  cached_bits_match_vma one_proc_wp 1 Algo.c [] [⟨'c', 0⟩, ⟨'w', 0⟩, ⟨'r', 1⟩]
    ⟨by decide, by decide, fun h => absurd h (by decide)⟩ (by decide)
    (by
      intro l hl vma hv
      simp only [one_proc_wp, List.mem_singleton] at hl
      subst hl
      simp only [List.mem_singleton] at hv
      subst hv
      exact ⟨Or.inr rfl, Or.inr rfl⟩)
    (by
      intro l hl
      simp only [one_proc_wp, List.mem_singleton] at hl
      subst hl
      exact List.pairwise_singleton _ _)
    3

/-! ## Allocation from the free list -/

theorem proc_sum_congr (g : Process → Nat) (f1 f2 : Nat → Process) :
    ∀ n, (∀ q, q < n → g (f2 q) = g (f1 q)) → proc_sum g f2 n = proc_sum g f1 n := by
  intro n
  induction n with
  | zero => intro _; rfl
  | succ n ih =>
    intro h
    simp only [proc_sum]
    rw [ih (fun q hq => h q (Nat.lt_succ_of_lt hq)), h n (Nat.lt_succ_self n)]

theorem proc_sum_bump (g : Process → Nat) (f1 f2 : Nat → Process) (p d : Nat)
    (h : ∀ q, g (f2 q) = g (f1 q) + if q = p then d else 0) :
    ∀ n, p < n → proc_sum g f2 n = proc_sum g f1 n + d := by
  intro n
  induction n with
  | zero => intro hp; omega
  | succ n ih =>
    intro hp
    simp only [proc_sum]
    by_cases hpn : p = n
    · have h1 : proc_sum g f2 n = proc_sum g f1 n := by
        apply proc_sum_congr
        intro q hq
        rw [h q, if_neg (by omega)]; rfl
      rw [h1, h n, if_pos hpn.symm]; omega
    · rw [ih (by omega), h n, if_neg (fun e => hpn e.symm)]; omega

theorem total_maps_same {s t : State} (hn : t.nprocs = s.nprocs)
    (h : ∀ q, (t.processes q).maps = (s.processes q).maps) : total_maps t = total_maps s := by
  unfold total_maps
  rw [hn]
  exact proc_sum_congr Process.maps s.processes t.processes s.nprocs (fun q _ => h q)

theorem total_maps_fill (s : State) (p V : Nat) (op : Char) (vma : VMA) (f : Nat)
    (hp : p < s.nprocs) : total_maps (fill_closed s p V op vma f) = total_maps s + 1 := by
  unfold total_maps
  show proc_sum Process.maps (fill_closed s p V op vma f).processes s.nprocs = _
  apply proc_sum_bump Process.maps _ _ p 1 _ _ hp
  intro q
  simp only [fill_closed, upd_apply]
  by_cases hq : q = p
  · subst hq; simp
  · simp [hq]

theorem get_frame_head (s : State) (f : Nat) (rest : List Nat) (h : s.free_frames = f :: rest) :
    get_frame s = some (f, { s with free_frames := rest }) := by
  unfold get_frame
  rw [h]

theorem evict_free (s : State) (f : Nat) (h : (s.frame_table f).proc_id = -1) :
    evict s f = some s := by
  unfold evict
  rw [if_neg (by rw [h]; simp)]

/-- A page fault while the free list still holds fresh frames takes the head of the
list and evicts nothing. -/
theorem fresh_fault (N : Nat) (s s1 s2 : State) (f : Nat) (hfresh : FreshFrames N s)
    (hlt : total_maps s < N) (hgf : get_frame s = some (f, s1)) (hev : evict s1 f = some s2) :
    f = total_maps s ∧
      s1 = { s with free_frames := List.range' (total_maps s + 1) (N - (total_maps s + 1)) } ∧
      s2 = s1 := by
  obtain ⟨hfl, hfree⟩ := hfresh (Nat.le_of_lt hlt)
  have hsplit : s.free_frames =
      total_maps s :: List.range' (total_maps s + 1) (N - (total_maps s + 1)) := by
    rw [hfl]
    have : N - total_maps s = (N - (total_maps s + 1)) + 1 := by omega
    rw [this, List.range'_succ]
  rw [get_frame_head s _ _ hsplit] at hgf
  simp only [Option.some.injEq, Prod.mk.injEq] at hgf
  obtain ⟨hf, hs1⟩ := hgf
  subst hf
  subst hs1
  refine ⟨rfl, rfl, ?_⟩
  have hfr : (s.frame_table (total_maps s)).proc_id = -1 := hfree _ (Nat.le_refl _) hlt
  have hev0 := evict_free
    ({ s with free_frames := List.range' (total_maps s + 1) (N - (total_maps s + 1)) })
    (total_maps s) hfr
  rw [hev0] at hev
  simp only [Option.some.injEq] at hev
  exact hev.symm

theorem FreshFrames_step (N : Nat) (s t : State) (inst : Instruction)
    (hne : inst.op ≠ 'e') (hk : StepKind s inst t) (hfresh : FreshFrames N s) :
    FreshFrames N t := by
  cases hk with
  | ctx n hi hn ht =>
    obtain ⟨e1, e2, e3, e4, _⟩ := ctx_switch_processes s n
    have hm : total_maps t = total_maps s := by
      rw [ht]
      exact total_maps_same e4 (fun q => by
        show ((ctx_switch s n).processes q).maps = _
        rw [e1])
    intro hle
    rw [hm] at hle ⊢
    obtain ⟨a, b⟩ := hfresh hle
    rw [ht]
    exact ⟨e3.trans a, fun i h1 h2 => by
      show ((ctx_switch s n).frame_table i).proc_id = -1
      rw [e2]; exact b i h1 h2⟩
  | exit n hi hn ht =>
    rw [hi] at hne
    exact absurd rfl hne
  | hit p V hc he hval hcur hp hV hpres ht =>
    have hm : total_maps t = total_maps s := by
      rw [ht]
      refine total_maps_same rfl (fun q => ?_)
      show ((hit_closed s p V inst.op).processes q).maps = _
      simp only [hit_closed, upd_apply]
      split
      · next h => rw [h]
      · rfl
    intro hle
    rw [hm] at hle ⊢
    obtain ⟨a, b⟩ := hfresh hle
    rw [ht]
    exact ⟨a, b⟩
  | segv p V hc he hval hcur hp hV hpres hvma ht =>
    have hm : total_maps t = total_maps s := by
      rw [ht]
      refine total_maps_same rfl (fun q => ?_)
      show ((segv_closed s p).processes q).maps = _
      simp only [segv_closed, upd_apply]
      split
      · next h => rw [h]
      · rfl
    intro hle
    rw [hm] at hle ⊢
    obtain ⟨a, b⟩ := hfresh hle
    rw [ht]
    exact ⟨a, b⟩
  | fault p V vma f s1 s2 hc he hval hcur hp hV hpres hvma hgf hev hf hn1 hc1 hc2 ht =>
    have hnp1 : s1.nprocs = s.nprocs := by
      have h3 := norm_nprocs hn1
      exact h3
    have hnp2 : s2.nprocs = s1.nprocs := evict_nprocs s1 s2 f hev
    have hm2 : total_maps s2 = total_maps s := by
      refine total_maps_same (by omega) (fun q => ?_)
      rw [(evict_stats s1 s2 f hev q).1]
      have h3 := congrArg Process.maps (norm_proc_eq hn1 q)
      exact h3
    have hm : total_maps t = total_maps s + 1 := by
      rw [ht, ← hm2]
      exact total_maps_fill s2 p V inst.op vma f (by omega)
    intro hle
    have hlt : total_maps s < N := by omega
    obtain ⟨hf2, hs1, hs2⟩ := fresh_fault N s s1 s2 f hfresh hlt hgf hev
    obtain ⟨_, hfree⟩ := hfresh (Nat.le_of_lt hlt)
    rw [hm, ht]
    constructor
    · show s2.free_frames = _
      rw [hs2, hs1]
    · intro i h1 h2
      show ((fill_closed s2 p V inst.op vma f).frame_table i).proc_id = -1
      rw [(frame_fill_closed s2 p V inst.op vma f i).1, if_neg (by omega), hs2, hs1]
      exact hfree i (by omega) h2

theorem FreshFrames_initial (vmas : List (List VMA)) (num_frames : Nat) (algo : Algo)
    (random_values : List Int) :
    FreshFrames num_frames (initial_state vmas num_frames algo random_values) := by
  have h0 : total_maps (initial_state vmas num_frames algo random_values) = 0 := by
    unfold total_maps
    generalize (initial_state vmas num_frames algo random_values).nprocs = n
    induction n with
    | zero => rfl
    | succ n ih => simp only [proc_sum, ih]; rfl
  intro _
  rw [h0]
  constructor
  · simp only [initial_state, init_frame_table_eq, Nat.sub_zero, List.range_eq_range']
  · intro i _ hi
    simp only [initial_state, init_frame_table_eq, if_pos hi]

/-- Claim C15. `get_frame` on a non-empty free list returns the head, removes exactly
that element and leaves everything else, the pager included, as it was.
Consequently, in a valid run from the initial state with `N` frames and a trace
without exits, the `k`-th page fault on a legal page (`k - 1` pages mapped so far,
`k ≤ N`) maps the page to frame `k - 1`, changes no `unmaps` counter, increments
`maps` and exactly one of `fins` (file-mapped VMA) and `zeros` of the faulting
process, and leaves the free list equal to `[k .. N-1]`. -/
theorem free_list_order :
    (∀ (s : State) (f : Nat) (rest : List Nat), s.free_frames = f :: rest →
      get_frame s = some (f, { s with free_frames := rest })) ∧
    (∀ (vmas : List (List VMA)) (N : Nat) (algo : Algo) (random_values : List Int)
      (insts : List Instruction) (s : State) (p V k : Nat) (op : Char) (vma : VMA),
      valid_config N algo random_values → valid_trace vmas.length none insts = true →
      (∀ i ∈ insts, i.op ≠ 'e') →
      simulate (initial_state vmas N algo random_values) insts = some s →
      (op = 'r' ∨ op = 'w') → s.current_process = some p → V < MAX_VPAGES →
      (get_pte s p V).present = false → is_in_vma (s.processes p) V = some vma →
      total_maps s + 1 = k → k ≤ N →
      ∃ t, step s ⟨op, (V : Int)⟩ = some t ∧
        (get_pte t p V).present = true ∧ (get_pte t p V).frame = k - 1 ∧
        (∀ q, (t.processes q).unmaps = (s.processes q).unmaps) ∧
        (t.processes p).maps = (s.processes p).maps + 1 ∧ total_maps t = k ∧
        (vma.file_mapped ≠ 0 → (t.processes p).fins = (s.processes p).fins + 1 ∧
          (t.processes p).zeros = (s.processes p).zeros) ∧
        (vma.file_mapped = 0 → (t.processes p).zeros = (s.processes p).zeros + 1 ∧
          (t.processes p).fins = (s.processes p).fins) ∧
        t.free_frames = List.range' k (N - k)) := by
  refine ⟨get_frame_head, ?_⟩
  intro vmas N algo rv insts s p V k op vma hcfg htr hnoexit hs hop hcur hV hpres hvma hk hkN
  have hw0 := WF_initial vmas N algo rv hcfg
  obtain ⟨t0, ht0, hwf, hfresh⟩ := simulate_induct (FreshFrames N) (fun i => i.op ≠ 'e')
    (fun s inst t _ _ hq hkind hP => FreshFrames_step N s t inst hq hkind hP)
    insts (initial_state vmas N algo rv) hw0 htr hnoexit (FreshFrames_initial vmas N algo rv)
  have hst : t0 = s := by
    rw [hs] at ht0
    simp only [Option.some.injEq] at ht0
    exact ht0.symm
  subst hst
  have hpl : p < t0.nprocs := hwf.1.cur p hcur
  have hc : op ≠ 'c' := by rcases hop with h | h <;> rw [h] <;> decide
  have he : op ≠ 'e' := by rcases hop with h | h <;> rw [h] <;> decide
  rw [step_rw t0 p V op hc he hcur hpl hV]
  obtain ⟨f, s1, s2, hgf, hev, hf, hn1, hc1, hc2, hmr, hwf2, hch⟩ :=
    mem_ref_fault t0 p V op vma hwf hpl hV hpres hvma
  rw [hmr]
  have hlt : total_maps t0 < N := by omega
  obtain ⟨hf2, hs1, hs2⟩ := fresh_fault N t0 s1 s2 f hfresh hlt hgf hev
  have hproc : s2.processes = t0.processes := by rw [hs2, hs1]
  have hnp : s2.nprocs = t0.nprocs := by rw [hs2, hs1]
  have htm : total_maps s2 = total_maps t0 := by rw [hs2, hs1]; rfl
  have hk1 : k - 1 = f := by omega
  refine ⟨_, rfl, ?_, ?_, ?_, ?_, ?_, ?_, ?_, ?_⟩
  · show (get_pte (fill_closed s2 p V op vma f) p V).present = true
    rw [get_pte_fill_closed, if_pos ⟨rfl, rfl⟩]
    rfl
  · show (get_pte (fill_closed s2 p V op vma f) p V).frame = k - 1
    rw [get_pte_fill_closed, if_pos ⟨rfl, rfl⟩, hk1]
    exact Nat.mod_eq_of_lt hf
  · intro q
    show ((fill_closed s2 p V op vma f).processes q).unmaps = _
    simp only [fill_closed, upd_apply, hproc]
    split
    · next h => rw [h]
    · rfl
  · show ((fill_closed s2 p V op vma f).processes p).maps = _
    simp [fill_closed, hproc]
  · show total_maps (fill_closed s2 p V op vma f) = k
    rw [total_maps_fill s2 p V op vma f (by omega), htm]
    exact hk
  · intro hfm
    constructor
    · show ((fill_closed s2 p V op vma f).processes p).fins = _
      simp [fill_closed, hfm, hproc]
    · show ((fill_closed s2 p V op vma f).processes p).zeros = _
      simp [fill_closed, hfm, hproc]
  · intro hfm
    constructor
    · show ((fill_closed s2 p V op vma f).processes p).zeros = _
      simp [fill_closed, hfm, hproc]
    · show ((fill_closed s2 p V op vma f).processes p).fins = _
      simp [fill_closed, hfm, hproc]
  · show s2.free_frames = _
    rw [hs2, hs1, ← hk]

/-- Witness for C15: scenario 1 of the specification (four frames, one process with
VMA `[0..7]`); after `c 0, r 0, r 1, r 2` the fourth fault, `r 3`, is mapped to
frame 3 and empties the free list. -/
theorem free_list_order_witness :
    ∃ s t, simulate (initial_state one_proc 4 Algo.f []) scenario1 = some s ∧
      step s ⟨'r', ((3 : Nat) : Int)⟩ = some t ∧
      (get_pte t 0 3).present = true ∧ (get_pte t 0 3).frame = 4 - 1 ∧
      t.free_frames = List.range' 4 (4 - 4) := by
  have hcfg : valid_config 4 Algo.f [] := ⟨by decide, by decide, fun h => absurd h (by decide)⟩
  have hv : valid_trace one_proc.length none scenario1 = true := by decide
  obtain ⟨s, hs, hwf, _, _⟩ := run_vmas one_proc 4 Algo.f [] scenario1 hcfg hv
  have hfacts : (simulate (initial_state one_proc 4 Algo.f []) scenario1).map
      (fun s => (s.current_process, (get_pte s 0 3).present,
        is_in_vma (s.processes 0) 3, total_maps s)) =
      some (some 0, false, some ⟨0, 7, 0, 0⟩, 3) := by
    set_option maxRecDepth 100000 in decide
  rw [hs] at hfacts
  simp only [Option.map_some', Option.some.injEq, Prod.mk.injEq] at hfacts
  obtain ⟨h1, h2, h3, h4⟩ := hfacts
  obtain ⟨t, ht, a1, a2, _, _, _, _, _, a8⟩ :=
    free_list_order.2 one_proc 4 Algo.f [] scenario1 s 0 3 4 'r' ⟨0, 7, 0, 0⟩ hcfg hv
      (by decide) hs (Or.inl rfl) h1 (by decide) h2 h3 (by rw [h4]) (by decide)
  exact ⟨s, t, hs, ht, a1, a2, a8⟩

/-! ## Fault totals that do not depend on the policy -/

theorem StepKind_segv {s t : State} {inst : Instruction} (hk : StepKind s inst t)
    (hw : WF s) (q : Nat) :
    (t.processes q).segv = (s.processes q).segv + segv_delta s inst q := by
  cases hk with
  | ctx n hi hn ht =>
    have hd : segv_delta s inst q = 0 := by
      unfold segv_delta
      rw [if_neg]
      intro h; rw [hi] at h; exact h.1 rfl
    rw [hd, ht]
    show ((ctx_switch s n).processes q).segv = _
    rw [(ctx_switch_processes s n).1]; rfl
  | exit n hi hn ht =>
    have hd : segv_delta s inst q = 0 := by
      unfold segv_delta
      rw [if_neg]
      intro h; rw [hi] at h; exact h.2.1 rfl
    rw [hd, ht]
    show ((exit_closed s n MAX_VPAGES).processes q).segv = _
    simp only [exit_closed, upd_apply]
    split
    · next h => rw [h]; rfl
    · rfl
  | hit p V hc he hval hcur hp hV hpres ht =>
    have hd : segv_delta s inst q = 0 := by
      unfold segv_delta
      rw [if_neg]
      intro h
      obtain ⟨_, _, h3, h4⟩ := h
      rw [hcur] at h3
      simp only [Option.some.injEq] at h3
      subst h3
      rw [hval] at h4
      obtain ⟨vma, hv, _⟩ := hw.1.cached p V hpres
      have h5 : is_in_vma (s.processes p) V = none := h4
      rw [hv] at h5
      exact absurd h5 (by simp)
    rw [hd, ht]
    show ((hit_closed s p V inst.op).processes q).segv = _
    simp only [hit_closed, upd_apply]
    split
    · next h => rw [h]; rfl
    · rfl
  | segv p V hc he hval hcur hp hV hpres hvma ht =>
    rw [ht]
    show ((segv_closed s p).processes q).segv = _
    unfold segv_delta
    by_cases hq : q = p
    · subst hq
      have hv : is_in_vma (s.processes q) inst.value.toNat = none := by rw [hval]; exact hvma
      rw [if_pos ⟨hc, he, hcur, hv⟩]
      simp [segv_closed]
    · rw [if_neg]
      · simp [segv_closed, upd_apply, hq]
      · intro h
        rw [hcur] at h
        have := h.2.2.1
        simp only [Option.some.injEq] at this
        exact hq this.symm
  | fault p V vma f s1 s2 hc he hval hcur hp hV hpres hvma hgf hev hf hn1 hc1 hc2 ht =>
    have hd : segv_delta s inst q = 0 := by
      unfold segv_delta
      rw [if_neg]
      intro h
      obtain ⟨_, _, h3, h4⟩ := h
      rw [hcur] at h3
      simp only [Option.some.injEq] at h3
      subst h3
      rw [hval] at h4
      have h5 : is_in_vma (s.processes p) V = none := h4
      rw [hvma] at h5
      exact absurd h5 (by simp)
    have h1 : (s1.processes q).segv = (s.processes q).segv := by
      have h3 := congrArg Process.segv (norm_proc_eq hn1 q)
      exact h3
    have h2 := (evict_stats s1 s2 f hev q).2.2.2.2.2
    rw [hd, ht]
    show ((fill_closed s2 p V inst.op vma f).processes q).segv = _
    have h3 : ((fill_closed s2 p V inst.op vma f).processes q).segv = (s2.processes q).segv := by
      simp only [fill_closed, upd_apply]
      split
      · next h => rw [h]
      · rfl
    rw [h3, h2, h1]; rfl

theorem StepKind_segprot {s t : State} {inst : Instruction} (hk : StepKind s inst t)
    (hw : WF s) (hfl : wp_flags01 s) (q : Nat) :
    (t.processes q).segprot = (s.processes q).segprot + segprot_delta s inst q := by
  cases hk with
  | ctx n hi hn ht =>
    have hd : segprot_delta s inst q = 0 := by
      unfold segprot_delta
      rw [if_neg]
      intro h; rw [hi] at h
      have h1 : ('c' : Char) = 'w' := h.1
      exact absurd h1 (by decide)
    rw [hd, ht]
    show ((ctx_switch s n).processes q).segprot = _
    rw [(ctx_switch_processes s n).1]; rfl
  | exit n hi hn ht =>
    have hd : segprot_delta s inst q = 0 := by
      unfold segprot_delta
      rw [if_neg]
      intro h; rw [hi] at h
      have h1 : ('e' : Char) = 'w' := h.1
      exact absurd h1 (by decide)
    rw [hd, ht]
    show ((exit_closed s n MAX_VPAGES).processes q).segprot = _
    simp only [exit_closed, upd_apply]
    split
    · next h => rw [h]; rfl
    · rfl
  | hit p V hc he hval hcur hp hV hpres ht =>
    rw [ht]
    show ((hit_closed s p V inst.op).processes q).segprot = _
    obtain ⟨vma, hv, hwp, _⟩ := hw.1.cached p V hpres
    have hmem : vma ∈ (s.processes p).vmas := by
      unfold is_in_vma at hv
      exact List.mem_of_find?_eq_some hv
    have hbit : ((s.processes p).page_table V).write_protect = true ↔ vma.write_protected ≠ 0 := by
      have h1 : (get_pte s p V).write_protect = bit1 vma.write_protected := hwp
      have h2 : ((s.processes p).page_table V).write_protect = bit1 vma.write_protected := h1
      rw [h2]
      rcases hfl p vma hmem with h0 | h0 <;> rw [h0] <;> decide
    unfold segprot_delta
    by_cases hq : q = p
    · subst hq
      by_cases hwr : inst.op = 'w'
      · rw [if_pos ⟨hwr, hcur⟩, hval]
        have hv2 : is_in_vma (s.processes q) (Int.ofNat V).toNat = some vma := hv
        rw [hv2]
        by_cases hwp0 : vma.write_protected ≠ 0
        · simp [hit_closed, hwr, hbit.mpr hwp0, hwp0]
        · have hnb : ¬ ((s.processes q).page_table V).write_protect = true :=
            fun h => hwp0 (hbit.mp h)
          simp [hit_closed, hwr, hnb, hwp0]
      · rw [if_neg (fun h => hwr h.1)]
        simp [hit_closed, hwr]
    · rw [if_neg]
      · simp [hit_closed, upd_apply, hq]
      · intro h
        rw [hcur] at h
        have := h.2
        simp only [Option.some.injEq] at this
        exact hq this.symm
  | segv p V hc he hval hcur hp hV hpres hvma ht =>
    have hd : segprot_delta s inst q = 0 := by
      unfold segprot_delta
      by_cases hc2 : inst.op = 'w' ∧ s.current_process = some q
      · rw [if_pos hc2]
        have hqp : q = p := by
          have := hc2.2
          rw [hcur] at this
          simp only [Option.some.injEq] at this
          exact this.symm
        subst hqp
        rw [hval]
        have hv2 : is_in_vma (s.processes q) (Int.ofNat V).toNat = none := hvma
        rw [hv2]
      · rw [if_neg hc2]
    rw [hd, ht]
    show ((segv_closed s p).processes q).segprot = _
    simp only [segv_closed, upd_apply]
    split
    · next h => rw [h]; rfl
    · rfl
  | fault p V vma f s1 s2 hc he hval hcur hp hV hpres hvma hgf hev hf hn1 hc1 hc2 ht =>
    have h1 : (s1.processes q).segprot = (s.processes q).segprot := by
      have h3 := congrArg Process.segprot (norm_proc_eq hn1 q)
      exact h3
    have h2 := evict_segprot s1 s2 f hev q
    rw [ht]
    show ((fill_closed s2 p V inst.op vma f).processes q).segprot = _
    unfold segprot_delta
    by_cases hq : q = p
    · subst hq
      by_cases hwr : inst.op = 'w'
      · rw [if_pos ⟨hwr, hcur⟩, hval]
        have hv2 : is_in_vma (s.processes q) (Int.ofNat V).toNat = some vma := hvma
        rw [hv2]
        by_cases hwp0 : vma.write_protected ≠ 0
        · simp [fill_closed, hwr, hwp0, h2, h1]
        · simp [fill_closed, hwr, hwp0, h2, h1]
      · rw [if_neg (fun h => hwr h.1)]
        simp [fill_closed, hwr, h2, h1]
    · rw [if_neg]
      · simp [fill_closed, upd_apply, hq, h2, h1]
      · intro h
        rw [hcur] at h
        have := h.2
        simp only [Option.some.injEq] at this
        exact hq this.symm

theorem is_in_vma_congr {pr1 pr2 : Process} (h : pr1.vmas = pr2.vmas) (v : Nat) :
    is_in_vma pr1 v = is_in_vma pr2 v := by
  unfold is_in_vma
  rw [h]

theorem delta_congr {Fl : Prop} {a b : State} (h : FaultRel Fl a b) (inst : Instruction)
    (q : Nat) :
    segv_delta a inst q = segv_delta b inst q ∧
      segprot_delta a inst q = segprot_delta b inst q := by
  obtain ⟨_, hcur, hq⟩ := h
  unfold segv_delta segprot_delta
  rw [hcur, is_in_vma_congr (hq q).1]
  exact ⟨rfl, rfl⟩

theorem wp_flags01_step {s t : State} {inst : Instruction} (hk : StepKind s inst t)
    (h : wp_flags01 s) : wp_flags01 t := by
  intro q vma hv
  rw [StepKind_vmas hk q] at hv
  exact h q vma hv

theorem simulate_pair (Fl : Prop) : ∀ (insts : List Instruction) (a b : State),
    WF a → WF b → (Fl → wp_flags01 a) → (Fl → wp_flags01 b) → FaultRel Fl a b →
    valid_trace a.nprocs a.current_process insts = true →
    ∃ ta tb, simulate a insts = some ta ∧ simulate b insts = some tb ∧ FaultRel Fl ta tb := by
  intro insts
  induction insts with
  | nil =>
    intro a b _ _ _ _ hrel _
    exact ⟨a, b, rfl, rfl, hrel⟩
  | cons inst rest ih =>
    intro a b hwa hwb hfa hfb hrel hv
    simp only [valid_trace, Bool.and_eq_true] at hv
    have hvb : valid_inst b.nprocs b.current_process inst = true := by
      rw [← hrel.1, ← hrel.2.1]; exact hv.1
    obtain ⟨ta, hta, hwta, hnta, hcta, _, _⟩ := step_spec a inst hwa hv.1
    obtain ⟨tb, htb, hwtb, hntb, hctb, _, _⟩ := step_spec b inst hwb hvb
    obtain ⟨ta2, hta2, hka⟩ := step_kinds a inst hwa hv.1
    obtain ⟨tb2, htb2, hkb⟩ := step_kinds b inst hwb hvb
    have ea : ta2 = ta := by
      rw [hta] at hta2
      simp only [Option.some.injEq] at hta2
      exact hta2.symm
    have eb : tb2 = tb := by
      rw [htb] at htb2
      simp only [Option.some.injEq] at htb2
      exact htb2.symm
    subst ea
    subst eb
    have hrel2 : FaultRel Fl ta2 tb2 := by
      refine ⟨by rw [hnta, hntb]; exact hrel.1, by rw [hcta, hctb, hrel.2.1], ?_⟩
      intro q
      obtain ⟨d1, d2⟩ := delta_congr hrel inst q
      refine ⟨?_, ?_, ?_⟩
      · rw [StepKind_vmas hka q, StepKind_vmas hkb q]; exact (hrel.2.2 q).1
      · rw [StepKind_segv hka hwa q, StepKind_segv hkb hwb q, (hrel.2.2 q).2.1, d1]
      · intro hF
        rw [StepKind_segprot hka hwa (hfa hF) q, StepKind_segprot hkb hwb (hfb hF) q,
          (hrel.2.2 q).2.2 hF, d2]
    have hv2 : valid_trace ta2.nprocs ta2.current_process rest = true := by
      rw [hnta, hcta]; exact hv.2
    obtain ⟨ua, ub, hua, hub, hrel3⟩ := ih ta2 tb2 hwta hwtb
      (fun hF => wp_flags01_step hka (hfa hF)) (fun hF => wp_flags01_step hkb (hfb hF)) hrel2 hv2
    exact ⟨ua, ub, by rw [simulate_cons, hta]; exact hua, by rw [simulate_cons, htb]; exact hub,
      hrel3⟩

/-- Claim C14, as amended. For every input and valid trace, every number of frames
`1..128` and every two policies (each with its own valid random values), the two
runs from the initial state do not get stuck and end with the same `segv` counter
for every process, and, when every `write_protected` flag of the input is `0` or
`1`, with the same `segprot` counter for every process. -/
theorem policy_independent_faults (vmas : List (List VMA)) (num_frames : Nat)
    (algoA algoB : Algo) (randomA randomB : List Int) (insts : List Instruction)
    (hA : valid_config num_frames algoA randomA) (hB : valid_config num_frames algoB randomB)
    (htr : valid_trace vmas.length none insts = true) :
    ∃ tA tB, simulate (initial_state vmas num_frames algoA randomA) insts = some tA ∧
      simulate (initial_state vmas num_frames algoB randomB) insts = some tB ∧
      ∀ q, (tA.processes q).segv = (tB.processes q).segv ∧
        ((∀ l ∈ vmas, ∀ vma ∈ l, vma.write_protected = 0 ∨ vma.write_protected = 1) →
          (tA.processes q).segprot = (tB.processes q).segprot) := by
  have hflags : ∀ (algo : Algo) (rv : List Int),
      (∀ l ∈ vmas, ∀ vma ∈ l, vma.write_protected = 0 ∨ vma.write_protected = 1) →
      wp_flags01 (initial_state vmas num_frames algo rv) := by
    intro algo rv hF q vma hv
    have hv2 : vma ∈ vmas.getD q [] := hv
    by_cases hq : q < vmas.length
    · rw [List.getD_eq_getElem _ _ hq] at hv2
      exact hF _ (List.getElem_mem hq) vma hv2
    · rw [List.getD_eq_default _ _ (by omega)] at hv2
      exact absurd hv2 (List.not_mem_nil vma)
  obtain ⟨tA, tB, h1, h2, hrel⟩ := simulate_pair
    (∀ l ∈ vmas, ∀ vma ∈ l, vma.write_protected = 0 ∨ vma.write_protected = 1) insts
    (initial_state vmas num_frames algoA randomA) (initial_state vmas num_frames algoB randomB)
    (WF_initial vmas num_frames algoA randomA hA) (WF_initial vmas num_frames algoB randomB hB)
    (hflags algoA randomA) (hflags algoB randomB)
    ⟨rfl, rfl, fun q => ⟨rfl, rfl, fun _ => rfl⟩⟩ htr
  exact ⟨tA, tB, h1, h2, fun q => ⟨(hrel.2.2 q).2.1, (hrel.2.2 q).2.2⟩⟩

/-- Witness for the amended C14: FIFO against Random on two frames. -/
theorem policy_independent_faults_witness :
    ∃ tA tB, simulate (initial_state one_proc 2 Algo.f []) three_pages = some tA ∧
      simulate (initial_state one_proc 2 Algo.r [1]) three_pages = some tB ∧
      ∀ q, (tA.processes q).segv = (tB.processes q).segv ∧
        ((∀ l ∈ one_proc, ∀ vma ∈ l, vma.write_protected = 0 ∨ vma.write_protected = 1) →
          (tA.processes q).segprot = (tB.processes q).segprot) :=
  policy_independent_faults one_proc 2 Algo.f Algo.r [] [1] three_pages
    ⟨by decide, by decide, fun h => absurd h (by decide)⟩
    ⟨by decide, by decide, fun _ => ⟨by decide, by decide⟩⟩ (by decide)

/-- Counterexample to C14 as stated. Two frames, trace `c 0, r 0, r 1, r 2, r 0`.
FIFO evicts page 0 at the third fault, so the last read faults again; Random with
the single value 1 evicts page 1, so the last read hits. On the anonymous VMA of
`one_proc` the final `zeros` are 4 and 3; on the file-mapped VMA of `one_proc_wp`
the final `fins` are 4 and 3 and the final `fouts` 2 and 1. -/
theorem fault_totals_depend_on_policy :
    (simulate (initial_state one_proc 2 Algo.f []) three_pages).map
        (fun t => (t.processes 0).zeros) = some 4 ∧
    (simulate (initial_state one_proc 2 Algo.r [1]) three_pages).map
        (fun t => (t.processes 0).zeros) = some 3 ∧
    (simulate (initial_state one_proc_wp 2 Algo.f []) three_pages).map
        (fun t => ((t.processes 0).fins, (t.processes 0).fouts)) = some (4, 2) ∧
    (simulate (initial_state one_proc_wp 2 Algo.r [1]) three_pages).map
        (fun t => ((t.processes 0).fins, (t.processes 0).fouts)) = some (3, 1) := by
  refine ⟨?_, ?_, ?_, ?_⟩ <;> (set_option maxRecDepth 100000 in decide)

/-! ## NRU: the periodic reset and the choice of the victim -/

theorem occupied_set_referenced (s : State) (p v i : Nat) (b : Bool) :
    occupied (set_referenced s p v b) i ↔ occupied s i := Iff.rfl

theorem NRU_reset_list_detail : ∀ (l : List Nat) (s : State), (∀ i ∈ l, i < MAX_FRAMES) →
    SlotsOK s → ∃ t, l.foldlM NRU_reset_slot s = some t ∧ norm t = norm s ∧
      t.frame_table = s.frame_table ∧ t.pager = s.pager ∧
      (∀ i ∈ l, occupied s i → ∀ p v, slot_page s i = some (p, v) →
        (get_pte t p v).referenced = false) ∧
      (∀ p v, (∀ i ∈ l, occupied s i → slot_page s i ≠ some (p, v)) →
        get_pte t p v = get_pte s p v) ∧
      (∀ p v, (get_pte t p v).referenced = true → (get_pte s p v).referenced = true) := by
  intro l
  induction l with
  | nil =>
    intro s _ _
    exact ⟨s, rfl, rfl, rfl, rfl, fun i hi => absurd hi (List.not_mem_nil i),
      fun _ _ _ => rfl, fun _ _ h => h⟩
  | cons i l ih =>
    intro s hl hs
    have hil : ∀ j ∈ l, j < MAX_FRAMES := fun j hj => hl j (List.mem_cons_of_mem i hj)
    by_cases hocc : (s.frame_table i).proc_id ≠ -1
    · rcases hs i (hl i (List.mem_cons_self i l)) with h | h
      · exact absurd h hocc
      · obtain ⟨⟨p0, v0⟩, hpv⟩ := Option.isSome_iff_exists.mp h
        have hstep : NRU_reset_slot s i = some (set_referenced s p0 v0 false) := by
          unfold NRU_reset_slot
          rw [if_pos hocc, hpv]
        have hn0 := norm_set_referenced s p0 v0 false
        obtain ⟨t, ht, hn, hft, hpg, ha, hb, hc⟩ :=
          ih (set_referenced s p0 v0 false) hil (norm_slots_ok hn0 hs)
        refine ⟨t, ?_, hn.trans hn0, hft, hpg, ?_, ?_, ?_⟩
        · rw [List.foldlM_cons, hstep]; exact ht
        · intro j hj hoj p v hsp
          rcases List.mem_cons.mp hj with hji | hjl
          · subst hji
            rw [hpv] at hsp
            simp only [Option.some.injEq, Prod.mk.injEq] at hsp
            obtain ⟨rfl, rfl⟩ := hsp
            by_contra hne
            have hne2 : (get_pte t p0 v0).referenced = true := by simpa using hne
            have h3 := hc p0 v0 hne2
            have h4 := (referenced_set_referenced_false s p0 v0 p0 v0 h3).2
            exact h4 ⟨rfl, rfl⟩
          · exact ha j hjl hoj p v (by rw [slot_page_set_referenced]; exact hsp)
        · intro p v hnone
          have h1 := hb p v (by
            intro j hj hoj
            rw [slot_page_set_referenced]
            exact hnone j (List.mem_cons_of_mem i hj) hoj)
          rw [h1]
          unfold set_referenced
          rw [get_set_pte]
          have hne : ¬ (p = p0 ∧ v = v0) := by
            rintro ⟨rfl, rfl⟩
            exact hnone i (List.mem_cons_self i l) hocc hpv
          rw [if_neg hne]
        · intro p v hr
          exact (referenced_set_referenced_false s p0 v0 p v (hc p v hr)).1
    · have hstep : NRU_reset_slot s i = some s := by
        unfold NRU_reset_slot
        rw [if_neg hocc]
      obtain ⟨t, ht, hn, hft, hpg, ha, hb, hc⟩ := ih s hil hs
      refine ⟨t, ?_, hn, hft, hpg, ?_, ?_, hc⟩
      · rw [List.foldlM_cons, hstep]; exact ht
      · intro j hj hoj p v hsp
        rcases List.mem_cons.mp hj with hji | hjl
        · subst hji; exact absurd hoj hocc
        · exact ha j hjl hoj p v hsp
      · intro p v hnone
        exact hb p v (fun j hj hoj => hnone j (List.mem_cons_of_mem i hj) hoj)

theorem NRU_reset_detail (s : State) (hs : SlotsOK s) :
    ∃ t, NRU_reset s = some t ∧ NRUReset s t := by
  obtain ⟨t, ht, hn, hft, hpg, ha, hb, _⟩ :=
    NRU_reset_list_detail (List.range MAX_FRAMES) s (fun _ hi => List.mem_range.mp hi) hs
  exact ⟨t, ht, hft, hpg, hn, fun i hi => ha i (List.mem_range.mpr hi),
    fun p v h => hb p v (fun i hi => h i (List.mem_range.mp hi))⟩

theorem nru_class_eq {s : State} {i p v : Nat} (h : slot_page s i = some (p, v)) :
    nru_class s i =
      ((get_pte s p v).referenced.toNat <<< 1) ||| (get_pte s p v).modified.toNat := by
  unfold nru_class
  rw [h]

theorem nru_class_le (s : State) (i : Nat) : nru_class s i ≤ 3 := by
  unfold nru_class
  split
  · next p v _ =>
    cases (get_pte s p v).referenced <;> cases (get_pte s p v).modified <;> decide
  · exact Nat.zero_le 3

theorem lt_succ_cases {j k : Nat} (h : j < k + 1) : j < k ∨ j = k := by omega

theorem NRUInv_free {s : State} {start k mc : Nat} {vf : Option Nat}
    (h : NRUInv s start k mc vf) (hfree : ¬ occupied s (scan_slot start k)) :
    NRUInv s start (k + 1) mc vf := by
  refine ⟨fun hv => ⟨(h.1 hv).1, ?_⟩, ?_⟩
  · intro j hj
    rcases lt_succ_cases hj with h1 | h1
    · exact (h.1 hv).2 j h1
    · rw [h1]; exact hfree
  · intro f hf
    obtain ⟨j0, hj0, hf0, hof, hcl, hmin, hfirst⟩ := h.2 f hf
    refine ⟨j0, Nat.lt_succ_of_lt hj0, hf0, hof, hcl, ?_, hfirst⟩
    intro j hj hoj
    rcases lt_succ_cases hj with h1 | h1
    · exact hmin j h1 hoj
    · rw [h1] at hoj; exact absurd hoj hfree

theorem NRUInv_lt {s : State} {start k mc : Nat} {vf : Option Nat}
    (h : NRUInv s start k mc vf) (hocc : occupied s (scan_slot start k))
    (hlt : nru_class s (scan_slot start k) < mc) :
    NRUInv s start (k + 1) (nru_class s (scan_slot start k)) (some (scan_slot start k)) := by
  have hprev : ∀ j, j < k → occupied s (scan_slot start j) →
      nru_class s (scan_slot start k) < nru_class s (scan_slot start j) := by
    intro j hj hoj
    cases vf with
    | none => exact absurd hoj ((h.1 rfl).2 j hj)
    | some f =>
      obtain ⟨_, _, _, _, _, hmin, _⟩ := h.2 f rfl
      exact Nat.lt_of_lt_of_le hlt (hmin j hj hoj)
  refine ⟨fun hv => absurd hv (by simp), ?_⟩
  intro f hf
  simp only [Option.some.injEq] at hf
  subst hf
  refine ⟨k, Nat.lt_succ_self k, rfl, hocc, rfl, ?_, ?_⟩
  · intro j hj hoj
    rcases lt_succ_cases hj with h1 | h1
    · exact Nat.le_of_lt (hprev j h1 hoj)
    · rw [h1]
  · intro j hj hoj
    exact Nat.ne_of_gt (hprev j hj hoj)

theorem NRUInv_ge {s : State} {start k mc : Nat} {vf : Option Nat}
    (h : NRUInv s start k mc vf) (hge : ¬ nru_class s (scan_slot start k) < mc) :
    NRUInv s start (k + 1) mc vf := by
  cases vf with
  | none =>
    have h4 := (h.1 rfl).1
    have h3 := nru_class_le s (scan_slot start k)
    omega
  | some f0 =>
    refine ⟨fun hv => absurd hv (by simp), ?_⟩
    intro f hf
    obtain ⟨j0, hj0, hf0, hof, hcl, hmin, hfirst⟩ := h.2 f hf
    refine ⟨j0, Nat.lt_succ_of_lt hj0, hf0, hof, hcl, ?_, hfirst⟩
    intro j hj hoj
    rcases lt_succ_cases hj with h1 | h1
    · exact hmin j h1 hoj
    · rw [h1]; exact Nat.le_of_not_lt hge

theorem NRU_scan_detail (s : State) (start : Nat) (hstart : start < MAX_FRAMES)
    (hs : SlotsOK s) :
    ∀ (fuel k hand mc : Nat) (vf : Option Nat), fuel + k = MAX_FRAMES → 1 ≤ fuel →
      hand = scan_slot start k → NRUInv s start k mc vf →
      ∃ hand1 mc1 vf1 k1, NRU_scan s start fuel hand mc vf = some (hand1, mc1, vf1) ∧
        k1 ≤ MAX_FRAMES ∧ NRUInv s start k1 mc1 vf1 ∧ (mc1 = 0 ∨ k1 = MAX_FRAMES) := by
  intro fuel
  induction fuel with
  | zero => intro k hand mc vf _ h; omega
  | succ fuel ih =>
    intro k hand mc vf hk _ hhand hinv
    subst hhand
    have hh : scan_slot start k < MAX_FRAMES := Nat.mod_lt _ (by decide)
    have htail : ∀ (mc2 : Nat) (vf2 : Option Nat), NRUInv s start (k + 1) mc2 vf2 →
        ∃ hand1 mc1 vf1 k1, (if (scan_slot start k + 1) % MAX_FRAMES ≠ start then
            NRU_scan s start fuel ((scan_slot start k + 1) % MAX_FRAMES) mc2 vf2
          else some ((scan_slot start k + 1) % MAX_FRAMES, mc2, vf2)) = some (hand1, mc1, vf1) ∧
          k1 ≤ MAX_FRAMES ∧ NRUInv s start k1 mc1 vf1 ∧ (mc1 = 0 ∨ k1 = MAX_FRAMES) := by
      intro mc2 vf2 hinv2
      by_cases hne : (scan_slot start k + 1) % MAX_FRAMES ≠ start
      · rw [if_pos hne]
        apply ih (k + 1) _ mc2 vf2 (by omega) _ _ hinv2
        · by_contra hlt
          have hf0 : fuel = 0 := by omega
          apply hne
          simp only [MAX_FRAMES, scan_slot] at hk hstart ⊢
          omega
        · simp only [MAX_FRAMES, scan_slot] at hk hstart ⊢
          omega
      · rw [if_neg hne]
        have hk1 : k + 1 = MAX_FRAMES := by
          simp only [MAX_FRAMES, scan_slot, ne_eq, not_not] at hk hstart hne ⊢
          omega
        exact ⟨_, _, _, k + 1, rfl, Nat.le_of_eq hk1, hinv2, Or.inr hk1⟩
    unfold NRU_scan
    rw [if_pos hh]
    by_cases hfree : (s.frame_table (scan_slot start k)).proc_id ≠ -1
    · rw [if_pos hfree]
      have hocc : occupied s (scan_slot start k) := hfree
      rcases hs _ hh with h | h
      · exact absurd h hfree
      · obtain ⟨⟨p, v⟩, hpv⟩ := Option.isSome_iff_exists.mp h
        rw [hpv]
        simp only []
        have hc := nru_class_eq hpv
        rw [← hc]
        by_cases hlt : nru_class s (scan_slot start k) < mc
        · simp only [if_pos hlt]
          have hinv2 := NRUInv_lt hinv hocc hlt
          split
          · next h0 =>
            exact ⟨_, _, _, k + 1, rfl, by omega, hinv2, Or.inl h0⟩
          · exact htail _ _ hinv2
        · simp only [if_neg hlt]
          have hinv2 := NRUInv_ge hinv hlt
          split
          · next h0 =>
            exact ⟨_, _, _, k + 1, rfl, by omega, hinv2, Or.inl h0⟩
          · exact htail _ _ hinv2
    · rw [if_neg hfree]
      have hnocc : ¬ occupied s (scan_slot start k) := hfree
      exact htail _ _ (NRUInv_free hinv hnocc)

theorem usub64_eq_sub {a b : Nat} (hb : b ≤ a) (ha : a < 2 ^ 64) : usub64 a b = a - b := by
  unfold usub64
  have h1 : b % 2 ^ 64 = b := Nat.mod_eq_of_lt (Nat.lt_of_le_of_lt hb ha)
  rw [h1]
  omega

theorem scan_slot_zero {hand : Nat} (h : hand < MAX_FRAMES) : scan_slot hand 0 = hand :=
  Nat.mod_eq_of_lt h

theorem scan_slot_surj {hand i : Nat} (hh : hand < MAX_FRAMES) (hi : i < MAX_FRAMES) :
    ∃ j, j < MAX_FRAMES ∧ i = scan_slot hand j := by
  refine ⟨(i + MAX_FRAMES - hand) % MAX_FRAMES, Nat.mod_lt _ (by decide), ?_⟩
  simp only [MAX_FRAMES, scan_slot] at hh hi ⊢
  omega

/-- Claim C18. NRU on a frame table whose slots are free or name a page of an existing
process, with at least one non-free slot among the 128. The call returns. When the
unsigned difference `inst_count - last_reset` is at least 10 the state `s1` the scan
works on is `s` with the referenced bit of the page of every non-free slot cleared
(nothing else changed) and the new `last_reset` is `inst_count`; when it is at most 9,
`s1` is `s` and `last_reset` is kept. The returned frame is non-free, its class
`(referenced << 1) | modified` in `s1` is at most the class of every non-free frame,
and no non-free frame strictly earlier in the scan order from the entry `hand` has the
same class. -/
theorem NRU_victim_selection (s : State) (hand last_reset : Nat) (hh : hand < MAX_FRAMES)
    (hs : SlotsOK s) (hne : ∃ i, i < MAX_FRAMES ∧ occupied s i) :
    ∃ f s1 hand1, NRU_select s hand last_reset = some (f, { s1 with pager := Pager.NRU hand1 (if 10 ≤ usub64 s.inst_count last_reset then s.inst_count else last_reset) }) ∧
      (10 ≤ usub64 s.inst_count last_reset → NRUReset s s1) ∧
      (usub64 s.inst_count last_reset ≤ 9 → s1 = s) ∧
      f < MAX_FRAMES ∧ occupied s1 f ∧
      (∀ i, i < MAX_FRAMES → occupied s1 i → nru_class s1 f ≤ nru_class s1 i) ∧
      ∃ j0, j0 < MAX_FRAMES ∧ f = scan_slot hand j0 ∧
        ∀ j, j < j0 → occupied s1 (scan_slot hand j) →
          nru_class s1 (scan_slot hand j) ≠ nru_class s1 f := by
  have hfirst : ∃ s1, (if usub64 s.inst_count last_reset ≥ 10 then
      (NRU_reset s).map (fun s1 => (s1, s.inst_count)) else some (s, last_reset)) =
        some (s1, if 10 ≤ usub64 s.inst_count last_reset then s.inst_count else last_reset) ∧
      (10 ≤ usub64 s.inst_count last_reset → NRUReset s s1) ∧
      (usub64 s.inst_count last_reset ≤ 9 → s1 = s) ∧ SlotsOK s1 ∧
      s1.frame_table = s.frame_table := by
    by_cases hge : usub64 s.inst_count last_reset ≥ 10
    · obtain ⟨t, ht, hr⟩ := NRU_reset_detail s hs
      refine ⟨t, ?_, fun _ => hr, fun h9 => ?_, norm_slots_ok hr.2.2.1 hs, hr.1⟩
      · rw [if_pos hge, if_pos hge, ht]; rfl
      · exact absurd hge (by omega)
    · refine ⟨s, ?_, fun h10 => absurd h10 hge, fun _ => rfl, hs, rfl⟩
      rw [if_neg hge, if_neg hge]
  obtain ⟨s1, h1, hreset, hkeep, hs1, hft⟩ := hfirst
  have hinv0 : NRUInv s1 hand 0 4 none :=
    ⟨fun _ => ⟨rfl, fun j hj => absurd hj (Nat.not_lt_zero j)⟩, fun f hf => absurd hf (by simp)⟩
  obtain ⟨hand1, mc1, vf1, k1, hscan, hk1, hinv, hfin⟩ :=
    NRU_scan_detail s1 hand hh hs1 MAX_FRAMES 0 hand 4 none rfl (by decide)
      (scan_slot_zero hh).symm hinv0
  cases vf1 with
  | none =>
    exfalso
    obtain ⟨h4, hall⟩ := hinv.1 rfl
    have hk : k1 = MAX_FRAMES := by
      rcases hfin with h0 | h0
      · omega
      · exact h0
    obtain ⟨i, hi, hocc⟩ := hne
    obtain ⟨j, hj, hij⟩ := scan_slot_surj hh hi
    apply hall j (by rw [hk]; exact hj)
    rw [← hij]
    unfold occupied
    rw [hft]
    exact hocc
  | some f =>
    obtain ⟨j0, hj0, hf0, hof, hcl, hmin, hfirst⟩ := hinv.2 f rfl
    refine ⟨f, s1, hand1, ?_, hreset, hkeep, ?_, hof, ?_, j0, Nat.lt_of_lt_of_le hj0 hk1, hf0, ?_⟩
    · unfold NRU_select
      simp only [h1, hscan]
    · rw [hf0]; exact Nat.mod_lt _ (by decide)
    · intro i hi hocc
      rw [hcl]
      rcases hfin with h0 | h0
      · rw [h0]; exact Nat.zero_le _
      · obtain ⟨j, hj, hij⟩ := scan_slot_surj hh hi
        rw [hij]
        apply hmin j (by rw [h0]; exact hj)
        rw [← hij]; exact hocc
    · intro j hj hocc
      rw [hcl]
      exact hfirst j hj hocc

theorem demo_frames_page (s : State) (n : Nat) (hn : n ≤ MAX_VPAGES) (hp : 0 < s.nprocs)
    (hft : ∀ i, (s.frame_table i).proc_id = (demo_frames n i).proc_id ∧
      (s.frame_table i).vpage = (demo_frames n i).vpage) (i : Nat) (hi : i < n) :
    slot_page s i = some (0, i) := by
  have h0 : demo_frames n i = ⟨0, Int.ofNat i, 0, 0⟩ := if_pos hi
  have h1 : (s.frame_table i).proc_id = Int.ofNat 0 := by rw [(hft i).1, h0]; rfl
  have h2 : (s.frame_table i).vpage = Int.ofNat i := by rw [(hft i).2, h0]
  unfold slot_page
  rw [h1, h2]
  exact if_pos ⟨hp, Nat.lt_of_lt_of_le hi hn⟩

theorem demo_frames_free (s : State) (n : Nat)
    (hft : ∀ i, (s.frame_table i).proc_id = (demo_frames n i).proc_id ∧
      (s.frame_table i).vpage = (demo_frames n i).vpage) (i : Nat) (hi : ¬ i < n) :
    (s.frame_table i).proc_id = -1 := by
  have h0 : demo_frames n i = ⟨-1, -1, 0, 0⟩ := if_neg hi
  rw [(hft i).1, h0]

theorem demo_frames_slots (s : State) (n : Nat) (hn : n ≤ MAX_VPAGES) (hp : 0 < s.nprocs)
    (hft : ∀ i, (s.frame_table i).proc_id = (demo_frames n i).proc_id ∧
      (s.frame_table i).vpage = (demo_frames n i).vpage) : SlotsOK s := by
  intro i _
  by_cases hi : i < n
  · right
    rw [demo_frames_page s n hn hp hft i hi]; rfl
  · left
    exact demo_frames_free s n hft i hi

theorem demo_frames_distinct (s : State) (n : Nat) (hn : n ≤ MAX_VPAGES) (hp : 0 < s.nprocs)
    (hft : ∀ i, (s.frame_table i).proc_id = (demo_frames n i).proc_id ∧
      (s.frame_table i).vpage = (demo_frames n i).vpage) : DistinctPages s := by
  intro i j _ _ hoi hoj h
  have hi : i < n := by
    by_contra hc; exact hoi (demo_frames_free s n hft i hc)
  have hj : j < n := by
    by_contra hc; exact hoj (demo_frames_free s n hft j hc)
  rw [demo_frames_page s n hn hp hft i hi, demo_frames_page s n hn hp hft j hj] at h
  simp only [Option.some.injEq, Prod.mk.injEq] at h
  exact h.2

/-- Witness for C18: three referenced pages in slots 0, 1, 2, the first also modified,
ten instructions after the last reset. -/
theorem NRU_victim_selection_witness :
    ∃ f s1 hand1, NRU_select nru_demo 0 0 = some (f, { s1 with pager := Pager.NRU hand1 (if 10 ≤ usub64 nru_demo.inst_count 0 then nru_demo.inst_count else 0) }) ∧
      (10 ≤ usub64 nru_demo.inst_count 0 → NRUReset nru_demo s1) ∧
      (usub64 nru_demo.inst_count 0 ≤ 9 → s1 = nru_demo) ∧
      f < MAX_FRAMES ∧ occupied s1 f ∧
      (∀ i, i < MAX_FRAMES → occupied s1 i → nru_class s1 f ≤ nru_class s1 i) ∧
      ∃ j0, j0 < MAX_FRAMES ∧ f = scan_slot 0 j0 ∧
        ∀ j, j < j0 → occupied s1 (scan_slot 0 j) →
          nru_class s1 (scan_slot 0 j) ≠ nru_class s1 f :=
  NRU_victim_selection nru_demo 0 0 (by decide)
    (demo_frames_slots nru_demo 3 (by decide) (by decide) (fun _ => ⟨rfl, rfl⟩))
    ⟨0, by decide, by unfold occupied; decide⟩

/-- Evaluation of the scenario of the witness for C18: the reset clears all three
referenced bits, which leaves the classes 1, 0, 0, and frame 1 is returned. -/
theorem NRU_demo_result :
    (NRU_select nru_demo 0 0).map
        (fun r => (r.1, (get_pte r.2 0 0).referenced, (get_pte r.2 0 1).referenced,
          (get_pte r.2 0 2).referenced, pager_hand r.2.pager)) =
      some (1, false, false, false, 1) := by
  set_option maxRecDepth 100000 in decide

/-! ## Aging: the new ages and the choice of the victim -/

theorem scan_slot_inj {start j k : Nat} (hj : j < MAX_FRAMES) (hk : k < MAX_FRAMES)
    (h : scan_slot start j = scan_slot start k) : j = k := by
  simp only [MAX_FRAMES, scan_slot] at hj hk h
  omega

theorem scan_slot_lt (start j : Nat) : scan_slot start j < MAX_FRAMES :=
  Nat.mod_lt _ (by decide)

theorem scan_slot_next (start k : Nat) :
    (scan_slot start k + 1) % MAX_FRAMES = scan_slot start (k + 1) := by
  simp only [MAX_FRAMES, scan_slot]
  omega

theorem scan_slot_wrap {start k : Nat} (hs : start < MAX_FRAMES) (hk : k < MAX_FRAMES) :
    scan_slot start (k + 1) = start ↔ k + 1 = MAX_FRAMES := by
  simp only [MAX_FRAMES, scan_slot] at hs hk ⊢
  omega

theorem referenced_after_clear (s : State) (p v p2 v2 : Nat)
    (h : (get_pte s p2 v2).referenced = false ∨ (p2 = p ∧ v2 = v)) :
    (get_pte (set_referenced s p v false) p2 v2).referenced = false := by
  unfold set_referenced
  rw [get_set_pte]
  by_cases hc : p2 = p ∧ v2 = v
  · rw [if_pos hc]
  · rw [if_neg hc]
    rcases h with h | h
    · exact h
    · exact absurd h hc

theorem get_pte_other_clear (s : State) (p v p2 v2 : Nat) (h : ¬ (p2 = p ∧ v2 = v)) :
    get_pte (set_referenced s p v false) p2 v2 = get_pte s p2 v2 := by
  unfold set_referenced
  rw [get_set_pte, if_neg h]

theorem Aging_scan_occ (start fuel : Nat) (s : State) (age : Nat → Nat) (hand ma : Nat)
    (vf : Option Nat) (p v : Nat) (hh : hand < MAX_FRAMES)
    (hocc : (s.frame_table hand).proc_id ≠ -1) (hpv : slot_page s hand = some (p, v)) :
    Aging_scan start (fuel + 1) s age hand ma vf =
      if (hand + 1) % MAX_FRAMES ≠ start then
        Aging_scan start fuel (if (get_pte s p v).referenced then set_referenced s p v false else s)
          (upd age hand (aged s age hand)) ((hand + 1) % MAX_FRAMES)
          (if aged s age hand < ma then aged s age hand else ma)
          (if aged s age hand < ma then some hand else vf)
      else some ((if (get_pte s p v).referenced then set_referenced s p v false else s),
        upd age hand (aged s age hand), (hand + 1) % MAX_FRAMES,
        (if aged s age hand < ma then aged s age hand else ma),
        (if aged s age hand < ma then some hand else vf)) := by
  have ha : aged s age hand =
      if (get_pte s p v).referenced then (age hand >>> 1) ||| 0x80000000 else age hand >>> 1 := by
    unfold aged
    rw [hpv]
  rw [Aging_scan, if_pos hh, if_pos hocc, hpv, ha]
  simp only []
  cases (get_pte s p v).referenced
  · simp [upd_apply]
  · simp [upd_apply]

theorem AgingInv_step {s0 s : State} {age0 age : Nat → Nat} {start k ma : Nat}
    {vf : Option Nat} (h : AgingInv s0 age0 start k s age ma vf) (hk : k < MAX_FRAMES)
    (hd : DistinctPages s0) (hocc : ∀ i, i < MAX_FRAMES → occupied s0 i) {p v : Nat}
    (hpv : slot_page s0 (scan_slot start k) = some (p, v)) :
    aged s age (scan_slot start k) = aged s0 age0 (scan_slot start k) ∧
      AgingInv s0 age0 start (k + 1)
        (if (get_pte s p v).referenced then set_referenced s p v false else s)
        (upd age (scan_slot start k) (aged s0 age0 (scan_slot start k)))
        (if aged s0 age0 (scan_slot start k) < ma then aged s0 age0 (scan_slot start k) else ma)
        (if aged s0 age0 (scan_slot start k) < ma then some (scan_slot start k) else vf) := by
  have hnew : ∀ j, j < k → slot_page s0 (scan_slot start j) ≠ some (p, v) := by
    intro j hj he
    have h1 := hd _ _ (scan_slot_lt start j) (scan_slot_lt start k)
      (hocc _ (scan_slot_lt start j)) (hocc _ (scan_slot_lt start k)) (he.trans hpv.symm)
    have h2 := scan_slot_inj (Nat.lt_trans hj hk) hk h1
    omega
  have hslot : ∀ j, j < k → scan_slot start j ≠ scan_slot start k := by
    intro j hj he
    have h2 := scan_slot_inj (Nat.lt_trans hj hk) hk he
    omega
  have hpte := h.kept p v hnew
  have hage : age (scan_slot start k) = age0 (scan_slot start k) :=
    h.todo _ (fun j hj he => hslot j hj he.symm)
  have hsp : slot_page s (scan_slot start k) = some (p, v) := by
    rw [norm_slot_page h.hnorm]; exact hpv
  have haged : aged s age (scan_slot start k) = aged s0 age0 (scan_slot start k) := by
    unfold aged
    rw [hsp, hpv]
    simp only []
    rw [hpte, hage]
  refine ⟨haged, ?_⟩
  have hprev : ∀ j, j < k → aged s0 age0 (scan_slot start k) < ma →
      aged s0 age0 (scan_slot start k) < aged s0 age0 (scan_slot start j) := by
    intro j hj hlt
    cases vf with
    | none =>
      obtain ⟨hm, hall⟩ := h.vnone rfl
      rw [hm] at hlt
      exact Nat.lt_of_lt_of_le hlt (hall j hj)
    | some f =>
      obtain ⟨_, _, _, _, hmin, _⟩ := h.vsome f rfl
      exact Nat.lt_of_lt_of_le hlt (hmin j hj)
  refine ⟨?_, ?_, ?_, ?_, ?_, ?_, ?_, ?_⟩
  · split
    · exact (norm_set_referenced s p v false).trans h.hnorm
    · exact h.hnorm
  · split
    · exact h.hft
    · exact h.hft
  · intro j hj p2 v2 hsp2
    rcases lt_succ_cases hj with h1 | h1
    · have h3 := h.cleared j h1 p2 v2 hsp2
      split
      · exact referenced_after_clear _ _ _ _ _ (Or.inl h3)
      · exact h3
    · subst h1
      rw [hpv] at hsp2
      simp only [Option.some.injEq, Prod.mk.injEq] at hsp2
      obtain ⟨rfl, rfl⟩ := hsp2
      split
      · exact referenced_after_clear _ _ _ _ _ (Or.inr ⟨rfl, rfl⟩)
      · next hr => simpa using hr
  · intro p2 v2 hno
    have hne : ¬ (p2 = p ∧ v2 = v) := by
      rintro ⟨rfl, rfl⟩
      exact hno k (Nat.lt_succ_self k) hpv
    have h0 := h.kept p2 v2 (fun j hj => hno j (Nat.lt_succ_of_lt hj))
    split
    · rw [get_pte_other_clear _ _ _ _ _ hne, h0]
    · exact h0
  · intro j hj
    rcases lt_succ_cases hj with h1 | h1
    · rw [upd_apply, if_neg (hslot j h1)]
      exact h.done j h1
    · rw [h1, upd_apply, if_pos rfl]
  · intro i hi
    rw [upd_apply, if_neg (hi k (Nat.lt_succ_self k))]
    exact h.todo i (fun j hj => hi j (Nat.lt_succ_of_lt hj))
  · intro hv
    by_cases hlt : aged s0 age0 (scan_slot start k) < ma
    · rw [if_pos hlt] at hv
      exact absurd hv (by simp)
    · rw [if_neg hlt] at hv
      rw [if_neg hlt]
      obtain ⟨hm, hall⟩ := h.vnone hv
      refine ⟨hm, ?_⟩
      intro j hj
      rcases lt_succ_cases hj with h1 | h1
      · exact hall j h1
      · rw [h1]; rw [hm] at hlt; exact Nat.le_of_not_lt hlt
  · intro f hf
    by_cases hlt : aged s0 age0 (scan_slot start k) < ma
    · rw [if_pos hlt] at hf
      rw [if_pos hlt]
      simp only [Option.some.injEq] at hf
      subst hf
      refine ⟨k, Nat.lt_succ_self k, rfl, rfl, ?_, ?_⟩
      · intro j hj
        rcases lt_succ_cases hj with h1 | h1
        · exact Nat.le_of_lt (hprev j h1 hlt)
        · rw [h1]
      · intro j hj
        exact Nat.ne_of_gt (hprev j hj hlt)
    · rw [if_neg hlt] at hf
      rw [if_neg hlt]
      obtain ⟨j0, hj0, hf0, hcl, hmin, hfirst⟩ := h.vsome f hf
      refine ⟨j0, Nat.lt_succ_of_lt hj0, hf0, hcl, ?_, hfirst⟩
      intro j hj
      rcases lt_succ_cases hj with h1 | h1
      · exact hmin j h1
      · rw [h1]; exact Nat.le_of_not_lt hlt

theorem Aging_scan_detail (s0 : State) (age0 : Nat → Nat) (start : Nat)
    (hstart : start < MAX_FRAMES) (hs0 : SlotsOK s0)
    (hocc : ∀ i, i < MAX_FRAMES → occupied s0 i) (hd : DistinctPages s0) :
    ∀ (fuel k : Nat) (s : State) (age : Nat → Nat) (ma : Nat) (vf : Option Nat),
      fuel + k = MAX_FRAMES → 1 ≤ fuel → AgingInv s0 age0 start k s age ma vf →
      ∃ s1 age1 ma1 vf1,
        Aging_scan start fuel s age (scan_slot start k) ma vf = some (s1, age1, start, ma1, vf1) ∧
          AgingInv s0 age0 start MAX_FRAMES s1 age1 ma1 vf1 := by
  intro fuel
  induction fuel with
  | zero => intro k s age ma vf _ h; omega
  | succ fuel ih =>
    intro k s age ma vf hk _ hinv
    have hk2 : k < MAX_FRAMES := by omega
    have hlt := scan_slot_lt start k
    have hocc0 := hocc _ hlt
    have hsp0 : ∃ p v, slot_page s0 (scan_slot start k) = some (p, v) := by
      rcases hs0 _ hlt with h | h
      · exact absurd h hocc0
      · obtain ⟨⟨p, v⟩, hpv⟩ := Option.isSome_iff_exists.mp h
        exact ⟨p, v, hpv⟩
    obtain ⟨p, v, hpv⟩ := hsp0
    have hsp : slot_page s (scan_slot start k) = some (p, v) := by
      rw [norm_slot_page hinv.hnorm]; exact hpv
    have hoccs : (s.frame_table (scan_slot start k)).proc_id ≠ -1 := by
      rw [hinv.hft]; exact hocc0
    obtain ⟨haged, hinv2⟩ := AgingInv_step hinv hk2 hd hocc hpv
    rw [Aging_scan_occ start fuel s age _ ma vf p v hlt hoccs hsp, haged, scan_slot_next]
    by_cases hne : scan_slot start (k + 1) ≠ start
    · rw [if_pos hne]
      refine ih (k + 1) _ _ _ _ (by omega) ?_ hinv2
      by_contra hf
      have hk1 : k + 1 = MAX_FRAMES := by omega
      exact hne ((scan_slot_wrap hstart hk2).mpr hk1)
    · rw [if_neg hne]
      have he : scan_slot start (k + 1) = start := by
        by_contra hc; exact hne hc
      have hk1 : k + 1 = MAX_FRAMES := (scan_slot_wrap hstart hk2).mp he
      rw [he]
      rw [hk1] at hinv2
      exact ⟨_, _, _, _, rfl, hinv2⟩

theorem aged_lt (s : State) (age : Nat → Nat) (i : Nat) (h : age i < 2 ^ 32) :
    aged s age i < 2 ^ 32 := by
  have h1 : age i >>> 1 < 2 ^ 32 := by
    rw [Nat.shiftRight_eq_div_pow]
    omega
  unfold aged
  split
  · split
    · exact Nat.or_lt_two_pow h1 (by decide)
    · exact h1
  · exact h

/-- Claim C19. Aging on a frame table whose 128 slots are all occupied by pairwise
distinct pages of existing processes, with 32-bit ages. The call returns a frame `f`;
the new age `aged s age i` of slot `i` is `age[i] >> 1` with `0x80000000` or-ed in
exactly when the page of the slot was referenced at entry. Afterwards the referenced
bit of the page of every slot is clear and nothing else of the state but the pager has
changed, the age of `f` is 0 and every other slot has its new age, the new age of `f`
is the smallest, and no slot strictly earlier in the scan order from the entry `hand`
has that same new age (which covers the case that every new age is `0xFFFFFFFF`). -/
theorem Aging_victim_selection (s : State) (hand : Nat) (age : Nat → Nat)
    (hh : hand < MAX_FRAMES) (hs : SlotsOK s) (hocc : ∀ i, i < MAX_FRAMES → occupied s i)
    (hd : DistinctPages s) (hage : ∀ i, i < MAX_FRAMES → age i < 2 ^ 32) :
    ∃ f s1 age2, Aging_select s hand age = some (f, { s1 with pager := Pager.Aging ((f + 1) % MAX_FRAMES) age2 }) ∧
      s1.frame_table = s.frame_table ∧ norm s1 = norm s ∧
      (∀ i, i < MAX_FRAMES → ∀ p v, slot_page s i = some (p, v) →
        (get_pte s1 p v).referenced = false) ∧
      (∀ p v, (∀ i, i < MAX_FRAMES → slot_page s i ≠ some (p, v)) →
        get_pte s1 p v = get_pte s p v) ∧
      age2 f = 0 ∧ (∀ i, i < MAX_FRAMES → i ≠ f → age2 i = aged s age i) ∧
      f < MAX_FRAMES ∧ (∀ i, i < MAX_FRAMES → aged s age f ≤ aged s age i) ∧
      ∃ j0, j0 < MAX_FRAMES ∧ f = scan_slot hand j0 ∧
        ∀ j, j < j0 → aged s age (scan_slot hand j) ≠ aged s age f := by
  have hinv0 : AgingInv s age hand 0 s age 0xFFFFFFFF none :=
    ⟨rfl, rfl, fun j hj => absurd hj (Nat.not_lt_zero j), fun _ _ _ => rfl,
      fun j hj => absurd hj (Nat.not_lt_zero j), fun _ _ => rfl,
      fun _ => ⟨rfl, fun j hj => absurd hj (Nat.not_lt_zero j)⟩, fun f hf => absurd hf (by simp)⟩
  obtain ⟨s1, age1, ma1, vf1, hscan, hinv⟩ :=
    Aging_scan_detail s age hand hh hs hocc hd MAX_FRAMES 0 s age 0xFFFFFFFF none rfl
      (by decide) hinv0
  rw [scan_slot_zero hh] at hscan
  have hcl : ∀ i, i < MAX_FRAMES → ∀ p v, slot_page s i = some (p, v) →
      (get_pte s1 p v).referenced = false := by
    intro i hi p v hsp
    obtain ⟨j, hj, hij⟩ := scan_slot_surj hh hi
    rw [hij] at hsp
    exact hinv.cleared j hj p v hsp
  have hkp : ∀ p v, (∀ i, i < MAX_FRAMES → slot_page s i ≠ some (p, v)) →
      get_pte s1 p v = get_pte s p v :=
    fun p v hno => hinv.kept p v (fun j _ => hno _ (scan_slot_lt hand j))
  have hag : ∀ i, i < MAX_FRAMES → age1 i = aged s age i := by
    intro i hi
    obtain ⟨j, hj, hij⟩ := scan_slot_surj hh hi
    rw [hij]
    exact hinv.done j hj
  cases vf1 with
  | none =>
    obtain ⟨_, hall⟩ := hinv.vnone rfl
    have hle : aged s age hand ≤ 0xFFFFFFFF := by
      have h1 := aged_lt s age hand (hage hand hh)
      omega
    refine ⟨hand, s1, upd age1 hand 0, ?_, hinv.hft, hinv.hnorm, hcl, hkp, ?_, ?_, hh, ?_,
      0, by decide, (scan_slot_zero hh).symm, fun j hj => absurd hj (Nat.not_lt_zero j)⟩
    · unfold Aging_select
      rw [hscan]
    · rw [upd_apply, if_pos rfl]
    · intro i hi hne
      rw [upd_apply, if_neg hne]
      exact hag i hi
    · intro i hi
      obtain ⟨j, hj, hij⟩ := scan_slot_surj hh hi
      rw [hij]
      exact Nat.le_trans hle (hall j hj)
  | some f =>
    obtain ⟨j0, hj0, hf0, hcl0, hmin, hfirst⟩ := hinv.vsome f rfl
    refine ⟨f, s1, upd age1 f 0, ?_, hinv.hft, hinv.hnorm, hcl, hkp, ?_, ?_, ?_, ?_,
      j0, hj0, hf0, ?_⟩
    · unfold Aging_select
      rw [hscan]
    · rw [upd_apply, if_pos rfl]
    · intro i hi hne
      rw [upd_apply, if_neg hne]
      exact hag i hi
    · rw [hf0]; exact scan_slot_lt hand j0
    · intro i hi
      obtain ⟨j, hj, hij⟩ := scan_slot_surj hh hi
      rw [hij, hcl0]
      exact hmin j hj
    · intro j hj
      rw [hcl0]
      exact hfirst j hj

theorem full_frames_slot (s : State) (lu : Nat → Nat) (hn : s.nprocs = 2)
    (hft : s.frame_table = full_frames lu) (i : Nat) (hi : i < MAX_FRAMES) :
    slot_page s i = some (i / 64, i % 64) := by
  have h1 : s.frame_table i = ⟨Int.ofNat (i / 64), Int.ofNat (i % 64), 0, lu i⟩ := by
    rw [hft]; rfl
  unfold slot_page
  rw [h1]
  simp only [MAX_FRAMES] at hi
  exact if_pos ⟨by rw [hn]; omega, Nat.mod_lt _ (by decide)⟩

theorem full_frames_occupied (s : State) (lu : Nat → Nat)
    (hft : s.frame_table = full_frames lu) (i : Nat) : occupied s i := by
  unfold occupied
  rw [hft]
  show Int.ofNat (i / 64) ≠ -1
  simp only [Int.ofNat_eq_coe]
  omega

theorem full_frames_slots (s : State) (lu : Nat → Nat) (hn : s.nprocs = 2)
    (hft : s.frame_table = full_frames lu) : SlotsOK s := by
  intro i hi
  right
  rw [full_frames_slot s lu hn hft i hi]
  rfl

theorem full_frames_distinct (s : State) (lu : Nat → Nat) (hn : s.nprocs = 2)
    (hft : s.frame_table = full_frames lu) : DistinctPages s := by
  intro i j hi hj _ _ h
  rw [full_frames_slot s lu hn hft i hi, full_frames_slot s lu hn hft j hj] at h
  simp only [Option.some.injEq, Prod.mk.injEq] at h
  omega

/-- Witness for C19: a full frame table, slot 0 referenced, slot 1 of age 4, all other
ages 0. -/
theorem Aging_victim_selection_witness :
    ∃ f s1 age2, Aging_select aging_demo 0 (fun i => if i = 1 then 4 else 0) = some (f, { s1 with pager := Pager.Aging ((f + 1) % MAX_FRAMES) age2 }) ∧
      s1.frame_table = aging_demo.frame_table ∧ norm s1 = norm aging_demo ∧
      (∀ i, i < MAX_FRAMES → ∀ p v, slot_page aging_demo i = some (p, v) →
        (get_pte s1 p v).referenced = false) ∧
      (∀ p v, (∀ i, i < MAX_FRAMES → slot_page aging_demo i ≠ some (p, v)) →
        get_pte s1 p v = get_pte aging_demo p v) ∧
      age2 f = 0 ∧
      (∀ i, i < MAX_FRAMES → i ≠ f →
        age2 i = aged aging_demo (fun i => if i = 1 then 4 else 0) i) ∧
      f < MAX_FRAMES ∧
      (∀ i, i < MAX_FRAMES → aged aging_demo (fun i => if i = 1 then 4 else 0) f ≤
        aged aging_demo (fun i => if i = 1 then 4 else 0) i) ∧
      ∃ j0, j0 < MAX_FRAMES ∧ f = scan_slot 0 j0 ∧
        ∀ j, j < j0 → aged aging_demo (fun i => if i = 1 then 4 else 0) (scan_slot 0 j) ≠
          aged aging_demo (fun i => if i = 1 then 4 else 0) f :=
  Aging_victim_selection aging_demo 0 (fun i => if i = 1 then 4 else 0) (by decide)
    (full_frames_slots aging_demo _ rfl rfl)
    (fun i _ => full_frames_occupied aging_demo _ rfl i)
    (full_frames_distinct aging_demo _ rfl rfl)
    (fun i _ => by
      show (if i = 1 then 4 else 0) < 2 ^ 32
      split <;> decide)

/-- Evaluation of the scenario of the witness for C19: the new ages of slots 0, 1, 2
are `0x80000000`, 2 and 0, so frame 2 is returned, the hand moves to 3, and the
referenced bit of the page of slot 0 is cleared. -/
theorem Aging_demo_result :
    (Aging_select aging_demo 0 (fun i => if i = 1 then 4 else 0)).map
        (fun r => (r.1, pager_hand r.2.pager, pager_age r.2.pager 0, pager_age r.2.pager 1,
          pager_age r.2.pager 2, (get_pte r.2 0 0).referenced)) =
      some (2, 3, 0x80000000, 2, 0, false) := by
  set_option maxRecDepth 100000 in decide

/-! ## Working Set: the immediate return of a frame older than TAU -/

theorem WS_scan_free (start fuel : Nat) (s : State) (hand ot : Nat) (of : Option Nat)
    (hh : hand < MAX_FRAMES) (hfree : ¬ (s.frame_table hand).proc_id ≠ -1)
    (hne : (hand + 1) % MAX_FRAMES ≠ start) :
    WorkingSet_scan start (fuel + 1) s hand ot of =
      WorkingSet_scan start fuel s ((hand + 1) % MAX_FRAMES) ot of := by
  rw [WorkingSet_scan, if_pos hh, if_neg hfree, if_pos hne]

theorem WS_scan_ref (start fuel : Nat) (s : State) (hand ot : Nat) (of : Option Nat)
    (p v : Nat) (hh : hand < MAX_FRAMES) (hocc : (s.frame_table hand).proc_id ≠ -1)
    (hpv : slot_page s hand = some (p, v)) (hr : (get_pte s p v).referenced = true)
    (hne : (hand + 1) % MAX_FRAMES ≠ start) :
    ∃ ot1 of1, WorkingSet_scan start (fuel + 1) s hand ot of =
      WorkingSet_scan start fuel (set_referenced (set_last_used s hand s.inst_count) p v false)
        ((hand + 1) % MAX_FRAMES) ot1 of1 := by
  rw [WorkingSet_scan, if_pos hh, if_pos hocc, hpv]
  simp only []
  rw [if_pos hr, if_pos hne]
  exact ⟨_, _, rfl⟩

theorem WS_scan_keep (start fuel : Nat) (s : State) (hand ot : Nat) (of : Option Nat)
    (p v : Nat) (hh : hand < MAX_FRAMES) (hocc : (s.frame_table hand).proc_id ≠ -1)
    (hpv : slot_page s hand = some (p, v)) (hr : (get_pte s p v).referenced = false)
    (hyoung : ¬ usub64 s.inst_count (s.frame_table hand).last_used > 49)
    (hne : (hand + 1) % MAX_FRAMES ≠ start) :
    ∃ ot1 of1, WorkingSet_scan start (fuel + 1) s hand ot of =
      WorkingSet_scan start fuel s ((hand + 1) % MAX_FRAMES) ot1 of1 := by
  have hr2 : ¬ (get_pte s p v).referenced = true := by rw [hr]; simp
  rw [WorkingSet_scan, if_pos hh, if_pos hocc, hpv]
  simp only []
  rw [if_neg hr2, if_neg hyoung, if_pos hne]
  exact ⟨_, _, rfl⟩

theorem WS_scan_hit (start fuel : Nat) (s : State) (hand ot : Nat) (of : Option Nat)
    (p v : Nat) (hh : hand < MAX_FRAMES) (hocc : (s.frame_table hand).proc_id ≠ -1)
    (hpv : slot_page s hand = some (p, v)) (hr : (get_pte s p v).referenced = false)
    (hold : usub64 s.inst_count (s.frame_table hand).last_used > 49) :
    WorkingSet_scan start (fuel + 1) s hand ot of =
      some (Sum.inl (hand, { s with pager := Pager.WorkingSet ((hand + 1) % MAX_FRAMES) })) := by
  have hr2 : ¬ (get_pte s p v).referenced = true := by rw [hr]; simp
  rw [WorkingSet_scan, if_pos hh, if_pos hocc, hpv]
  simp only []
  rw [if_neg hr2, if_pos hold]

theorem slot_referenced_eq {s : State} {i p v : Nat} (h : slot_page s i = some (p, v)) :
    slot_referenced s i = (get_pte s p v).referenced := by
  unfold slot_referenced
  rw [h]

theorem WSInv_here {s0 s : State} {start k : Nat} (h : WSInv s0 start k s)
    (hk : k < MAX_FRAMES) (hd : DistinctPages s0) :
    s.frame_table (scan_slot start k) = s0.frame_table (scan_slot start k) ∧
      slot_page s (scan_slot start k) = slot_page s0 (scan_slot start k) ∧
      s.inst_count = s0.inst_count ∧
      ∀ p v, occupied s0 (scan_slot start k) → slot_page s0 (scan_slot start k) = some (p, v) →
        get_pte s p v = get_pte s0 p v := by
  have hslot : ∀ j, j < k → scan_slot start k ≠ scan_slot start j := by
    intro j hj he
    have h2 := scan_slot_inj hk (Nat.lt_trans hj hk) he
    omega
  refine ⟨h.frames_kept _ (fun j hj _ => hslot j hj), norm_slot_page h.hnorm _,
    norm_inst_count h.hnorm, ?_⟩
  intro p v hocc hpv
  apply h.ptes_kept
  intro j hj hrf he
  exact hslot j hj (hd _ _ (scan_slot_lt start k) (scan_slot_lt start j) hocc hrf.1
    (hpv.trans he.symm))

theorem WSInv_skip {s0 s : State} {start k : Nat} (h : WSInv s0 start k s)
    (hno : ¬ ws_refreshed s0 (scan_slot start k)) : WSInv s0 start (k + 1) s := by
  refine ⟨h.hnorm, ?_, ?_, ?_, ?_⟩
  · intro j hj hrf
    rcases lt_succ_cases hj with h1 | h1
    · exact h.stamped j h1 hrf
    · rw [h1] at hrf; exact absurd hrf hno
  · intro j hj hrf
    rcases lt_succ_cases hj with h1 | h1
    · exact h.cleared j h1 hrf
    · rw [h1] at hrf; exact absurd hrf hno
  · intro i hi
    exact h.frames_kept i (fun j hj => hi j (Nat.lt_succ_of_lt hj))
  · intro p v hi
    exact h.ptes_kept p v (fun j hj => hi j (Nat.lt_succ_of_lt hj))

theorem WSInv_refresh {s0 s : State} {start k : Nat} (h : WSInv s0 start k s)
    (hk : k < MAX_FRAMES) (hd : DistinctPages s0) (hrf : ws_refreshed s0 (scan_slot start k))
    {p v : Nat} (hpv : slot_page s0 (scan_slot start k) = some (p, v)) :
    WSInv s0 start (k + 1)
      (set_referenced (set_last_used s (scan_slot start k) s.inst_count) p v false) := by
  obtain ⟨hfr, _, hic, _⟩ := WSInv_here h hk hd
  have hslot : ∀ j, j < k → scan_slot start j ≠ scan_slot start k := by
    intro j hj he
    have h2 := scan_slot_inj (Nat.lt_trans hj hk) hk he
    omega
  have hftab : ∀ i, (set_referenced (set_last_used s (scan_slot start k) s.inst_count) p v
      false).frame_table i = upd s.frame_table (scan_slot start k)
        { (s.frame_table (scan_slot start k)) with last_used := s.inst_count } i :=
    fun _ => rfl
  have hget : ∀ p2 v2, get_pte (set_last_used s (scan_slot start k) s.inst_count) p2 v2 =
      get_pte s p2 v2 := fun _ _ => rfl
  refine ⟨?_, ?_, ?_, ?_, ?_⟩
  · exact ((norm_set_referenced _ p v false).trans (norm_set_last_used s _ _)).trans h.hnorm
  · intro j hj hrj
    rw [hftab, upd_apply]
    rcases lt_succ_cases hj with h1 | h1
    · rw [if_neg (hslot j h1)]
      exact h.stamped j h1 hrj
    · rw [h1, if_pos rfl, hfr, hic]
  · intro j hj hrj p2 v2 hsp2
    rcases lt_succ_cases hj with h1 | h1
    · apply referenced_after_clear
      left
      rw [hget]
      exact h.cleared j h1 hrj p2 v2 hsp2
    · rw [h1, hpv] at hsp2
      simp only [Option.some.injEq, Prod.mk.injEq] at hsp2
      exact referenced_after_clear _ _ _ _ _ (Or.inr ⟨hsp2.1.symm, hsp2.2.symm⟩)
  · intro i hi
    rw [hftab, upd_apply, if_neg (hi k (Nat.lt_succ_self k) hrf)]
    exact h.frames_kept i (fun j hj => hi j (Nat.lt_succ_of_lt hj))
  · intro p2 v2 hi
    have hne : ¬ (p2 = p ∧ v2 = v) := by
      rintro ⟨rfl, rfl⟩
      exact hi k (Nat.lt_succ_self k) hrf hpv
    rw [get_pte_other_clear _ _ _ _ _ hne, hget]
    exact h.ptes_kept p2 v2 (fun j hj => hi j (Nat.lt_succ_of_lt hj))

theorem WS_scan_detail (s0 : State) (start j0 : Nat) (hstart : start < MAX_FRAMES)
    (hs0 : SlotsOK s0) (hd : DistinctPages s0)
    (hlu : ∀ i, i < MAX_FRAMES → (s0.frame_table i).last_used ≤ s0.inst_count)
    (hic : s0.inst_count < 2 ^ 64) (hj0 : j0 < MAX_FRAMES)
    (hq : ws_qualifies s0 (scan_slot start j0))
    (hfirst : ∀ j, j < j0 → ¬ ws_qualifies s0 (scan_slot start j)) :
    ∀ (fuel k : Nat) (s : State) (ot : Nat) (of : Option Nat),
      fuel + k = MAX_FRAMES → k ≤ j0 → WSInv s0 start k s →
      ∃ s1, WorkingSet_scan start fuel s (scan_slot start k) ot of =
          some (Sum.inl (scan_slot start j0,
            { s1 with pager := Pager.WorkingSet ((scan_slot start j0 + 1) % MAX_FRAMES) })) ∧
        WSInv s0 start j0 s1 := by
  intro fuel
  induction fuel with
  | zero => intro k s ot of h1 h2 _; omega
  | succ fuel ih =>
    intro k s ot of hk hkj hinv
    have hk2 : k < MAX_FRAMES := Nat.lt_of_le_of_lt hkj hj0
    have hlt := scan_slot_lt start k
    obtain ⟨hfr, hsp, hcnt, hpte⟩ := WSInv_here hinv hk2 hd
    have husub : usub64 s.inst_count (s.frame_table (scan_slot start k)).last_used =
        s0.inst_count - (s0.frame_table (scan_slot start k)).last_used := by
      rw [hfr, hcnt]
      exact usub64_eq_sub (hlu _ hlt) hic
    by_cases hocc : (s0.frame_table (scan_slot start k)).proc_id ≠ -1
    · have hoccs : (s.frame_table (scan_slot start k)).proc_id ≠ -1 := by rw [hfr]; exact hocc
      have hsp0 : ∃ p v, slot_page s0 (scan_slot start k) = some (p, v) := by
        rcases hs0 _ hlt with h | h
        · exact absurd h hocc
        · obtain ⟨⟨p, v⟩, hpv⟩ := Option.isSome_iff_exists.mp h
          exact ⟨p, v, hpv⟩
      obtain ⟨p, v, hpv⟩ := hsp0
      have hsps : slot_page s (scan_slot start k) = some (p, v) := hsp.trans hpv
      have hR : (get_pte s p v).referenced = slot_referenced s0 (scan_slot start k) := by
        rw [hpte p v hocc hpv, slot_referenced_eq hpv]
      rcases Nat.lt_or_ge k j0 with hkl | hkl
      · have hne : (scan_slot start k + 1) % MAX_FRAMES ≠ start := by
          rw [scan_slot_next]
          intro he
          have := (scan_slot_wrap hstart hk2).mp he
          omega
        cases hr : slot_referenced s0 (scan_slot start k) with
        | true =>
          rw [hr] at hR
          obtain ⟨ot1, of1, hstep⟩ :=
            WS_scan_ref start fuel s _ ot of p v hlt hoccs hsps hR hne
          rw [hstep, scan_slot_next]
          exact ih (k + 1) _ ot1 of1 (by omega) hkl (WSInv_refresh hinv hk2 hd ⟨hocc, hr⟩ hpv)
        | false =>
          rw [hr] at hR
          have hyoung : ¬ usub64 s.inst_count (s.frame_table (scan_slot start k)).last_used > 49 := by
            rw [husub]
            intro h49
            exact hfirst k hkl ⟨hocc, hr, h49⟩
          obtain ⟨ot1, of1, hstep⟩ :=
            WS_scan_keep start fuel s _ ot of p v hlt hoccs hsps hR hyoung hne
          rw [hstep, scan_slot_next]
          refine ih (k + 1) _ ot1 of1 (by omega) hkl (WSInv_skip hinv ?_)
          intro hrf
          rw [hrf.2] at hr
          exact absurd hr (by simp)
      · have hkj0 : k = j0 := Nat.le_antisymm hkj hkl
        subst hkj0
        rw [hq.2.1] at hR
        have hold : usub64 s.inst_count (s.frame_table (scan_slot start k)).last_used > 49 := by
          rw [husub]; exact hq.2.2
        rw [WS_scan_hit start fuel s _ ot of p v hlt hoccs hsps hR hold]
        exact ⟨s, rfl, hinv⟩
    · have hkl : k < j0 := by
        rcases Nat.lt_or_ge k j0 with hkl | hkl
        · exact hkl
        · have hkj0 : k = j0 := Nat.le_antisymm hkj hkl
          subst hkj0
          exact absurd hq.1 hocc
      have hne : (scan_slot start k + 1) % MAX_FRAMES ≠ start := by
        rw [scan_slot_next]
        intro he
        have := (scan_slot_wrap hstart hk2).mp he
        omega
      have hfrees : ¬ (s.frame_table (scan_slot start k)).proc_id ≠ -1 := by rw [hfr]; exact hocc
      rw [WS_scan_free start fuel s _ ot of hlt hfrees hne, scan_slot_next]
      exact ih (k + 1) s ot of (by omega) hkl (WSInv_skip hinv (fun hrf => hocc hrf.1))

theorem exists_first (P : Nat → Prop) (n : Nat) (h : P n) :
    ∃ m, m ≤ n ∧ P m ∧ ∀ j, j < m → ¬ P j := by
  induction n using Nat.strong_induction_on with
  | _ n ih =>
    by_cases hall : ∀ j, j < n → ¬ P j
    · exact ⟨n, Nat.le_refl n, h, hall⟩
    · have hex : ∃ j, j < n ∧ P j := by
        by_contra hc
        apply hall
        intro j hj hp
        exact hc ⟨j, hj, hp⟩
      obtain ⟨j, hj, hp⟩ := hex
      obtain ⟨m, hm, hpm, hfirst⟩ := ih j hj hp
      exact ⟨m, by omega, hpm, hfirst⟩

/-- Claim C20. Working Set on a frame table whose slots are free or name a page of an
existing process, distinct non-free slots naming distinct pages, with
`last_used <= inst_count < 2^64` for every frame. A slot qualifies (`ws_qualifies`)
when it is non-free, its page is not referenced and `inst_count - last_used > 49`; so
a difference of exactly 49 does not qualify and a difference of 50 does. If some slot
qualifies, the call returns the first qualifying slot in scan order from `hand`, with
the hand one past it; every non-free slot with a referenced page scanned before it
has `last_used = inst_count` and its referenced bit clear, and all other slots and
page-table entries are as at entry. -/
theorem WorkingSet_tau_rule (s : State) (hand : Nat) (hh : hand < MAX_FRAMES)
    (hs : SlotsOK s) (hd : DistinctPages s)
    (hlu : ∀ i, i < MAX_FRAMES → (s.frame_table i).last_used ≤ s.inst_count)
    (hic : s.inst_count < 2 ^ 64) (hex : ∃ i, i < MAX_FRAMES ∧ ws_qualifies s i) :
    ∃ j0 s1, j0 < MAX_FRAMES ∧ ws_qualifies s (scan_slot hand j0) ∧
      (∀ j, j < j0 → ¬ ws_qualifies s (scan_slot hand j)) ∧
      WorkingSet_select s hand = some (scan_slot hand j0, { s1 with pager := Pager.WorkingSet ((scan_slot hand j0 + 1) % MAX_FRAMES) }) ∧
      norm s1 = norm s ∧
      (∀ j, j < j0 → ws_refreshed s (scan_slot hand j) →
        (s1.frame_table (scan_slot hand j)).last_used = s.inst_count ∧
          slot_referenced s1 (scan_slot hand j) = false) ∧
      (∀ i, (∀ j, j < j0 → ws_refreshed s (scan_slot hand j) → i ≠ scan_slot hand j) →
        s1.frame_table i = s.frame_table i) ∧
      (∀ p v, (∀ j, j < j0 → ws_refreshed s (scan_slot hand j) →
          slot_page s (scan_slot hand j) ≠ some (p, v)) →
        get_pte s1 p v = get_pte s p v) := by
  obtain ⟨i, hi, hqi⟩ := hex
  obtain ⟨j1, hj1, hij⟩ := scan_slot_surj hh hi
  rw [hij] at hqi
  obtain ⟨j0, hle, hq, hfirst⟩ := exists_first (fun j => ws_qualifies s (scan_slot hand j)) j1 hqi
  have hj0 : j0 < MAX_FRAMES := Nat.lt_of_le_of_lt hle hj1
  have hinv0 : WSInv s hand 0 s :=
    ⟨rfl, fun j hj => absurd hj (Nat.not_lt_zero j), fun j hj => absurd hj (Nat.not_lt_zero j),
      fun _ _ => rfl, fun _ _ _ => rfl⟩
  obtain ⟨s1, hscan, hinv⟩ := WS_scan_detail s hand j0 hh hs hd hlu hic hj0 hq hfirst
    MAX_FRAMES 0 s s.inst_count none rfl (Nat.zero_le j0) hinv0
  rw [scan_slot_zero hh] at hscan
  refine ⟨j0, s1, hj0, hq, hfirst, ?_, hinv.hnorm, ?_, hinv.frames_kept, hinv.ptes_kept⟩
  · unfold WorkingSet_select
    rw [hscan]
  · intro j hj hrf
    refine ⟨?_, ?_⟩
    · rw [hinv.stamped j hj hrf]
    · have hsp := norm_slot_page hinv.hnorm (scan_slot hand j)
      cases hpv : slot_page s (scan_slot hand j) with
      | none =>
        unfold slot_referenced
        rw [hsp, hpv]
      | some pv =>
        obtain ⟨p, v⟩ := pv
        rw [slot_referenced_eq (hsp.trans hpv)]
        exact hinv.cleared j hj hrf p v hpv

/-- Witness for C20: slot 0 referenced, slot 1 unreferenced with difference 49, slot 2
unreferenced with difference 50. -/
theorem WorkingSet_tau_rule_witness :
    ∃ j0 s1, j0 < MAX_FRAMES ∧ ws_qualifies ws_demo (scan_slot 0 j0) ∧
      (∀ j, j < j0 → ¬ ws_qualifies ws_demo (scan_slot 0 j)) ∧
      WorkingSet_select ws_demo 0 = some (scan_slot 0 j0, { s1 with pager := Pager.WorkingSet ((scan_slot 0 j0 + 1) % MAX_FRAMES) }) ∧
      norm s1 = norm ws_demo ∧
      (∀ j, j < j0 → ws_refreshed ws_demo (scan_slot 0 j) →
        (s1.frame_table (scan_slot 0 j)).last_used = ws_demo.inst_count ∧
          slot_referenced s1 (scan_slot 0 j) = false) ∧
      (∀ i, (∀ j, j < j0 → ws_refreshed ws_demo (scan_slot 0 j) → i ≠ scan_slot 0 j) →
        s1.frame_table i = ws_demo.frame_table i) ∧
      (∀ p v, (∀ j, j < j0 → ws_refreshed ws_demo (scan_slot 0 j) →
          slot_page ws_demo (scan_slot 0 j) ≠ some (p, v)) →
        get_pte s1 p v = get_pte ws_demo p v) :=
  WorkingSet_tau_rule ws_demo 0 (by decide)
    (demo_frames_slots ws_demo 3 (by decide) (by decide) (fun _ => ⟨rfl, rfl⟩))
    (demo_frames_distinct ws_demo 3 (by decide) (by decide) (fun _ => ⟨rfl, rfl⟩))
    (fun i _ => by
      show ws_lu i ≤ 200
      unfold ws_lu
      split_ifs <;> decide)
    (by decide)
    ⟨2, by decide, by unfold occupied; decide, by decide, by decide⟩

/-- Evaluation of the scenario of the witness for C20: slot 1 (difference 49) is passed
over and frame 2 (difference 50) is returned with the hand at 3; slot 0, referenced at
entry, is stamped with `inst_count = 200` and its referenced bit is cleared. -/
theorem WorkingSet_demo_result :
    (WorkingSet_select ws_demo 0).map
        (fun r => (r.1, pager_hand r.2.pager, (r.2.frame_table 0).last_used,
          (get_pte r.2 0 0).referenced, (r.2.frame_table 1).last_used)) =
      some (2, 3, 200, false, 151) := by
  set_option maxRecDepth 100000 in decide

/-! ## NRU: where the hand is left -/

theorem NRU_scan_hand (s : State) (start : Nat) (hstart : start < MAX_FRAMES)
    (hs : SlotsOK s) :
    ∀ (fuel k mc : Nat) (vf : Option Nat), fuel + k = MAX_FRAMES → 1 ≤ fuel → mc ≠ 0 →
      ∃ hand1 mc1 vf1, NRU_scan s start fuel (scan_slot start k) mc vf = some (hand1, mc1, vf1) ∧
        ((mc1 = 0 ∧ vf1 = some hand1) ∨ (mc1 ≠ 0 ∧ hand1 = start)) := by
  intro fuel
  induction fuel with
  | zero => intro k mc vf _ h; omega
  | succ fuel ih =>
    intro k mc vf hk _ hmc
    have hk2 : k < MAX_FRAMES := by omega
    have hh : scan_slot start k < MAX_FRAMES := scan_slot_lt start k
    have htail : ∀ (mc2 : Nat) (vf2 : Option Nat), mc2 ≠ 0 →
        ∃ hand1 mc1 vf1, (if (scan_slot start k + 1) % MAX_FRAMES ≠ start then
            NRU_scan s start fuel ((scan_slot start k + 1) % MAX_FRAMES) mc2 vf2
          else some ((scan_slot start k + 1) % MAX_FRAMES, mc2, vf2)) = some (hand1, mc1, vf1) ∧
          ((mc1 = 0 ∧ vf1 = some hand1) ∨ (mc1 ≠ 0 ∧ hand1 = start)) := by
      intro mc2 vf2 hmc2
      rw [scan_slot_next]
      by_cases hne : scan_slot start (k + 1) ≠ start
      · rw [if_pos hne]
        refine ih (k + 1) mc2 vf2 (by omega) ?_ hmc2
        by_contra hf
        have hk1 : k + 1 = MAX_FRAMES := by omega
        exact hne ((scan_slot_wrap hstart hk2).mpr hk1)
      · rw [if_neg hne]
        have he : scan_slot start (k + 1) = start := by
          by_contra hc; exact hne hc
        exact ⟨_, _, _, rfl, Or.inr ⟨hmc2, he⟩⟩
    unfold NRU_scan
    rw [if_pos hh]
    by_cases hfree : (s.frame_table (scan_slot start k)).proc_id ≠ -1
    · rw [if_pos hfree]
      rcases hs _ hh with h | h
      · exact absurd h hfree
      · obtain ⟨⟨p, v⟩, hpv⟩ := Option.isSome_iff_exists.mp h
        rw [hpv]
        simp only []
        have hc := nru_class_eq hpv
        rw [← hc]
        by_cases hlt : nru_class s (scan_slot start k) < mc
        · simp only [if_pos hlt]
          split
          · next h0 => exact ⟨_, _, _, rfl, Or.inl ⟨h0, rfl⟩⟩
          · next h0 => exact htail _ _ h0
        · simp only [if_neg hlt]
          split
          · next h0 => exact absurd h0 hmc
          · exact htail _ _ hmc
    · rw [if_neg hfree]
      exact htail _ _ hmc

theorem NRU_first_phase (s : State) (last_reset : Nat) (hs : SlotsOK s) :
    ∃ s1, (if usub64 s.inst_count last_reset ≥ 10 then
        (NRU_reset s).map (fun s1 => (s1, s.inst_count)) else some (s, last_reset)) =
          some (s1, if 10 ≤ usub64 s.inst_count last_reset then s.inst_count else last_reset) ∧
      (10 ≤ usub64 s.inst_count last_reset → NRUReset s s1) ∧
      (usub64 s.inst_count last_reset ≤ 9 → s1 = s) ∧ SlotsOK s1 ∧
      s1.frame_table = s.frame_table := by
  by_cases hge : usub64 s.inst_count last_reset ≥ 10
  · obtain ⟨t, ht, hr⟩ := NRU_reset_detail s hs
    refine ⟨t, ?_, fun _ => hr, fun h9 => ?_, norm_slots_ok hr.2.2.1 hs, hr.1⟩
    · rw [if_pos hge, if_pos hge, ht]; rfl
    · exact absurd hge (by omega)
  · refine ⟨s, ?_, fun h10 => absurd h10 hge, fun _ => rfl, hs, rfl⟩
    rw [if_neg hge, if_neg hge]

/-- Where NRU leaves its hand. On a frame table whose slots are free or name a page of
an existing process, with at least one non-free slot among the 128, entered with
`hand < 128`, the call returns a non-free frame `f`. If the class of `f` (taken in
the state `s1` after the periodic reset) is 0, the scan stopped on `f` and the hand
is left on `f` itself; otherwise the scan went once around all 128 slots and the
hand is back at its entry value. No statement of the normal path moves the hand past
the victim. -/
theorem NRU_hand_after_select (s : State) (hand last_reset : Nat) (hh : hand < MAX_FRAMES)
    (hs : SlotsOK s) (hne : ∃ i, i < MAX_FRAMES ∧ occupied s i) :
    ∃ f s1 lr1, NRU_select s hand last_reset = some (f, { s1 with pager := Pager.NRU (if nru_class s1 f = 0 then f else hand) lr1 }) ∧
      (10 ≤ usub64 s.inst_count last_reset → NRUReset s s1) ∧
      (usub64 s.inst_count last_reset ≤ 9 → s1 = s) ∧
      f < MAX_FRAMES ∧ occupied s1 f := by
  obtain ⟨s1, h1, hreset, hkeep, hs1, hft⟩ := NRU_first_phase s last_reset hs
  have hinv0 : NRUInv s1 hand 0 4 none :=
    ⟨fun _ => ⟨rfl, fun j hj => absurd hj (Nat.not_lt_zero j)⟩, fun f hf => absurd hf (by simp)⟩
  obtain ⟨hand1, mc1, vf1, k1, hscan, hk1, hinv, hfin⟩ :=
    NRU_scan_detail s1 hand hh hs1 MAX_FRAMES 0 hand 4 none rfl (by decide)
      (scan_slot_zero hh).symm hinv0
  obtain ⟨hand2, mc2, vf2, hscan2, hhand⟩ :=
    NRU_scan_hand s1 hand hh hs1 MAX_FRAMES 0 4 none rfl (by decide) (by decide)
  rw [scan_slot_zero hh, hscan] at hscan2
  simp only [Option.some.injEq, Prod.mk.injEq] at hscan2
  obtain ⟨e1, e2, e3⟩ := hscan2
  subst e1
  subst e2
  subst e3
  cases vf1 with
  | none =>
    exfalso
    obtain ⟨h4, hall⟩ := hinv.1 rfl
    have hk : k1 = MAX_FRAMES := by
      rcases hfin with h0 | h0
      · omega
      · exact h0
    obtain ⟨i, hi, hocc⟩ := hne
    obtain ⟨j, hj, hij⟩ := scan_slot_surj hh hi
    apply hall j (by rw [hk]; exact hj)
    rw [← hij]
    unfold occupied
    rw [hft]
    exact hocc
  | some f =>
    obtain ⟨j0, hj0, hf0, hof, hcl, _, _⟩ := hinv.2 f rfl
    have hhand1 : hand1 = if nru_class s1 f = 0 then f else hand := by
      rw [hcl]
      rcases hhand with ⟨h0, hv⟩ | ⟨h0, hv⟩
      · rw [if_pos h0]
        simp only [Option.some.injEq] at hv
        exact hv.symm
      · rw [if_neg h0]; exact hv
    refine ⟨f, s1, (if 10 ≤ usub64 s.inst_count last_reset then s.inst_count else last_reset),
      ?_, hreset, hkeep, ?_, hof⟩
    · unfold NRU_select
      simp only [h1, hscan]
      rw [hhand1]
    · rw [hf0]; exact scan_slot_lt hand j0

/-- Instance of `NRU_hand_after_select`: the state `nru_demo` entered with the hand at
slot 1. -/
theorem NRU_hand_after_select_witness :
    ∃ f s1 lr1, NRU_select nru_demo 1 0 = some (f, { s1 with pager := Pager.NRU (if nru_class s1 f = 0 then f else 1) lr1 }) ∧
      (10 ≤ usub64 nru_demo.inst_count 0 → NRUReset nru_demo s1) ∧
      (usub64 nru_demo.inst_count 0 ≤ 9 → s1 = nru_demo) ∧
      f < MAX_FRAMES ∧ occupied s1 f :=
  NRU_hand_after_select nru_demo 1 0 (by decide)
    (demo_frames_slots nru_demo 3 (by decide) (by decide) (fun _ => ⟨rfl, rfl⟩))
    ⟨0, by decide, by unfold occupied; decide⟩

/-- Claim C21, the code at failing inputs. The claim asks for
`hand = (start_hand + 1) mod N` after every call of NRU. (1) Two frames, trace
`c 0, r 0, r 1, r 2`: the fault of `r 2` enters NRU with the free list empty and the
hand at 0; no frame has class 0, the scan goes once around the 128 slots, and the hand
is 0 afterwards, not `(0 + 1) mod 2 = 1`. (2) Two frames, a write-protected VMA, trace
`c 0, w 0, w 1`, eight times `w 0`, `w 2`: the fault of `w 2` enters NRU at
`inst_count = 11` with the hand at 0; after the reset frame 0 has class 0, the scan
stops on it, frame 0 is evicted (page 0 is no longer present) and the hand is still 0.
(3) On the state `nru_demo` entered with the hand at 1 the scan stops at once on slot
1 and the hand stays 1, where advancing by one gives 2. -/
theorem NRU_hand_not_advanced_by_one :
    (simulate (initial_state one_proc 2 Algo.e []) (scenario1.take 3)).map
        (fun t => (pager_hand t.pager, t.free_frames)) = some (0, []) ∧
    (simulate (initial_state one_proc 2 Algo.e []) scenario1).map
        (fun t => pager_hand t.pager) = some 0 ∧
    (0 + 1) % 2 = 1 ∧
    (simulate (initial_state one_proc_wp 2 Algo.e [])
        ([⟨'c', 0⟩, ⟨'w', 0⟩, ⟨'w', 1⟩] ++ List.replicate 8 ⟨'w', 0⟩)).map
        (fun t => (pager_hand t.pager, t.free_frames, t.inst_count)) = some (0, [], 11) ∧
    (simulate (initial_state one_proc_wp 2 Algo.e [])
        ([⟨'c', 0⟩, ⟨'w', 0⟩, ⟨'w', 1⟩] ++ List.replicate 8 ⟨'w', 0⟩ ++ [⟨'w', 2⟩])).map
        (fun t => (pager_hand t.pager, (get_pte t 0 0).present, (get_pte t 0 2).frame)) =
      some (0, false, 0) ∧
    (NRU_select nru_demo 1 0).map (fun r => (r.1, pager_hand r.2.pager)) = some (1, 1) ∧
    (1 + 1) % 128 = 2 := by
  refine ⟨?_, ?_, rfl, ?_, ?_, ?_, rfl⟩ <;> (set_option maxRecDepth 100000 in decide)

/-! ## The policy is consulted at most once per run -/

theorem policy_calls_step_c (s : State) (inst : Instruction) (h : inst.op = 'c') :
    policy_calls_step s inst = 0 := by
  unfold policy_calls_step
  rw [if_pos h]

theorem policy_calls_step_e (s : State) (inst : Instruction) (h : inst.op = 'e') :
    policy_calls_step s inst = 0 := by
  unfold policy_calls_step
  split
  · rfl
  · rfl

theorem policy_calls_step_rw (s : State) (inst : Instruction) (p V : Nat)
    (hc : inst.op ≠ 'c') (he : inst.op ≠ 'e') (hval : inst.value = Int.ofNat V)
    (hcur : s.current_process = some p) (hp : p < s.nprocs) (hV : V < MAX_VPAGES) :
    policy_calls_step s inst =
      if !(get_pte s p V).present then
        match is_in_vma (s.processes p) V with
        | none => 0
        | some _ =>
          match s.free_frames with
          | _ :: _ => 0
          | [] => 1
      else 0 := by
  unfold policy_calls_step
  rw [if_neg hc, if_neg he, hcur, hval]
  simp only []
  rw [if_pos ⟨hp, hV⟩]

theorem policy_calls_step_le (s : State) (inst : Instruction) :
    policy_calls_step s inst ≤ 1 := by
  unfold policy_calls_step
  repeat' split
  all_goals omega

theorem policy_calls_step_free (s : State) (inst : Instruction) (h : s.free_frames ≠ []) :
    policy_calls_step s inst = 0 := by
  unfold policy_calls_step
  repeat' split
  all_goals first | rfl | (next hfl => exact absurd hfl h)

theorem AllUsed_of_empty (s : State) (h : WF s) (he : s.free_frames = []) : AllUsed s := by
  intro i hi hfree
  have hm := h.2 i hi (Nat.ne_of_lt hi) hfree
  rw [he] at hm
  exact absurd hm (List.not_mem_nil i)

theorem evict_occupied (s t : State) (f : Nat) (hocc : (s.frame_table f).proc_id ≠ -1)
    (h : evict s f = some t) :
    t.free_frames = s.free_frames ++ [f] ∧ t.frame_table = s.frame_table := by
  unfold evict at h
  rw [if_pos hocc] at h
  split at h
  · exact absurd h (by simp)
  · next op ov _ =>
    simp only [Option.some.injEq] at h
    rw [← h, evict_page_eq]
    exact ⟨rfl, rfl⟩

theorem StepKind_after {s t : State} {inst : Instruction} (hk : StepKind s inst t)
    (hall : AllUsed s) (h : s.free_frames ≠ [] ∨ policy_calls_step s inst = 1) :
    AfterPolicy t := by
  have hnz : policy_calls_step s inst = 0 → s.free_frames ≠ [] := by
    intro h0
    rcases h with h | h
    · exact h
    · rw [h0] at h; exact absurd h (by decide)
  cases hk with
  | ctx n hi hn ht =>
    obtain ⟨_, e2, e3, _, _⟩ := ctx_switch_processes s n
    have hfl := hnz (policy_calls_step_c s inst (by rw [hi]))
    rw [ht]
    refine ⟨?_, ?_⟩
    · show (ctx_switch s n).free_frames ≠ []
      rw [e3]; exact hfl
    · intro i hi2
      show ((ctx_switch s n).frame_table i).proc_id ≠ -1
      rw [e2]; exact hall i hi2
  | exit n hi hn ht =>
    have hfl := hnz (policy_calls_step_e s inst (by rw [hi]))
    rw [ht]
    refine ⟨?_, hall⟩
    show s.free_frames ++ _ ≠ []
    intro he
    exact hfl (List.append_eq_nil.mp he).1
  | hit p V hc he hval hcur hp hV hpres ht =>
    have h0 : policy_calls_step s inst = 0 := by
      rw [policy_calls_step_rw s inst p V hc he hval hcur hp hV, hpres]
      rfl
    rw [ht]
    exact ⟨hnz h0, hall⟩
  | segv p V hc he hval hcur hp hV hpres hvma ht =>
    have h0 : policy_calls_step s inst = 0 := by
      rw [policy_calls_step_rw s inst p V hc he hval hcur hp hV, hpres, hvma]
      rfl
    rw [ht]
    exact ⟨hnz h0, hall⟩
  | fault p V vma f s1 s2 hc he hval hcur hp hV hpres hvma hgf hev hf hn1 hc1 hc2 ht =>
    have hpid : (s1.frame_table f).proc_id = (s.frame_table f).proc_id := by
      have h3 := norm_proc_id hn1 f
      exact h3
    have hocc : (s1.frame_table f).proc_id ≠ -1 := by rw [hpid]; exact hall f hf
    obtain ⟨hfl2, hft2⟩ := evict_occupied s1 s2 f hocc hev
    have hnp1 : s1.nprocs = s.nprocs := by
      have h3 := norm_nprocs hn1
      exact h3
    have hnp2 : s2.nprocs = s1.nprocs := evict_nprocs s1 s2 f hev
    rw [ht]
    refine ⟨?_, ?_⟩
    · show s2.free_frames ≠ []
      rw [hfl2]
      intro he2
      have h4 := (List.append_eq_nil.mp he2).2
      exact absurd h4 (by simp)
    · intro i hi2
      show ((fill_closed s2 p V inst.op vma f).frame_table i).proc_id ≠ -1
      rw [(frame_fill_closed s2 p V inst.op vma f i).1]
      split
      · rw [hc2.pid p (by omega)]
        omega
      · rw [hft2]
        have h3 := norm_proc_id hn1 i
        have h4 : (s1.frame_table i).proc_id = (s.frame_table i).proc_id := h3
        rw [h4]
        exact hall i hi2

theorem step_full (s : State) (inst : Instruction) (h : WF s)
    (hv : valid_inst s.nprocs s.current_process inst = true) :
    ∃ t, step s inst = some t ∧ WF t ∧ t.nprocs = s.nprocs ∧
      t.current_process = next_cur s.current_process inst ∧ StepKind s inst t := by
  obtain ⟨t, ht, hwt, hnt, hct, _, _⟩ := step_spec s inst h hv
  obtain ⟨t2, ht2, hk⟩ := step_kinds s inst h hv
  have e : t2 = t := by
    rw [ht] at ht2
    simp only [Option.some.injEq] at ht2
    exact ht2.symm
  subst e
  exact ⟨t2, ht, hwt, hnt, hct, hk⟩

theorem AfterPolicy_run : ∀ (insts : List Instruction) (s : State), WF s →
    valid_trace s.nprocs s.current_process insts = true → AfterPolicy s →
    ∃ t, simulate s insts = some t ∧ WF t ∧ AfterPolicy t := by
  intro insts s hw hv hP
  exact simulate_induct AfterPolicy (fun _ => True)
    (fun s inst t _ _ _ hk hp => StepKind_after hk hp.2 (Or.inl hp.1))
    insts s hw hv (fun _ _ => trivial) hP

theorem policy_calls_cons (s t : State) (inst : Instruction) (rest : List Instruction)
    (h : step s inst = some t) :
    policy_calls s (inst :: rest) = policy_calls_step s inst + policy_calls t rest := by
  show policy_calls_step s inst + (match step s inst with
    | some t => policy_calls t rest
    | none => 0) = _
  rw [h]

theorem policy_calls_zero : ∀ (insts : List Instruction) (s : State), WF s →
    valid_trace s.nprocs s.current_process insts = true → AfterPolicy s →
    policy_calls s insts = 0 := by
  intro insts
  induction insts with
  | nil => intro s _ _ _; rfl
  | cons inst rest ih =>
    intro s hw hv hP
    simp only [valid_trace, Bool.and_eq_true] at hv
    obtain ⟨t, ht, hwt, hnt, hct, hk⟩ := step_full s inst hw hv.1
    rw [policy_calls_cons s t inst rest ht, policy_calls_step_free s inst hP.1,
      ih t hwt (by rw [hnt, hct]; exact hv.2) (StepKind_after hk hP.2 (Or.inl hP.1))]

theorem policy_calls_le_one : ∀ (insts : List Instruction) (s : State), WF s →
    valid_trace s.nprocs s.current_process insts = true → policy_calls s insts ≤ 1 := by
  intro insts
  induction insts with
  | nil => intro s _ _; exact Nat.zero_le 1
  | cons inst rest ih =>
    intro s hw hv
    simp only [valid_trace, Bool.and_eq_true] at hv
    obtain ⟨t, ht, hwt, hnt, hct, hk⟩ := step_full s inst hw hv.1
    have hv2 : valid_trace t.nprocs t.current_process rest = true := by
      rw [hnt, hct]; exact hv.2
    rw [policy_calls_cons s t inst rest ht]
    by_cases h1 : policy_calls_step s inst = 1
    · have hfl : s.free_frames = [] := by
        by_contra hne
        rw [policy_calls_step_free s inst hne] at h1
        exact absurd h1 (by decide)
      have hP := StepKind_after hk (AllUsed_of_empty s hw hfl) (Or.inr h1)
      rw [h1, policy_calls_zero rest t hwt hv2 hP]
    · have h0 := policy_calls_step_le s inst
      have h2 := ih t hwt hv2
      omega

theorem after_consult : ∀ (insts : List Instruction) (s : State), WF s →
    valid_trace s.nprocs s.current_process insts = true →
    ∀ (k : Nat) (inst : Instruction), insts[k]? = some inst →
      (simulate s (insts.take k)).map (fun u => policy_calls_step u inst) = some 1 →
      ∀ m, k < m → ∃ t, simulate s (insts.take m) = some t ∧ WF t ∧ AfterPolicy t := by
  intro insts
  induction insts with
  | nil =>
    intro s _ _ k inst hk
    simp at hk
  | cons i rest ih =>
    intro s hw hv k inst hk hcall m hm
    simp only [valid_trace, Bool.and_eq_true] at hv
    obtain ⟨t1, ht1, hwt1, hnt1, hct1, hkind⟩ := step_full s i hw hv.1
    have hv2 : valid_trace t1.nprocs t1.current_process rest = true := by
      rw [hnt1, hct1]; exact hv.2
    obtain ⟨m1, rfl⟩ : ∃ m1, m = m1 + 1 := ⟨m - 1, by omega⟩
    rw [List.take_succ_cons, simulate_cons, ht1]
    cases k with
    | zero =>
      simp only [List.getElem?_cons_zero, Option.some.injEq] at hk
      subst hk
      have h1 : policy_calls_step s i = 1 := Option.some.inj hcall
      have hfl : s.free_frames = [] := by
        by_contra hne
        rw [policy_calls_step_free s i hne] at h1
        exact absurd h1 (by decide)
      have hP := StepKind_after hkind (AllUsed_of_empty s hw hfl) (Or.inr h1)
      exact AfterPolicy_run (rest.take m1) t1 hwt1
        (valid_trace_take t1.nprocs rest t1.current_process m1 hv2) hP
    | succ k1 =>
      rw [List.getElem?_cons_succ] at hk
      rw [List.take_succ_cons, simulate_cons, ht1] at hcall
      exact ih t1 hwt1 hv2 k1 inst hk hcall m1 (by omega)

/-- Claim C22. For every policy, every number of frames `1..128` and every valid trace
from the initial state, `select_victim_frame` is called at most once in the run
(`policy_calls` counts the calls). Moreover, if the instruction number `k` calls it
(the free list is empty when its page fault asks for a frame), then the run of every
longer prefix of the trace does not get stuck and ends in a state whose free list is
not empty, so that `get_frame` there returns the head of the free list and no
instruction issued from that state calls the policy. -/
theorem policy_consulted_once (vmas : List (List VMA)) (num_frames : Nat) (algo : Algo)
    (random_values : List Int) (insts : List Instruction)
    (hcfg : valid_config num_frames algo random_values)
    (htr : valid_trace vmas.length none insts = true) :
    policy_calls (initial_state vmas num_frames algo random_values) insts ≤ 1 ∧
      ∀ (k : Nat) (inst : Instruction), insts[k]? = some inst →
        (simulate (initial_state vmas num_frames algo random_values) (insts.take k)).map
          (fun u => policy_calls_step u inst) = some 1 →
        ∀ m, k < m →
          ∃ t, simulate (initial_state vmas num_frames algo random_values) (insts.take m) =
              some t ∧ t.free_frames ≠ [] ∧
            (∃ g rest, t.free_frames = g :: rest ∧
              get_frame t = some (g, { t with free_frames := rest })) ∧
            ∀ i, policy_calls_step t i = 0 := by
  have hw := WF_initial vmas num_frames algo random_values hcfg
  refine ⟨policy_calls_le_one insts _ hw htr, ?_⟩
  intro k inst hk hcall m hm
  obtain ⟨t, ht, _, hP⟩ := after_consult insts _ hw htr k inst hk hcall m hm
  refine ⟨t, ht, hP.1, ?_, fun i => policy_calls_step_free t i hP.1⟩
  cases hfl : t.free_frames with
  | nil => exact absurd hfl hP.1
  | cons g rest => exact ⟨g, rest, rfl, get_frame_head t g rest hfl⟩

/-- Witness for C22: one frame under FIFO; the fault of `r 1` (instruction number 2)
finds the free list empty and calls the policy. -/
theorem policy_consulted_once_witness :
    policy_calls (initial_state one_proc 1 Algo.f []) scenario1 ≤ 1 ∧
      ∃ t, simulate (initial_state one_proc 1 Algo.f []) (scenario1.take 3) = some t ∧
        t.free_frames ≠ [] ∧
        (∃ g rest, t.free_frames = g :: rest ∧
          get_frame t = some (g, { t with free_frames := rest })) ∧
        ∀ i, policy_calls_step t i = 0 :=
  ⟨(policy_consulted_once one_proc 1 Algo.f [] scenario1
      ⟨by decide, by decide, fun h => absurd h (by decide)⟩ (by decide)).1,
    (policy_consulted_once one_proc 1 Algo.f [] scenario1
      ⟨by decide, by decide, fun h => absurd h (by decide)⟩ (by decide)).2 2 ⟨'r', 1⟩ rfl
      (by set_option maxRecDepth 100000 in decide) 3 (by decide)⟩

/-- Evaluation of the scenario of the witness for C22: the policy is called exactly
once in the run, by `r 1`; after it and after the next fault the free list is `[0]`,
the frame that holds the page just mapped. -/
theorem policy_calls_demo :
    policy_calls (initial_state one_proc 1 Algo.f []) scenario1 = 1 ∧
    (simulate (initial_state one_proc 1 Algo.f []) (scenario1.take 2)).map
        (fun t => t.free_frames) = some [] ∧
    (simulate (initial_state one_proc 1 Algo.f []) (scenario1.take 3)).map
        (fun t => (t.free_frames, (get_pte t 0 1).present, (get_pte t 0 1).frame)) =
      some ([0], true, 0) ∧
    (simulate (initial_state one_proc 1 Algo.f []) scenario1).map
        (fun t => (t.free_frames, (get_pte t 0 2).present, (get_pte t 0 2).frame)) =
      some ([0], true, 0) := by
  refine ⟨?_, ?_, ?_, ?_⟩ <;> (set_option maxRecDepth 100000 in decide)

/-! ## Clock: the scan terminates -/

theorem Clock_loop_mono : ∀ (fuel k : Nat) (s : State) (hand : Nat) (r : Nat × State),
    Clock_loop fuel s hand = some r → Clock_loop (fuel + k) s hand = some r := by
  intro fuel
  induction fuel with
  | zero =>
    intro k s hand r h
    exact absurd h (by simp [Clock_loop])
  | succ fuel ih =>
    intro k s hand r h
    have e : fuel + 1 + k = (fuel + k) + 1 := by omega
    rw [e]
    unfold Clock_loop at h ⊢
    split
    · next hh =>
      rw [if_pos hh] at h
      split
      · next hsp => rw [hsp] at h; exact absurd h (by simp)
      · next p v hsp =>
        rw [hsp] at h
        simp only [] at h
        split
        · next hr =>
          rw [if_pos hr] at h
          exact ih k _ _ r h
        · next hr =>
          rw [if_neg hr] at h
          exact h
    · next hh =>
      rw [if_neg hh] at h
      exact absurd h (by simp)

theorem Clock_loop_clears : ∀ (fuel : Nat) (s : State) (hand : Nat) (r : Nat × State),
    Clock_loop fuel s hand = some r →
    ∀ p v, (get_pte r.2 p v).referenced = true → (get_pte s p v).referenced = true := by
  intro fuel
  induction fuel with
  | zero =>
    intro s hand r h
    exact absurd h (by simp [Clock_loop])
  | succ fuel ih =>
    intro s hand r h p v hr
    unfold Clock_loop at h
    split at h
    · split at h
      · exact absurd h (by simp)
      · next p0 v0 _ =>
        split at h
        · exact (referenced_set_referenced_false s p0 v0 p v (ih _ _ r h p v hr)).1
        · simp only [Option.some.injEq] at h
          rw [← h] at hr
          exact hr
    · exact absurd h (by simp)

/-- Claim C23. Clock on a frame table each of whose 128 slots names a page of an
existing process (slots may name the same page), entered with `hand < 128`. The first
argument of `Clock_loop` bounds the number of probes, one per iteration of the
`while (true)` loop; with 129 probes allowed the loop returns, and allowing more
probes gives the same result. The returned frame is one of the 128 slots, the state
differs from the entry state only in referenced bits and the hand, and no referenced
bit that was clear at entry is set. -/
theorem Clock_terminates (s : State) (hand : Nat) (hh : hand < MAX_FRAMES)
    (hall : ∀ i, i < MAX_FRAMES → (slot_page s i).isSome = true) :
    ∃ r, Clock_loop 129 s hand = some r ∧
      (∀ fuel, 129 ≤ fuel → Clock_loop fuel s hand = some r) ∧
      Clock_select s hand = some r ∧ r.1 < MAX_FRAMES ∧ norm r.2 = norm s ∧
      ∀ p v, (get_pte r.2 p v).referenced = true → (get_pte s p v).referenced = true := by
  obtain ⟨r, hr, hn, hf, _⟩ := Clock_loop_spec (MAX_FRAMES + 1) s hand 0 rfl (Nat.zero_le _) hh
    hall (fun j hj => absurd hj (Nat.not_lt_zero j))
  refine ⟨r, hr, ?_, hr, hf, hn, Clock_loop_clears _ s hand r hr⟩
  intro fuel hfuel
  have h1 := Clock_loop_mono (MAX_FRAMES + 1) (fuel - 129) s hand r hr
  have e : MAX_FRAMES + 1 + (fuel - 129) = fuel := by
    simp only [MAX_FRAMES]
    omega
  rw [e] at h1
  exact h1

/-- Witness for C23: a full frame table on which every page is referenced. -/
theorem Clock_terminates_witness :
    ∃ r, Clock_loop 129 clock_demo 0 = some r ∧
      (∀ fuel, 129 ≤ fuel → Clock_loop fuel clock_demo 0 = some r) ∧
      Clock_select clock_demo 0 = some r ∧ r.1 < MAX_FRAMES ∧ norm r.2 = norm clock_demo ∧
      ∀ p v, (get_pte r.2 p v).referenced = true → (get_pte clock_demo p v).referenced = true :=
  Clock_terminates clock_demo 0 (by decide)
    (fun i hi => by rw [full_frames_slot clock_demo _ rfl rfl i hi]; rfl)

/-- Evaluation of the scenario of the witness for C23: with 128 distinct referenced
pages the first 128 probes each clear a bit, so 128 probes are not enough, and probe
number 129 returns frame 0 with the hand at 1. The bound 129 is attained. -/
theorem Clock_needs_129_probes :
    (Clock_loop 128 clock_demo 0).isNone = true ∧
    (Clock_loop 129 clock_demo 0).map (fun r => (r.1, pager_hand r.2.pager)) = some (0, 1) := by
  refine ⟨?_, ?_⟩ <;> (set_option maxRecDepth 100000 in decide)

end VMM
